import Mathlib

/-!
# Verification of `SkipList.hpp` (shindler::ics46::project2)

The C++ class `SkipList<K, V>` is a pointer-linked tower of singly linked lists.
It is embedded here over an explicit free store: a node pointer is `Option Nat`
(`none` is `nullptr`), `new` takes the next unused address, `delete` empties the cell,
and every loop of the source is a structurally recursive function with a step budget.
Dereferencing a null or released pointer and running out of budget are separate outcomes
(`Exn.invalidAccess`, `Exn.fuelExhausted`); they are shown not to occur on any state that
the public operations can produce.

`size_t` counters are natural numbers: each of them is bounded by the number of nodes
ever allocated, so the 64-bit wrap-around of the source is out of reach.
-/

set_option autoImplicit false

/-! ## The coin flip -/

/-- Shift amounts of `enum class IntegerByteOffsets`. -/
inductive IntegerByteOffsets where
  | Byte0
  | Byte1
  | Byte2
  | Byte3
deriving DecidableEq, Repr

/-- The value behind each enumerator (`static_cast<uint32_t>(byte)`). -/
def IntegerByteOffsets.toNat : IntegerByteOffsets → Nat
  | .Byte0 => 24
  | .Byte1 => 16
  | .Byte2 => 8
  | .Byte3 => 0

/-- Source `flipCoinByteSelector`: `(key & (0xFF << byte)) >> byte`, all in `uint32_t`,
then narrowed to one byte. -/
def flipCoinByteSelector (key : Nat) (byte : IntegerByteOffsets) : Nat :=
  (((key % 2 ^ 32) &&& ((0xFF <<< byte.toNat) % 2 ^ 32)) >>> byte.toNat) % 256

/-- Source constant `NUMBER_OF_BITS_IN_BYTE`. -/
def NUMBER_OF_BITS_IN_BYTE : Nat := 8

/-- Source `flipCoin(unsigned int key, size_t previousFlips)`. -/
def flipCoin (key : Nat) (previousFlips : Nat) : Bool :=
  let firstByte := flipCoinByteSelector key .Byte0
  let secondByte := flipCoinByteSelector key .Byte1
  let thirdByte := flipCoinByteSelector key .Byte2
  let fourthByte := flipCoinByteSelector key .Byte3
  let hash := firstByte ^^^ secondByte ^^^ thirdByte ^^^ fourthByte
  let bitToSelect := (1 <<< (previousFlips % NUMBER_OF_BITS_IN_BYTE)) % 256
  (hash &&& bitToSelect) != 0

/-- Source `flipCoin(const std::string& key, size_t previousFlips)`; the string is given
by its characters, each narrowed to a byte as `static_cast<std::byte>` does. -/
def flipCoinString (key : List Nat) (previousFlips : Nat) : Bool :=
  let hash := key.foldl (fun h character => h ^^^ (character % 256)) 0
  let bitToSelect := (1 <<< (previousFlips % NUMBER_OF_BITS_IN_BYTE)) % 256
  (hash &&& bitToSelect) != 0

/-! ## Nodes, free store, structure -/

/-- Source `struct Node`; `right` and `down` are addresses in the free store. -/
structure Node (K V : Type) where
  key : K
  keyValid : Bool
  value : V
  hasValue : Bool
  right : Option Nat
  down : Option Nat

/-- The free store: the node held at each address, `none` where nothing is allocated. -/
abbrev Mem (K V : Type) := Nat → Option (Node K V)

/-- Store `n` at address `a`. -/
def Mem.write {K V : Type} (mem : Mem K V) (a : Nat) (n : Node K V) : Mem K V :=
  fun b => if b = a then some n else mem b

/-- Release address `a` (`delete`). -/
def Mem.free {K V : Type} (mem : Mem K V) (a : Nat) : Mem K V :=
  fun b => if b = a then none else mem b

/-- What an operation can end with besides a result. `outOfRange` and `logicError` are the
two exception classes the source throws; the other two are faults of the model. -/
inductive Exn where
  | outOfRange (what : String)
  | logicError (what : String)
  | invalidAccess
  | fuelExhausted
deriving DecidableEq, Repr

deriving instance DecidableEq for Except

/-- Source `class SkipList`: the private members, together with the free store they point
into and the next address `new` will hand out. -/
structure SkipList (K V : Type) where
  mem : Mem K V
  next : Nat
  topHead_ : Option Nat
  height_ : Nat
  size_ : Nat

namespace SkipList

variable {K V : Type}

/-- Source `Node() = default` (a sentinel). -/
def sentinel [Inhabited K] [Inhabited V] : Node K V :=
  { key := default, keyValid := false, value := default, hasValue := false,
    right := none, down := none }

/-- Source `Node(const K& k, const V& v)`. -/
def bottomNodeOf (k : K) (v : V) : Node K V :=
  { key := k, keyValid := true, value := v, hasValue := true, right := none, down := none }

/-- Source `Node(const K& k, Node* below)`. -/
def upperNodeOf [Inhabited V] (k : K) (below : Nat) : Node K V :=
  { key := k, keyValid := true, value := default, hasValue := false,
    right := none, down := some below }

/-- Exact integer `floor(log2 n)`, the position of the leading bit of `n`, by repeated
halving (`budget` bounds the halvings). -/
def floorLog2Aux : Nat → Nat → Nat
  | 0, _ => 0
  | budget + 1, n => if n ≤ 1 then 0 else floorLog2Aux budget (n / 2) + 1

/-- Exact integer `floor(log2 n)`; 0 for `n = 0`. -/
def floorLog2 (n : Nat) : Nat := floorLog2Aux n n

/-- The multiple of `unit` nearest to `n`, the even multiple when `n` is halfway between
two of them. -/
def roundToEven (unit n : Nat) : Nat :=
  if 2 * (n % unit) < unit ∨ (2 * (n % unit) = unit ∧ (n / unit) % 2 = 0) then n / unit * unit
  else (n / unit + 1) * unit

/-- The conversion of a `size_t` to `double` that `std::log2(nextSize)` starts with: a
`double` has 53 significant bits, so the bits of `n` below the 53 leading ones are rounded
away, to the nearest value and to the even one on a tie. A number below `2 ^ 53` is kept as
it is. The result is a whole number and is given as such. -/
def toDouble (n : Nat) : Nat := roundToEven (2 ^ (floorLog2 n - 52)) n

/-- `std::ceil(std::log2(x))` in `double` arithmetic, for a `double` `x` with a whole value
of at least 1. The result of `std::log2` is taken to be the `double` nearest to the real
logarithm. With `k = floor(log2 x)` the real logarithm lies in `[k, k + 1)`, and the
`double` next above `k` is `k + 2 ^ floor(log2 k) / 2 ^ 52`, so `std::log2` returns `k`
itself, and `std::ceil` gives `k`, exactly when the real logarithm is below the midpoint
`k + 2 ^ floor(log2 k) / 2 ^ 53`, that is when
`ln(x / 2 ^ k) < ln 2 * 2 ^ floor(log2 k) / 2 ^ 53`; otherwise `std::ceil` gives `k + 1`.
The test is made in whole numbers with `(x - 2 ^ k) / 2 ^ k` for `ln(x / 2 ^ k)` and
`6931471805599453 / 10 ^ 16` for `ln 2`: for a `double` these decide the same. -/
def ceilLog2Double (x : Nat) : Nat :=
  if (x - 2 ^ floorLog2 x) * 2 ^ 53 * 10 ^ 16 <
      6931471805599453 * 2 ^ floorLog2 (floorLog2 x) * 2 ^ floorLog2 x then floorLog2 x
  else floorLog2 x + 1

/-- Source `layerLimit`: `std::log2` converts `nextSize` to `double`, and the logarithm
and `std::ceil` are computed in `double`. -/
def layerLimit (nextSize : Nat) : Nat :=
  if nextSize ≤ 16 then 13 else 3 * ceilLog2Double (toDouble nextSize) + 1

/-- Source constructor `SkipList()`: two sentinels, the top one above the bottom one. -/
def create [Inhabited K] [Inhabited V] : SkipList K V :=
  { mem := Mem.write (Mem.write (fun _ => none) 0 { (sentinel : Node K V) with down := some 1 }) 1
      sentinel
    next := 2
    topHead_ := some 0
    height_ := 2
    size_ := 0 }

/-- Source `size()`. -/
def size (s : SkipList K V) : Nat := s.size_

/-- Source `empty()`. -/
def empty (s : SkipList K V) : Bool := s.size_ == 0

/-- Source `layers()`. -/
def layers (s : SkipList K V) : Nat := s.height_

/-- Source `addEmptyTopLayer`. -/
def addEmptyTopLayer [Inhabited K] [Inhabited V] (s : SkipList K V) : SkipList K V :=
  { s with
    mem := Mem.write s.mem s.next { (sentinel : Node K V) with down := s.topHead_ }
    next := s.next + 1
    topHead_ := some s.next
    height_ := s.height_ + 1 }

section Loops

variable [LinearOrder K]

/-- The inner loop shared by `collectPredecessors`, `searchBottomNode`, `height`, `erase`
and `nextKey`:
`while (cur->right && cur->right->keyValid && go(cur->right->key)) { cur = cur->right; ++visited; }`
where `go k` is `k < key` (or `k <= key` in `nextKey`). Callers that do not count ignore
the second component. -/
def walkRight (mem : Mem K V) (go : K → Bool) : Nat → Nat → Nat → Except Exn (Nat × Nat)
  | 0, _, _ => .error .fuelExhausted
  | fuel + 1, cur, visited =>
    match mem cur with
    | none => .error .invalidAccess
    | some c =>
      match c.right with
      | none => .ok (cur, visited)
      | some r =>
        match mem r with
        | none => .error .invalidAccess
        | some n =>
          if n.keyValid && go n.key then walkRight mem go fuel r (visited + 1)
          else .ok (cur, visited)

/-- The test `cur->right && cur->right->keyValid && cur->right->key == key`. -/
def rightIs (mem : Mem K V) (key : K) (cur : Nat) : Except Exn Bool :=
  match mem cur with
  | none => .error .invalidAccess
  | some c =>
    match c.right with
    | none => .ok false
    | some r =>
      match mem r with
      | none => .error .invalidAccess
      | some n => .ok (n.keyValid && decide (n.key = key))

/-- The loop `while (p->down) p = p->down;`. -/
def descend (mem : Mem K V) : Nat → Nat → Except Exn Nat
  | 0, _ => .error .fuelExhausted
  | fuel + 1, p =>
    match mem p with
    | none => .error .invalidAccess
    | some n =>
      match n.down with
      | none => .ok p
      | some d => descend mem fuel d

/-- Outer loop of `collectPredecessors`; `preds` grows at the back. -/
def collectLoop (mem : Mem K V) (key : K) (inner : Nat) :
    Nat → Option Nat → List Nat → Nat → Except Exn (List Nat × Nat)
  | 0, _, _, _ => .error .fuelExhausted
  | _ + 1, none, preds, visited => .ok (preds, visited)
  | fuel + 1, some cur, preds, visited =>
    match walkRight mem (fun k => decide (k < key)) inner cur (visited + 1) with
    | .error e => .error e
    | .ok (cur, visited) =>
      match mem cur with
      | none => .error .invalidAccess
      | some c => collectLoop mem key inner fuel c.down (preds ++ [cur]) visited

/-- Source `collectPredecessors` (`preds.clear()` first; `visited` is an in-out counter). -/
def collectPredecessors (s : SkipList K V) (key : K) (visited : Nat) :
    Except Exn (List Nat × Nat) :=
  collectLoop s.mem key (s.next + 1) (s.next + 1) s.topHead_ [] visited

/-- Outer loop of `searchBottomNode`. -/
def searchLoop (mem : Mem K V) (key : K) (inner : Nat) :
    Nat → Option Nat → Nat → Except Exn (Option Nat × Nat)
  | 0, _, _ => .error .fuelExhausted
  | _ + 1, none, visited => .ok (none, visited)
  | fuel + 1, some cur, visited =>
    match walkRight mem (fun k => decide (k < key)) inner cur (visited + 1) with
    | .error e => .error e
    | .ok (cur, visited) =>
      match rightIs mem key cur with
      | .error e => .error e
      | .ok true =>
        match mem cur with
        | none => .error .invalidAccess
        | some c =>
          match c.right with
          | none => .error .invalidAccess
          | some hit =>
            match descend mem inner hit with
            | .error e => .error e
            | .ok hit => .ok (some hit, visited)
      | .ok false =>
        match mem cur with
        | none => .error .invalidAccess
        | some c => searchLoop mem key inner fuel c.down visited

/-- Source `searchBottomNode`: the bottom node for `key` or `nullptr`, and the updated
visit counter. -/
def searchBottomNode (s : SkipList K V) (key : K) (visited : Nat) :
    Except Exn (Option Nat × Nat) :=
  searchLoop s.mem key (s.next + 1) (s.next + 1) s.topHead_ visited

/-- Outer loop of `height`. After a match the walk continues from `cur->right->down`. -/
def heightLoop (mem : Mem K V) (key : K) (inner : Nat) :
    Nat → Option Nat → Nat → Except Exn Nat
  | 0, _, _ => .error .fuelExhausted
  | _ + 1, none, h => .ok h
  | fuel + 1, some cur, h =>
    match walkRight mem (fun k => decide (k < key)) inner cur 0 with
    | .error e => .error e
    | .ok (cur, _) =>
      match rightIs mem key cur with
      | .error e => .error e
      | .ok true =>
        match mem cur with
        | none => .error .invalidAccess
        | some c =>
          match c.right with
          | none => .error .invalidAccess
          | some r =>
            match mem r with
            | none => .error .invalidAccess
            | some n => heightLoop mem key inner fuel n.down (h + 1)
      | .ok false =>
        match mem cur with
        | none => .error .invalidAccess
        | some c => heightLoop mem key inner fuel c.down h

/-- The exception `std::out_of_range("Key not found")` (the spec's `NotFound`). -/
def notFound : Exn := .outOfRange "Key not found"

/-- The exception `std::out_of_range("No next key")` (the spec's `NoSuccessor`). -/
def noSuccessor : Exn := .outOfRange "No next key"

/-- The exception `std::out_of_range("No previous key")` (the spec's `NoPredecessor`). -/
def noPredecessor : Exn := .outOfRange "No previous key"

/-- Source `height`. -/
def height (s : SkipList K V) (key : K) : Except Exn Nat :=
  match heightLoop s.mem key (s.next + 1) (s.next + 1) s.topHead_ 0 with
  | .error e => .error e
  | .ok h => if h = 0 then .error notFound else .ok h

/-- The statements `Node* bottomHead = topHead_; while (bottomHead->down) bottomHead = bottomHead->down;`. -/
def bottomHead (s : SkipList K V) : Except Exn Nat :=
  match s.topHead_ with
  | none => .error .invalidAccess
  | some top => descend s.mem (s.next + 1) top

/-- Source `nextKey`. -/
def nextKey (s : SkipList K V) (key : K) : Except Exn K :=
  match searchBottomNode s key 0 with
  | .error e => .error e
  | .ok (none, _) => .error notFound
  | .ok (some _, _) =>
    match bottomHead s with
    | .error e => .error e
    | .ok bh =>
      match walkRight s.mem (fun k => decide (k ≤ key)) (s.next + 1) bh 0 with
      | .error e => .error e
      | .ok (cur, _) =>
        match s.mem cur with
        | none => .error .invalidAccess
        | some c =>
          match c.right with
          | none => .error noSuccessor
          | some r =>
            match s.mem r with
            | none => .error .invalidAccess
            | some n => if !n.keyValid then .error noSuccessor else .ok n.key

/-- The loop of `previousKey`:
`while (cur && cur->keyValid && cur->key < key) { prev = cur; cur = cur->right; }`;
the result is the final `(cur, prev)`. -/
def prevLoop (mem : Mem K V) (key : K) :
    Nat → Option Nat → Option Nat → Except Exn (Option Nat × Option Nat)
  | 0, _, _ => .error .fuelExhausted
  | _ + 1, none, prev => .ok (none, prev)
  | fuel + 1, some cur, prev =>
    match mem cur with
    | none => .error .invalidAccess
    | some c =>
      if c.keyValid && decide (c.key < key) then prevLoop mem key fuel c.right (some cur)
      else .ok (some cur, prev)

/-- Source `previousKey`. -/
def previousKey (s : SkipList K V) (key : K) : Except Exn K :=
  match searchBottomNode s key 0 with
  | .error e => .error e
  | .ok (none, _) => .error notFound
  | .ok (some _, _) =>
    match bottomHead s with
    | .error e => .error e
    | .ok bh =>
      match s.mem bh with
      | none => .error .invalidAccess
      | some b =>
        match prevLoop s.mem key (s.next + 1) b.right none with
        | .error e => .error e
        | .ok (none, _) => .error (.logicError "Structure error")
        | .ok (some cur, prev) =>
          match s.mem cur with
          | none => .error .invalidAccess
          | some c =>
            if c.key ≠ key then .error (.logicError "Structure error")
            else
              match prev with
              | none => .error noPredecessor
              | some p =>
                match s.mem p with
                | none => .error .invalidAccess
                | some pn => .ok pn.key

/-- Source `find` (both overloads have the same body). The second component is the
structure after the call. -/
def find (s : SkipList K V) (key : K) : Except Exn (V × Nat) × SkipList K V :=
  match searchBottomNode s key 0 with
  | .error e => (.error e, s)
  | .ok (none, _) => (.error notFound, s)
  | .ok (some bottomNode, visited) =>
    match s.mem bottomNode with
    | none => (.error .invalidAccess, s)
    | some n => (.ok (n.value, visited), s)

/-- The loop `while (towerLevels < limit && flipCoin(key, towerLevels - 1)) ++towerLevels;`.
The first argument is `limit - towerLevels`, so that `towerLevels < limit` reads
"the first argument is not zero". -/
def towerLoop (flip : K → Nat → Bool) (key : K) : Nat → Nat → Nat
  | 0, towerLevels => towerLevels
  | gap + 1, towerLevels =>
    if flip key (towerLevels - 1) then towerLoop flip key gap (towerLevels + 1)
    else towerLevels

/-- The loop `while (towerLevels >= height_) { addEmptyTopLayer(); preds.insert(preds.begin(), topHead_); }`.
The first argument is `towerLevels + 1 - height_`, the number of iterations left. -/
def growLayers [Inhabited K] [Inhabited V] :
    Nat → SkipList K V → List Nat → SkipList K V × List Nat
  | 0, s, preds => (s, preds)
  | n + 1, s, preds => growLayers n (addEmptyTopLayer s) (s.next :: preds)

/-- The three statements that link a freshly allocated node `n`, placed at address `a`,
right after `pred`: `n->right = pred->right; pred->right = n;`. -/
def linkAfter (mem : Mem K V) (pred : Nat) (a : Nat) (n : Node K V) : Except Exn (Mem K V) :=
  match mem pred with
  | none => .error .invalidAccess
  | some p =>
    .ok (Mem.write (Mem.write mem a { n with right := p.right }) pred { p with right := some a })

/-- The `for` loop of `insert`. The list holds `preds[i]` for `i = preds.size() - 2` down
to `0`; the state is `(built, below)`, the free store and the next free address. -/
def buildTower [Inhabited V] (key : K) (towerLevels : Nat) :
    List Nat → Nat → Nat → Mem K V → Nat → Except Exn (Mem K V × Nat)
  | [], _, _, mem, next => .ok (mem, next)
  | pred :: rest, built, below, mem, next =>
    if built < towerLevels then
      match linkAfter mem pred next (upperNodeOf key below) with
      | .error e => .error e
      | .ok mem1 => buildTower key towerLevels rest (built + 1) next mem1 (next + 1)
    else .ok (mem, next)

/-- The tower height `insert` settles on: the statements
`limit = layerLimit(size_ + 1); towerLevels = 1; while (...) ++towerLevels;`. -/
def towerLevelsFor (flip : K → Nat → Bool) (s : SkipList K V) (key : K) : Nat :=
  towerLoop flip key (layerLimit (s.size_ + 1) - 1) 1

/-- Source `insert`, with the overload of `flipCoin` for the key type passed as `flip`.
The result is `none` for `std::nullopt`; the second component is the structure after the
call. -/
def insert [Inhabited K] [Inhabited V] (flip : K → Nat → Bool) (s : SkipList K V) (key : K)
    (value : V) : Except Exn (Option Nat) × SkipList K V :=
  match collectPredecessors s key 0 with
  | .error e => (.error e, s)
  | .ok (preds, visited) =>
    match preds.getLast? with
    | none => (.error .invalidAccess, s)
    | some bottomPred =>
      match rightIs s.mem key bottomPred with
      | .error e => (.error e, s)
      | .ok true => (.ok none, s)
      | .ok false =>
        let nextSize := s.size_ + 1
        let limit := layerLimit nextSize
        let towerLevels := towerLoop flip key (limit - 1) 1
        let grown := growLayers (towerLevels + 1 - s.height_) s preds
        let s1 := grown.1
        let preds1 := grown.2
        match linkAfter s1.mem bottomPred s1.next (bottomNodeOf key value) with
        | .error e => (.error e, s1)
        | .ok mem1 =>
          match buildTower key towerLevels preds1.dropLast.reverse 1 s1.next mem1
              (s1.next + 1) with
          | .error e => (.error e, s1)
          | .ok (mem2, next2) =>
            (.ok (some visited), { s1 with mem := mem2, next := next2, size_ := s1.size_ + 1 })

/-- The loop of `allKeysInOrder`: `while (cur) { if (cur->keyValid) out.push_back(cur->key); cur = cur->right; }`. -/
def keysLoop (mem : Mem K V) : Nat → Option Nat → List K → Except Exn (List K)
  | 0, _, _ => .error .fuelExhausted
  | _ + 1, none, out => .ok out
  | fuel + 1, some cur, out =>
    match mem cur with
    | none => .error .invalidAccess
    | some c => keysLoop mem fuel c.right (if c.keyValid then out ++ [c.key] else out)

/-- Source `allKeysInOrder`. -/
def allKeysInOrder (s : SkipList K V) : Except Exn (List K) :=
  match bottomHead s with
  | .error e => .error e
  | .ok layer =>
    match s.mem layer with
    | none => .error .invalidAccess
    | some l => keysLoop s.mem (s.next + 1) l.right []

/-- Source `isSmallestKey`. -/
def isSmallestKey (s : SkipList K V) (key : K) : Except Exn Bool :=
  match searchBottomNode s key 0 with
  | .error e => .error e
  | .ok (none, _) => .error notFound
  | .ok (some _, _) =>
    match bottomHead s with
    | .error e => .error e
    | .ok bh =>
      match s.mem bh with
      | none => .error .invalidAccess
      | some b =>
        match b.right with
        | none => .error (.logicError "Empty structure mismatch")
        | some first =>
          match s.mem first with
          | none => .error .invalidAccess
          | some f =>
            if !f.keyValid then .error (.logicError "Empty structure mismatch")
            else .ok (decide (f.key = key))

/-- The loop of `isLargestKey`: `while (cur) { if (cur->keyValid) last = cur; cur = cur->right; }`. -/
def lastLoop (mem : Mem K V) : Nat → Option Nat → Option Nat → Except Exn (Option Nat)
  | 0, _, _ => .error .fuelExhausted
  | _ + 1, none, last => .ok last
  | fuel + 1, some cur, last =>
    match mem cur with
    | none => .error .invalidAccess
    | some c => lastLoop mem fuel c.right (if c.keyValid then some cur else last)

/-- Source `isLargestKey`. -/
def isLargestKey (s : SkipList K V) (key : K) : Except Exn Bool :=
  match searchBottomNode s key 0 with
  | .error e => .error e
  | .ok (none, _) => .error notFound
  | .ok (some _, _) =>
    match bottomHead s with
    | .error e => .error e
    | .ok bh =>
      match s.mem bh with
      | none => .error .invalidAccess
      | some b =>
        match lastLoop s.mem (s.next + 1) b.right none with
        | .error e => .error e
        | .ok none => .error (.logicError "Empty structure mismatch")
        | .ok (some last) =>
          match s.mem last with
          | none => .error .invalidAccess
          | some l => .ok (decide (l.key = key))

/-- Outer loop of `erase`; the state is the free store and the flag `removed`. -/
def eraseLoop (key : K) (inner : Nat) :
    Nat → Option Nat → Mem K V → Bool → Except Exn (Mem K V × Bool)
  | 0, _, _, _ => .error .fuelExhausted
  | _ + 1, none, mem, removed => .ok (mem, removed)
  | fuel + 1, some cur, mem, removed =>
    match walkRight mem (fun k => decide (k < key)) inner cur 0 with
    | .error e => .error e
    | .ok (cur, _) =>
      match rightIs mem key cur with
      | .error e => .error e
      | .ok true =>
        match mem cur with
        | none => .error .invalidAccess
        | some c =>
          match c.right with
          | none => .error .invalidAccess
          | some doomed =>
            match mem doomed with
            | none => .error .invalidAccess
            | some d =>
              eraseLoop key inner fuel c.down
                (Mem.free (Mem.write mem cur { c with right := d.right }) doomed) true
      | .ok false =>
        match mem cur with
        | none => .error .invalidAccess
        | some c => eraseLoop key inner fuel c.down mem removed

/-- Source `erase`. The second component is the structure after the call, also when the
call throws. `--size_` is the `size_t` decrement. -/
def erase (s : SkipList K V) (key : K) : Except Exn Unit × SkipList K V :=
  match eraseLoop key (s.next + 1) (s.next + 1) s.topHead_ s.mem false with
  | .error e => (.error e, s)
  | .ok (mem, removed) =>
    if !removed then (.error notFound, { s with mem := mem })
    else (.ok (), { s with mem := mem, size_ := if s.size_ = 0 then 2 ^ 64 - 1 else s.size_ - 1 })

/-- The loop of `allKeysInOrder` with `(key, value)` in place of `key`. -/
def entriesLoop (mem : Mem K V) : Nat → Option Nat → List (K × V) → Except Exn (List (K × V))
  | 0, _, _ => .error .fuelExhausted
  | _ + 1, none, out => .ok out
  | fuel + 1, some cur, out =>
    match mem cur with
    | none => .error .invalidAccess
    | some c =>
      entriesLoop mem fuel c.right (if c.keyValid then out ++ [(c.key, c.value)] else out)

/-- The keys of the layer-0 nodes with the values stored in them, in chain order:
`allKeysInOrder` with the value of each node next to its key. -/
def bottomEntries (s : SkipList K V) : Except Exn (List (K × V)) :=
  match bottomHead s with
  | .error e => .error e
  | .ok layer =>
    match s.mem layer with
    | none => .error .invalidAccess
    | some l => entriesLoop s.mem (s.next + 1) l.right []

/-- The key is among the keys `allKeysInOrder` returns. -/
def contains (s : SkipList K V) (key : K) : Bool :=
  match allKeysInOrder s with
  | .ok ks => decide (key ∈ ks)
  | .error _ => false

/-- Walk down the sentinels and count the layers whose chain has a real node with `key`. -/
def countLayers (mem : Mem K V) (key : K) (inner : Nat) :
    Nat → Option Nat → Nat → Except Exn Nat
  | 0, _, _ => .error .fuelExhausted
  | _ + 1, none, count => .ok count
  | fuel + 1, some head, count =>
    match mem head with
    | none => .error .invalidAccess
    | some h =>
      match keysLoop mem inner h.right [] with
      | .error e => .error e
      | .ok ks => countLayers mem key inner fuel h.down (if key ∈ ks then count + 1 else count)

/-- The number of layers whose right-chain contains a node with key `key`: the length of
the tower of `key`, counted on the free store. -/
def towerOf (s : SkipList K V) (key : K) : Except Exn Nat :=
  countLayers s.mem key (s.next + 1) (s.next + 1) s.topHead_ 0

end Loops

/-! ## Running the operations -/

section Runs

variable [LinearOrder K] [Inhabited K] [Inhabited V]

/-- The structures obtained from the freshly constructed one by calls of `insert` and
`erase`, whatever their outcome. -/
inductive Reachable (flip : K → Nat → Bool) : SkipList K V → Prop where
  | fresh : Reachable flip SkipList.create
  | insert (s : SkipList K V) (key : K) (value : V) :
      Reachable flip s → Reachable flip (SkipList.insert flip s key value).2
  | erase (s : SkipList K V) (key : K) :
      Reachable flip s → Reachable flip (SkipList.erase s key).2

/-- Insert the pairs one after the other; the outcomes are listed in call order. -/
def insertAll (flip : K → Nat → Bool) :
    SkipList K V → List (K × V) → List (Except Exn (Option Nat)) × SkipList K V
  | s, [] => ([], s)
  | s, (k, v) :: rest =>
    let r := SkipList.insert flip s k v
    let rs := insertAll flip r.2 rest
    (r.1 :: rs.1, rs.2)

end Runs

/-! ## The layers behind a free store -/

/-- A node of a layer without its `right` pointer: its address and the fields that no
operation ever overwrites. -/
structure Cell (K V : Type) where
  addr : Nat
  key : K
  keyValid : Bool
  value : V
  hasValue : Bool
  down : Option Nat

/-- The node a cell stands for, given its `right` pointer. -/
def Cell.node (c : Cell K V) (right : Option Nat) : Node K V :=
  { key := c.key, keyValid := c.keyValid, value := c.value, hasValue := c.hasValue,
    right := right, down := c.down }

/-- The cell of a node stored at address `a`. -/
def Cell.ofNode (a : Nat) (n : Node K V) : Cell K V :=
  { addr := a, key := n.key, keyValid := n.keyValid, value := n.value,
    hasValue := n.hasValue, down := n.down }

/-- A sentinel, or a real node whose key is smaller than `key`. -/
def Cell.below [LinearOrder K] (key : K) (c : Cell K V) : Bool :=
  !c.keyValid || decide (c.key < key)

/-- A real node with key `key`. -/
def Cell.is [LinearOrder K] (key : K) (c : Cell K V) : Bool :=
  c.keyValid && decide (c.key = key)

/-- The order of two cells of one layer: the later one is real and, if the earlier one is
real too, has the larger key. -/
def Cell.before [LinearOrder K] (a b : Cell K V) : Prop :=
  b.keyValid = true ∧ (a.keyValid = true → a.key < b.key)

/-- Following `right` from pointer `p` one passes exactly the cells `cs` and arrives at
pointer `q`. -/
def Seg (mem : Mem K V) : Option Nat → List (Cell K V) → Option Nat → Prop
  | p, [], q => p = q
  | p, c :: cs, q => p = some c.addr ∧ ∃ r, mem c.addr = some (c.node r) ∧ Seg mem r cs q

/-- A layer: a sentinel followed by real nodes with strictly increasing keys, chained by
`right` and ended by `nullptr`. -/
def LayerOK [LinearOrder K] (mem : Mem K V) (L : List (Cell K V)) : Prop :=
  ∃ hd cells, L = hd :: cells ∧ hd.keyValid = false ∧ L.Pairwise Cell.before ∧
    Seg mem (some hd.addr) L none

/-- Every node of the upper layer points down at a node of the lower layer of the same
kind and, for a real node, of the same key. -/
def Linked (U L : List (Cell K V)) : Prop :=
  ∀ c ∈ U, ∃ d ∈ L, c.down = some d.addr ∧ d.keyValid = c.keyValid ∧
    (c.keyValid = true → d.key = c.key)

/-- The nodes of the lowest layer have no `down` pointer. -/
def Bottom (L : List (Cell K V)) : Prop := ∀ c ∈ L, c.down = none

/-- The part of `Shape` that every lower part of the structure has as well. -/
structure Tower [LinearOrder K] (mem : Mem K V) (ls : List (List (Cell K V))) : Prop where
  layer : ∀ L ∈ ls, LayerOK mem L
  linked : ls.Chain' Linked
  bottom : ∃ B, ls.getLast? = some B ∧ Bottom B

/-- The free store holds the layers `ls` (top layer first): each is a layer, each is linked
to the next one, the last one is the bottom, no address is used twice and all of them are
below `next`. -/
structure Shape [LinearOrder K] (mem : Mem K V) (next : Nat) (ls : List (List (Cell K V))) :
    Prop where
  layer : ∀ L ∈ ls, LayerOK mem L
  linked : ls.Chain' Linked
  bottom : ∃ B, ls.getLast? = some B ∧ Bottom B
  nodup : (ls.flatten.map Cell.addr).Nodup
  bound : ∀ c ∈ ls.flatten, c.addr < next

/-- The structure `s` holds the layers `ls`: `topHead_` is the sentinel of the first one,
which has no real node, `height_` counts the layers (at least two) and `size_` the real
nodes of the bottom layer. -/
structure Inv [LinearOrder K] (s : SkipList K V) (ls : List (List (Cell K V))) : Prop where
  shape : Shape s.mem s.next ls
  top : ∃ hd, ls.head? = some [hd] ∧ s.topHead_ = some hd.addr
  height : s.height_ = ls.length
  two : 2 ≤ ls.length
  size : ∃ B, ls.getLast? = some B ∧ B.length = s.size_ + 1

/-- The cell a walk along layer `c :: rest` stops at when it starts at `c` and steps right
as long as the next node is below `key`. -/
def stopCell [LinearOrder K] (key : K) (c : Cell K V) (rest : List (Cell K V)) : Cell K V :=
  (rest.takeWhile (Cell.below key)).getLastD c

/-- The predecessor of `key` in a layer: the last node below `key`. -/
def predOf [LinearOrder K] (key : K) (L : List (Cell K V)) : Option (Cell K V) :=
  (L.takeWhile (Cell.below key)).getLast?

/-- A layer with the cell `c` put right after the predecessor of `key`. -/
def insCell [LinearOrder K] (key : K) (c : Cell K V) (L : List (Cell K V)) :
    List (Cell K V) :=
  L.takeWhile (Cell.below key) ++ c :: L.dropWhile (Cell.below key)

/-- A layer without the node of `key`. -/
def delKey [LinearOrder K] (key : K) (L : List (Cell K V)) : List (Cell K V) :=
  L.filter (fun c => !Cell.is key c)

/-- The layer has a real node with key `key`. -/
def hasKey [LinearOrder K] (key : K) (L : List (Cell K V)) : Bool :=
  L.any (Cell.is key)

/-- The first cell of the list is a real node with key `key`. -/
def firstIs [LinearOrder K] (key : K) : List (Cell K V) → Bool
  | [] => false
  | d :: _ => d.is key

/-- The address of the predecessor of `key` in a layer. -/
def predAddr [LinearOrder K] (key : K) (L : List (Cell K V)) : Nat :=
  ((predOf key L).map Cell.addr).getD 0

/-- The addresses of the predecessors of `key`, one per layer. -/
def predAddrs [LinearOrder K] (key : K) (ls : List (List (Cell K V))) : List Nat :=
  ls.map (predAddr key)

/-- The sentinel cell that `addEmptyTopLayer` allocates. -/
def topCell [Inhabited K] [Inhabited V] (s : SkipList K V) : Cell K V :=
  Cell.ofNode s.next { (sentinel : Node K V) with down := s.topHead_ }

/-- The layers `rem` (lowest first) after the `for` loop of `insert` has put an upper node
of `key` into the first `count` of them, the first one at address `next` above the node at
`below`. -/
def raise [LinearOrder K] [Inhabited V] (key : K) :
    Nat → Nat → Nat → List (List (Cell K V)) → List (List (Cell K V))
  | 0, _, _, rem => rem
  | _ + 1, _, _, [] => []
  | count + 1, below, next, L :: rem =>
    insCell key (Cell.ofNode next (upperNodeOf key below)) L ::
      raise key count next (next + 1) rem

/-- The real keys of a layer with the values stored next to them, in chain order. -/
def entriesOf (L : List (Cell K V)) : List (K × V) :=
  (L.filter (fun c => c.keyValid)).map (fun c => (c.key, c.value))

/-- The result `a` if there is one, the exception `e` otherwise. -/
def orThrow {α : Type} (e : Exn) : Option α → Except Exn α
  | some a => .ok a
  | none => .error e

/-- The real keys of a layer, in chain order. -/
def keysOf (L : List (Cell K V)) : List K :=
  (L.filter (fun c => c.keyValid)).map Cell.key

/-! ## Sample runs -/

/-- The scenario of the specification: keys 10, 20, 5, 15 inserted in that order. -/
def scenarioPairs : List (Nat × Nat) := [(10, 100), (20, 200), (5, 50), (15, 150)]

/-- The structure after the scenario inserts. -/
def scenario : SkipList Nat Nat := (insertAll flipCoin SkipList.create scenarioPairs).2

/-- The structure that holds exactly the keys 1, 3 and 5. -/
def oneThreeFive : SkipList Nat Nat :=
  (insertAll flipCoin SkipList.create [(1, 10), (3, 30), (5, 50)]).2

/-- A fresh structure after `insert(1, 0)`; the coin flips give key 1 a tower of two
nodes. -/
def afterOne : SkipList Nat Nat := (SkipList.insert flipCoin SkipList.create 1 0).2

end SkipList

/-! ## The coin flip as the specification words it -/

/-- The one-byte hash of a 32-bit key as the specification words it: the XOR of
`x >> 24 & 0xFF`, `x >> 16 & 0xFF`, `x >> 8 & 0xFF` and `x & 0xFF`. -/
def hashByteSpec (x : Nat) : Nat :=
  ((x >>> 24) &&& 0xFF) ^^^ ((x >>> 16) &&& 0xFF) ^^^ ((x >>> 8) &&& 0xFF) ^^^ (x &&& 0xFF)

/-- The coin flip of a 32-bit key as the specification words it: bit number
`p mod 8` of the hash byte. -/
def flipCoinSpec (x p : Nat) : Bool := (hashByteSpec x).testBit (p % 8)

/-- The hash of a text key as the specification words it: the XOR of all character
bytes, `0` for the empty string. -/
def hashStringSpec : List Nat → Nat
  | [] => 0
  | character :: rest => (character % 256) ^^^ hashStringSpec rest

/-- The coin flip of a text key as the specification words it. -/
def flipCoinStringSpec (s : List Nat) (p : Nat) : Bool := (hashStringSpec s).testBit (p % 8)

/-! ## The layer limit as the specification words it -/

namespace SkipList

end SkipList

namespace SkipList

variable {K V : Type}

/-! ## Reading the layers off the free store -/

/-- The cells of the chain that starts at pointer `p` and follows `right` to `nullptr`. -/
def chainCells (mem : Mem K V) : Nat → Option Nat → Except Exn (List (Cell K V))
  | 0, _ => .error .fuelExhausted
  | _ + 1, none => .ok []
  | fuel + 1, some a =>
    match mem a with
    | none => .error .invalidAccess
    | some n =>
      match chainCells mem fuel n.right with
      | .error e => .error e
      | .ok cs => .ok (Cell.ofNode a n :: cs)

/-- The chains of the layers whose sentinels are met going `down` from pointer `p`. -/
def layersLoop (mem : Mem K V) (inner : Nat) :
    Nat → Option Nat → Except Exn (List (List (Cell K V)))
  | 0, _ => .error .fuelExhausted
  | _ + 1, none => .ok []
  | fuel + 1, some h =>
    match mem h with
    | none => .error .invalidAccess
    | some n =>
      match chainCells mem inner (some h) with
      | .error e => .error e
      | .ok L =>
        match layersLoop mem inner fuel n.down with
        | .error e => .error e
        | .ok ls => .ok (L :: ls)

/-- The layers of the structure, top layer first, each as the chain of its nodes with the
sentinel in front. -/
def layerCells (s : SkipList K V) : Except Exn (List (List (Cell K V))) :=
  layersLoop s.mem (s.next + 1) (s.next + 1) s.topHead_

/-- A real node of the upper layer has a real node with the same key in the lower layer,
and its `down` pointer is the address of that node. -/
def TowerLink (U L : List (Cell K V)) : Prop :=
  ∀ c ∈ U, c.keyValid = true →
    ∃ d ∈ L, d.keyValid = true ∧ d.key = c.key ∧ c.down = some d.addr

/-- The layer invariant of the specification: along every layer the real keys increase
strictly, and every real node above layer 0 points down at the node of the same key one
layer below. -/
def LayerInvariant [LinearOrder K] (s : SkipList K V) : Prop :=
  ∃ ls, layerCells s = .ok ls ∧ (∀ L ∈ ls, (keysOf L).Pairwise (· < ·)) ∧
    ls.Chain' TowerLink

section Peak

variable [LinearOrder K] [Inhabited K] [Inhabited V]

/-- The structures reachable by `insert` and `erase`, each with the largest value `size()`
has had on the way. -/
inductive ReachedWithPeak (flip : K → Nat → Bool) : SkipList K V → Nat → Prop where
  | fresh : ReachedWithPeak flip SkipList.create 0
  | insert (s : SkipList K V) (peak : Nat) (key : K) (value : V) :
      ReachedWithPeak flip s peak →
      ReachedWithPeak flip (SkipList.insert flip s key value).2
        (max peak (SkipList.insert flip s key value).2.size_)
  | erase (s : SkipList K V) (peak : Nat) (key : K) :
      ReachedWithPeak flip s peak → ReachedWithPeak flip (SkipList.erase s key).2 peak

end Peak

/-! ## More sample runs -/

/-- Keys 1 to 16 and then key 255, whose hash byte is `0xFF`: every coin flip for it is
true. -/
def peakPairs : List (Nat × Nat) :=
  [(1, 0), (2, 0), (3, 0), (4, 0), (5, 0), (6, 0), (7, 0), (8, 0), (9, 0), (10, 0), (11, 0),
    (12, 0), (13, 0), (14, 0), (15, 0), (16, 0), (255, 0)]

/-- The structure with the seventeen keys of `peakPairs`. -/
def atPeak : SkipList Nat Nat := (insertAll flipCoin SkipList.create peakPairs).2

/-- The structure `atPeak` after `erase(1)`: sixteen keys are left. -/
def afterPeak : SkipList Nat Nat := (SkipList.erase atPeak 1).2

end SkipList

/-! # Theorems -/

/-! ## Free store, segments and the inner loop -/

namespace SkipList
variable {K V : Type}

theorem Mem.write_same (mem : Mem K V) (a : Nat) (n : Node K V) :
    Mem.write mem a n a = some n := by
  simp [Mem.write]

theorem Mem.write_other (mem : Mem K V) (a b : Nat) (n : Node K V) (h : b ≠ a) :
    Mem.write mem a n b = mem b := by
  simp [Mem.write, h]

theorem Mem.free_same (mem : Mem K V) (a : Nat) : Mem.free mem a a = none := by
  simp [Mem.free]

theorem Mem.free_other (mem : Mem K V) (a b : Nat) (h : b ≠ a) :
    Mem.free mem a b = mem b := by
  simp [Mem.free, h]

theorem Seg.frame {mem mem1 : Mem K V} {p q : Option Nat} {cs : List (Cell K V)}
    (h : Seg mem p cs q) (same : ∀ c ∈ cs, mem1 c.addr = mem c.addr) : Seg mem1 p cs q := by
  induction cs generalizing p with
  | nil => exact h
  | cons c cs ih =>
    obtain ⟨hp, r, hm, hr⟩ := h
    refine ⟨hp, r, ?_, ih hr (fun x hx => same x (List.mem_cons_of_mem _ hx))⟩
    rw [same c (List.mem_cons_self _ _)]; exact hm

theorem Seg_append {mem : Mem K V} {p q : Option Nat} {xs ys : List (Cell K V)} :
    Seg mem p (xs ++ ys) q ↔ ∃ m, Seg mem p xs m ∧ Seg mem m ys q := by
  induction xs generalizing p with
  | nil =>
    constructor
    · intro h; exact ⟨p, rfl, h⟩
    · rintro ⟨m, hm, h⟩
      have : p = m := hm
      subst this; exact h
  | cons c cs ih =>
    constructor
    · rintro ⟨hp, r, hm, hr⟩
      obtain ⟨m, h1, h2⟩ := ih.mp hr
      exact ⟨m, ⟨hp, r, hm, h1⟩, h2⟩
    · rintro ⟨m, ⟨hp, r, hm, h1⟩, h2⟩
      exact ⟨hp, r, hm, ih.mpr ⟨m, h1, h2⟩⟩

/-- The pointer a segment starts with. -/
theorem Seg.start {mem : Mem K V} {p q : Option Nat} {c : Cell K V} {cs : List (Cell K V)}
    (h : Seg mem p (c :: cs) q) : p = some c.addr := h.1

/-- A chain determines the node stored at each of its cells: its `right` pointer leads to
the rest of the chain. -/
theorem Seg.split {mem : Mem K V} {p q : Option Nat} {pre post : List (Cell K V)}
    {c : Cell K V} (h : Seg mem p (pre ++ c :: post) q) :
    ∃ r, mem c.addr = some (c.node r) ∧ Seg mem p pre (some c.addr) ∧ Seg mem r post q := by
  obtain ⟨m, h1, h2⟩ := Seg_append.mp h
  obtain ⟨hm, r, hc, hr⟩ := h2
  subst hm
  exact ⟨r, hc, h1, hr⟩

theorem walkRight_spec (mem : Mem K V) (go : K → Bool) (rest : List (Cell K V)) :
    ∀ (c : Cell K V) (fuel visited : Nat),
      Seg mem (some c.addr) (c :: rest) none → rest.length < fuel →
      walkRight mem go fuel c.addr visited =
        .ok (((rest.takeWhile (fun x => x.keyValid && go x.key)).getLastD c).addr,
          visited + (rest.takeWhile (fun x => x.keyValid && go x.key)).length) := by
  induction rest with
  | nil =>
    intro c fuel visited h hf
    obtain ⟨_, r, hm, hr⟩ := h
    have hr' : r = none := hr
    subst hr'
    cases fuel with
    | zero => omega
    | succ f => simp [walkRight, hm, Cell.node]
  | cons d rest ih =>
    intro c fuel visited h hf
    obtain ⟨_, r, hm, hr⟩ := h
    have hrd : r = some d.addr := hr.1
    subst hrd
    obtain ⟨_, r2, hm2, _⟩ := id hr
    cases fuel with
    | zero => simp at hf
    | succ f =>
      have hf' : rest.length < f := by simpa using hf
      by_cases hgo : (d.keyValid && go d.key) = true
      · have e1 : (d :: rest).takeWhile (fun x => x.keyValid && go x.key) =
            d :: rest.takeWhile (fun x => x.keyValid && go x.key) := by
          rw [List.takeWhile_cons, if_pos hgo]
        have := ih d f (visited + 1) hr hf'
        simp only [walkRight, hm, Cell.node, hm2]
        simp only [Cell.node] at hgo
        rw [if_pos hgo, this, e1, List.getLastD_cons, List.length_cons]
        congr 2
        omega
      · have e1 : (d :: rest).takeWhile (fun x => x.keyValid && go x.key) = [] := by
          rw [List.takeWhile_cons, if_neg hgo]
        simp only [walkRight, hm, Cell.node, hm2]
        simp only [Cell.node] at hgo
        rw [if_neg hgo, e1]
        rfl


section Walk
variable [LinearOrder K]

theorem takeWhile_congr_mem {α : Type} (p q : α → Bool) (l : List α)
    (h : ∀ x ∈ l, p x = q x) : l.takeWhile p = l.takeWhile q := by
  induction l with
  | nil => rfl
  | cons a l ih =>
    have ha := h a (List.mem_cons_self _ _)
    have hl := ih (fun x hx => h x (List.mem_cons_of_mem _ hx))
    simp only [List.takeWhile_cons, ha, hl]

theorem takeWhile_all {α : Type} (p : α → Bool) (l r : List α) (h : ∀ x ∈ l, p x = true) :
    (l ++ r).takeWhile p = l ++ r.takeWhile p := by
  induction l with
  | nil => rfl
  | cons a l ih =>
    have ha := h a (List.mem_cons_self _ _)
    have hl := ih (fun x hx => h x (List.mem_cons_of_mem _ hx))
    simp only [List.cons_append, List.takeWhile_cons, ha, hl, if_true]

theorem dropWhile_all {α : Type} (p : α → Bool) (l r : List α) (h : ∀ x ∈ l, p x = true) :
    (l ++ r).dropWhile p = r.dropWhile p := by
  induction l with
  | nil => rfl
  | cons a l ih =>
    have ha := h a (List.mem_cons_self _ _)
    have hl := ih (fun x hx => h x (List.mem_cons_of_mem _ hx))
    simp only [List.cons_append, List.dropWhile_cons, ha, hl, if_true]

/-- In a layer every cell but the first is a real node. -/
theorem valid_of_after {pre rest : List (Cell K V)} {x : Cell K V}
    (h : (pre ++ x :: rest).Pairwise Cell.before) : ∀ y ∈ rest, y.keyValid = true := by
  intro y hy
  have h2 := (List.pairwise_append.mp h).2.1
  exact ((List.pairwise_cons.mp h2).1 y hy).1

/-- The cells before a cell below `key` are below `key`. -/
theorem below_of_before {pre rest : List (Cell K V)} {x : Cell K V} {key : K}
    (h : (pre ++ x :: rest).Pairwise Cell.before) (hx : x.below key = true) :
    ∀ y ∈ pre, y.below key = true := by
  intro y hy
  have h3 := (List.pairwise_append.mp h).2.2 y hy x (List.mem_cons_self _ _)
  obtain ⟨hv, hlt⟩ := h3
  simp only [Cell.below, hv, Bool.not_true, Bool.false_or, decide_eq_true_eq] at hx
  simp only [Cell.below, Bool.or_eq_true, Bool.not_eq_true', decide_eq_true_eq]
  by_cases hyv : y.keyValid = true
  · right; exact lt_trans (hlt hyv) hx
  · left; simpa using hyv

/-- The cells after a cell not below `key` are not below `key`. -/
theorem not_below_of_after {pre rest : List (Cell K V)} {x : Cell K V} {key : K}
    (h : (pre ++ x :: rest).Pairwise Cell.before) (hx : x.below key = false) :
    ∀ y ∈ rest, y.below key = false := by
  intro y hy
  have h2 := (List.pairwise_append.mp h).2.1
  obtain ⟨hv, hlt⟩ := (List.pairwise_cons.mp h2).1 y hy
  simp only [Cell.below, Bool.or_eq_false_iff, Bool.not_eq_false', decide_eq_false_iff_not,
    not_lt] at hx ⊢
  exact ⟨hv, le_of_lt (lt_of_le_of_lt hx.2 (hlt hx.1))⟩

theorem takeWhile_split {pre rest : List (Cell K V)} {x : Cell K V} {key : K}
    (h : (pre ++ x :: rest).Pairwise Cell.before) (hx : x.below key = true) :
    (pre ++ x :: rest).takeWhile (Cell.below key) =
      pre ++ x :: rest.takeWhile (Cell.below key) := by
  rw [takeWhile_all _ _ _ (below_of_before h hx), List.takeWhile_cons, if_pos hx]

theorem dropWhile_split {pre rest : List (Cell K V)} {x : Cell K V} {key : K}
    (h : (pre ++ x :: rest).Pairwise Cell.before) (hx : x.below key = true) :
    (pre ++ x :: rest).dropWhile (Cell.below key) = rest.dropWhile (Cell.below key) := by
  rw [dropWhile_all _ _ _ (below_of_before h hx), List.dropWhile_cons, if_pos hx]

theorem getLast?_append_cons {α : Type} (l r : List α) (a : α) :
    (l ++ a :: r).getLast? = some (r.getLastD a) := by
  induction r generalizing l a with
  | nil => simp
  | cons b r ih =>
    have e : l ++ a :: b :: r = (l ++ [a]) ++ b :: r := by simp
    rw [e, ih, List.getLastD_cons]

theorem predOf_split {pre rest : List (Cell K V)} {x : Cell K V} {key : K}
    (h : (pre ++ x :: rest).Pairwise Cell.before) (hx : x.below key = true) :
    predOf key (pre ++ x :: rest) = some (stopCell key x rest) := by
  rw [predOf, takeWhile_split h hx, getLast?_append_cons]
  rfl

/-- The walk of the inner loop inside a layer: from a cell below `key` it stops at the
predecessor of `key`, one visit per step. -/
theorem walk_layer {mem : Mem K V} {p : Option Nat} {pre rest : List (Cell K V)}
    {x : Cell K V} (key : K) (fuel visited : Nat)
    (hseg : Seg mem p (pre ++ x :: rest) none)
    (hpw : (pre ++ x :: rest).Pairwise Cell.before) (hf : rest.length < fuel) :
    walkRight mem (fun k => decide (k < key)) fuel x.addr visited =
      .ok ((stopCell key x rest).addr, visited + (rest.takeWhile (Cell.below key)).length) := by
  obtain ⟨r, hm, _, hr⟩ := hseg.split
  have hx : Seg mem (some x.addr) (x :: rest) none := ⟨rfl, r, hm, hr⟩
  have hc : rest.takeWhile (fun c => c.keyValid && decide (c.key < key)) =
      rest.takeWhile (Cell.below key) := by
    apply takeWhile_congr_mem
    intro y hy
    simp [Cell.below, valid_of_after hpw y hy]
  rw [walkRight_spec mem _ rest x fuel visited hx hf, hc]
  rfl

end Walk
end SkipList

/-! ## One layer of the search path -/

namespace SkipList
variable {K V : Type}

theorem cons_eq_concat_getLastD {α : Type} (l : List α) (c : α) :
    ∃ init, c :: l = init ++ [l.getLastD c] ∧ ∀ y ∈ init, y ∈ c :: l := by
  induction l generalizing c with
  | nil => exact ⟨[], rfl, by simp⟩
  | cons b l ih =>
    obtain ⟨init, h, hm⟩ := ih b
    refine ⟨c :: init, ?_, ?_⟩
    · rw [List.getLastD_cons, List.cons_append, ← h]
    · intro y hy
      rcases List.mem_cons.mp hy with rfl | hy
      · exact List.mem_cons_self _ _
      · exact List.mem_cons_of_mem _ (hm y hy)

theorem getLastD_mem {α : Type} (l : List α) (c : α) : l.getLastD c ∈ c :: l := by
  obtain ⟨init, h, _⟩ := cons_eq_concat_getLastD l c
  rw [h]; simp

section Layer
variable [LinearOrder K]

theorem is_false_of_below {key : K} {c : Cell K V} (h : c.below key = true) :
    c.is key = false := by
  simp only [Cell.below, Bool.or_eq_true, Bool.not_eq_true', decide_eq_true_eq] at h
  simp only [Cell.is, Bool.and_eq_false_imp, decide_eq_false_iff_not]
  intro hv
  rcases h with h | h
  · simp [hv] at h
  · exact ne_of_lt h

/-- Where the walk stops: the layer splits into the cells below `key`, ending with the
stop cell, and the cells not below `key`. -/
theorem stop_split {pre rest : List (Cell K V)} {x : Cell K V} {key : K}
    (h : (pre ++ x :: rest).Pairwise Cell.before) (hx : x.below key = true) :
    ∃ preP, pre ++ x :: rest = preP ++ stopCell key x rest :: rest.dropWhile (Cell.below key) ∧
      (∀ y ∈ preP, y.below key = true) ∧ (stopCell key x rest).below key = true ∧
      (∀ y ∈ rest.dropWhile (Cell.below key), y.below key = false) ∧
      preP ++ [stopCell key x rest] = pre ++ x :: rest.takeWhile (Cell.below key) := by
  obtain ⟨init, hi, him⟩ := cons_eq_concat_getLastD (rest.takeWhile (Cell.below key)) x
  have htw : ∀ y ∈ x :: rest.takeWhile (Cell.below key), y.below key = true := by
    intro y hy
    rcases List.mem_cons.mp hy with rfl | hy
    · exact hx
    · exact (List.mem_takeWhile_imp hy)
  have hL : pre ++ x :: rest =
      (pre ++ init) ++ stopCell key x rest :: rest.dropWhile (Cell.below key) := by
    have : x :: rest = (x :: rest.takeWhile (Cell.below key)) ++ rest.dropWhile (Cell.below key) := by
      simp [List.takeWhile_append_dropWhile]
    rw [this, hi]
    simp [stopCell]
  refine ⟨pre ++ init, hL, ?_, ?_, ?_, ?_⟩
  · intro y hy
    rcases List.mem_append.mp hy with hy | hy
    · exact below_of_before h hx y hy
    · exact htw y (him y hy)
  · exact htw _ (getLastD_mem _ _)
  · intro y hy
    cases hd : rest.dropWhile (Cell.below key) with
    | nil => rw [hd] at hy; simp at hy
    | cons d post =>
      have hdn : d.below key = false := by
        have := List.head_dropWhile_not (Cell.below key) rest (by rw [hd]; simp)
        simpa [hd] using this
      rw [hd] at hy hL
      rcases List.mem_cons.mp hy with rfl | hy
      · exact hdn
      · rw [hL] at h
        have h' : ((pre ++ init ++ [stopCell key x rest]) ++ d :: post).Pairwise Cell.before := by
          simpa using h
        exact not_below_of_after h' hdn y hy
  · rw [stopCell, List.append_assoc, ← hi]


theorem rightIs_spec {mem : Mem K V} {p : Cell K V} {r : Option Nat} {post : List (Cell K V)}
    (key : K) (hm : mem p.addr = some (p.node r)) (hr : Seg mem r post none) :
    rightIs mem key p.addr = .ok (firstIs key post) := by
  cases post with
  | nil =>
    have : r = none := hr
    subst this
    simp [rightIs, hm, Cell.node, firstIs]
  | cons d post =>
    obtain ⟨hrd, r2, hm2, _⟩ := hr
    subst hrd
    simp [rightIs, hm, Cell.node, hm2, Cell.is, firstIs]

/-- In a layer split at the predecessor of `key`, the key is present exactly when the
cell after the predecessor carries it. -/
theorem hasKey_split {preP post : List (Cell K V)} {p : Cell K V} {key : K}
    (h : (preP ++ p :: post).Pairwise Cell.before)
    (hpre : ∀ y ∈ preP, y.below key = true) (hp : p.below key = true)
    (hpost : ∀ y ∈ post, y.below key = false) :
    hasKey key (preP ++ p :: post) = firstIs key post := by
  have h1 : ∀ y ∈ preP, y.is key = false := fun y hy => is_false_of_below (hpre y hy)
  have h2 : p.is key = false := is_false_of_below hp
  have e1 : preP.any (Cell.is key) = false := by
    rw [List.any_eq_false]; intro y hy; simp [h1 y hy]
  cases post with
  | nil => simp [hasKey, List.any_append, e1, h2, firstIs]
  | cons d post =>
    have hd := hpost d (List.mem_cons_self _ _)
    have h3 : ∀ y ∈ post, y.is key = false := by
      intro y hy
      have hpw : ((preP ++ [p]) ++ d :: post).Pairwise Cell.before := by simpa using h
      have h2 := (List.pairwise_append.mp hpw).2.1
      obtain ⟨hv, hlt⟩ := (List.pairwise_cons.mp h2).1 y hy
      simp only [Cell.below, Bool.or_eq_false_iff, Bool.not_eq_false',
        decide_eq_false_iff_not, not_lt] at hd
      simp only [Cell.is, Bool.and_eq_false_imp, decide_eq_false_iff_not]
      intro _
      exact ne_of_gt (lt_of_le_of_lt hd.2 (hlt hd.1))
    have e3 : post.any (Cell.is key) = false := by
      rw [List.any_eq_false]; intro y hy; simp [h3 y hy]
    simp [hasKey, List.any_append, e1, h2, e3, firstIs]

/-- One layer of the search path. Starting at a cell `x` below `key`, the inner loop stops
at the predecessor `p` of `key`; the test after the loop tells whether the layer has the
key, which then sits right after `p`. -/
theorem visit_layer {mem : Mem K V} {pre rest : List (Cell K V)} {x : Cell K V} (key : K)
    (fuel : Nat) (hL : LayerOK mem (pre ++ x :: rest)) (hx : x.below key = true)
    (hf : rest.length < fuel) :
    ∃ preP p post r,
      pre ++ x :: rest = preP ++ p :: post ∧ p = stopCell key x rest ∧
      predOf key (pre ++ x :: rest) = some p ∧
      post = (pre ++ x :: rest).dropWhile (Cell.below key) ∧
      preP ++ [p] = (pre ++ x :: rest).takeWhile (Cell.below key) ∧
      (∀ y ∈ preP, y.below key = true) ∧ p.below key = true ∧
      (∀ y ∈ post, y.below key = false) ∧
      (∀ visited, walkRight mem (fun k => decide (k < key)) fuel x.addr visited =
        .ok (p.addr, visited + (rest.takeWhile (Cell.below key)).length)) ∧
      mem p.addr = some (p.node r) ∧ Seg mem r post none ∧
      rightIs mem key p.addr = .ok (hasKey key (pre ++ x :: rest)) ∧
      (hasKey key (pre ++ x :: rest) = true →
        ∃ d post1, post = d :: post1 ∧ d.is key = true) := by
  obtain ⟨hd, cells, hLe, hhd, hpw, hseg⟩ := hL
  rw [hLe] at hpw hseg
  rw [← hLe] at hpw hseg
  obtain ⟨preP, hsplit, hpre, hp, hpost, htw⟩ := stop_split hpw hx
  have hseg2 := hseg
  rw [hsplit] at hseg2
  obtain ⟨r, hm, _, hr⟩ := hseg2.split
  have hk : hasKey key (pre ++ x :: rest) =
      firstIs key (rest.dropWhile (Cell.below key)) := by
    have hpw2 := hpw
    rw [hsplit] at hpw2
    rw [hsplit]
    exact hasKey_split hpw2 hpre hp hpost
  refine ⟨preP, stopCell key x rest, rest.dropWhile (Cell.below key), r, hsplit, rfl,
    predOf_split hpw hx, (dropWhile_split hpw hx).symm, ?_, hpre, hp, hpost, ?_, hm, hr, ?_, ?_⟩
  · rw [htw, takeWhile_split hpw hx]
  · intro visited
    exact walk_layer key fuel visited hseg hpw hf
  · rw [hk]; exact rightIs_spec key hm hr
  · intro hh
    rw [hk] at hh
    cases hdw : rest.dropWhile (Cell.below key) with
    | nil => rw [hdw] at hh; simp [firstIs] at hh
    | cons d post1 =>
      rw [hdw] at hh
      exact ⟨d, post1, rfl, hh⟩

end Layer
end SkipList

/-! ## Towers of layers -/

namespace SkipList
variable {K V : Type} [LinearOrder K]

theorem Shape.tower {mem : Mem K V} {next : Nat} {ls : List (List (Cell K V))}
    (h : Shape mem next ls) : Tower mem ls :=
  ⟨h.layer, h.linked, h.bottom⟩

theorem Tower.tail {mem : Mem K V} {L L1 : List (Cell K V)} {ls : List (List (Cell K V))}
    (h : Tower mem (L :: L1 :: ls)) : Tower mem (L1 :: ls) ∧ LayerOK mem L ∧ Linked L L1 := by
  refine ⟨⟨fun M hM => h.layer M (List.mem_cons_of_mem _ hM), ?_, ?_⟩,
    h.layer L (List.mem_cons_self _ _), ?_⟩
  · exact (List.chain'_cons.mp h.linked).2
  · obtain ⟨B, hB, hb⟩ := h.bottom
    exact ⟨B, by simpa [List.getLast?_cons_cons] using hB, hb⟩
  · exact (List.chain'_cons.mp h.linked).1

theorem Tower.single {mem : Mem K V} {L : List (Cell K V)} (h : Tower mem [L]) :
    LayerOK mem L ∧ Bottom L := by
  refine ⟨h.layer L (List.mem_cons_self _ _), ?_⟩
  obtain ⟨B, hB, hb⟩ := h.bottom
  simp at hB
  subst hB
  exact hb

/-- Going down from a cell below `key` one arrives at a cell below `key` of the next
layer. -/
theorem down_step {U L : List (Cell K V)} {p : Cell K V} {key : K} (hl : Linked U L)
    (hp : p ∈ U) (hb : p.below key = true) :
    ∃ pre d rest, L = pre ++ d :: rest ∧ p.down = some d.addr ∧ d.below key = true ∧
      d.keyValid = p.keyValid ∧ (p.keyValid = true → d.key = p.key) := by
  obtain ⟨d, hd, hdown, hv, hk⟩ := hl p hp
  obtain ⟨pre, rest, hsplit⟩ := List.append_of_mem hd
  refine ⟨pre, d, rest, hsplit, hdown, ?_, hv, hk⟩
  simp only [Cell.below, Bool.or_eq_true, Bool.not_eq_true', decide_eq_true_eq] at hb ⊢
  rcases hb with hb | hb
  · left; rw [hv]; exact hb
  · by_cases hpv : p.keyValid = true
    · right; rw [hk hpv]; exact hb
    · left; rw [hv]; simpa using hpv

/-- A cell of a layer is stored at its address. -/
theorem LayerOK.stored {mem : Mem K V} {L : List (Cell K V)} (h : LayerOK mem L)
    {c : Cell K V} (hc : c ∈ L) : ∃ r, mem c.addr = some (c.node r) := by
  obtain ⟨hd, cells, hLe, _, _, hseg⟩ := h
  obtain ⟨pre, post, hsplit⟩ := List.append_of_mem hc
  rw [hsplit] at hseg
  obtain ⟨r, hm, _, _⟩ := hseg.split
  exact ⟨r, hm⟩

/-- The loop `while (p->down) p = p->down;` started at a cell of the top layer of a tower
ends at the cell of the bottom layer that belongs to the same key (or sentinel). -/
theorem descend_spec {mem : Mem K V} (ls : List (List (Cell K V))) :
    ∀ (L : List (Cell K V)) (c : Cell K V) (fuel : Nat), Tower mem (L :: ls) → c ∈ L →
      ls.length < fuel →
      ∃ B b, (L :: ls).getLast? = some B ∧ b ∈ B ∧ descend mem fuel c.addr = .ok b.addr ∧
        b.keyValid = c.keyValid ∧ (c.keyValid = true → b.key = c.key) := by
  induction ls with
  | nil =>
    intro L c fuel ht hc hf
    obtain ⟨hL, hB⟩ := ht.single
    obtain ⟨r, hm⟩ := hL.stored hc
    cases fuel with
    | zero => simp at hf
    | succ f =>
      refine ⟨L, c, rfl, hc, ?_, rfl, fun _ => rfl⟩
      simp [descend, hm, Cell.node, hB c hc]
  | cons L1 ls ih =>
    intro L c fuel ht hc hf
    obtain ⟨ht1, hL, hlink⟩ := ht.tail
    obtain ⟨r, hm⟩ := hL.stored hc
    obtain ⟨d, hd, hdown, hv, hk⟩ := hlink c hc
    cases fuel with
    | zero => simp at hf
    | succ f =>
      obtain ⟨B, b, hB, hb, hdesc, hbv, hbk⟩ := ih L1 d f ht1 hd (by simpa using hf)
      refine ⟨B, b, by simpa [List.getLast?_cons_cons] using hB, hb, ?_, by rw [hbv, hv], ?_⟩
      · simp [descend, hm, Cell.node, hdown, hdesc]
      · intro hcv
        rw [hbk (by rw [hv]; exact hcv), hk hcv]

end SkipList

/-! ## The loops of collectPredecessors and searchBottomNode -/

namespace SkipList
variable {K V : Type} [LinearOrder K]

theorem predAddrs_cons {key : K} {L : List (Cell K V)} {ls : List (List (Cell K V))}
    {p : Cell K V} (h : predOf key L = some p) :
    predAddrs key (L :: ls) = p.addr :: predAddrs key ls := by
  simp [predAddrs, predAddr, h]

omit [LinearOrder K] in
theorem length_rest_lt {pre rest : List (Cell K V)} {x : Cell K V} {n : Nat}
    (h : (pre ++ x :: rest).length < n) : rest.length < n := by
  simp at h; omega

/-- Source `collectPredecessors`, on a tower: the recorded predecessors are the
predecessors of `key` in the layers, top to bottom. -/
theorem collectLoop_spec {mem : Mem K V} (key : K) (inner : Nat)
    (ls : List (List (Cell K V))) :
    ∀ (L pre rest : List (Cell K V)) (x : Cell K V) (preds : List Nat) (visited fuel : Nat),
      Tower mem (L :: ls) → L = pre ++ x :: rest → x.below key = true →
      (∀ M ∈ L :: ls, M.length < inner) → ls.length + 1 < fuel →
      ∃ visited1, collectLoop mem key inner fuel (some x.addr) preds visited =
        .ok (preds ++ predAddrs key (L :: ls), visited1) := by
  induction ls with
  | nil =>
    intro L pre rest x preds visited fuel ht hL hx hin hf
    subst hL
    obtain ⟨hLok, hB⟩ := ht.single
    obtain ⟨preP, p, post, r, hsplit, _, hpred, _, _, _, _, _, hwalk, hm, _, _, _⟩ :=
      visit_layer key inner hLok hx (length_rest_lt (hin _ (List.mem_cons_self _ _)))
    have hpm : p ∈ pre ++ x :: rest := by rw [hsplit]; simp
    have hdown : p.down = none := hB p hpm
    match fuel, hf with
    | f + 2, _ =>
      refine ⟨visited + 1 + (rest.takeWhile (Cell.below key)).length, ?_⟩
      simp only [collectLoop, hwalk, hm, Cell.node, hdown, predAddrs_cons hpred]
      simp [predAddrs]
  | cons L1 ls ih =>
    intro L pre rest x preds visited fuel ht hL hx hin hf
    subst hL
    obtain ⟨ht1, hLok, hlink⟩ := ht.tail
    obtain ⟨preP, p, post, r, hsplit, _, hpred, _, _, _, hpb, _, hwalk, hm, _, _, _⟩ :=
      visit_layer key inner hLok hx (length_rest_lt (hin _ (List.mem_cons_self _ _)))
    have hpm : p ∈ pre ++ x :: rest := by rw [hsplit]; simp
    obtain ⟨pre1, d, rest1, hL1, hdown, hdb, _, _⟩ := down_step hlink hpm hpb
    match fuel, hf with
    | f + 1, hf =>
      obtain ⟨v1, h1⟩ := ih L1 pre1 rest1 d (preds ++ [p.addr])
        (visited + 1 + (rest.takeWhile (Cell.below key)).length) f ht1 hL1 hdb
        (fun M hM => hin M (List.mem_cons_of_mem _ hM)) (by simpa using hf)
      refine ⟨v1, ?_⟩
      simp only [collectLoop, hwalk, hm, Cell.node, hdown, h1, predAddrs_cons hpred]
      simp

/-- Source `searchBottomNode`, on a tower whose layers are linked: the result is the node
of the bottom layer that carries `key`, or `nullptr` when the bottom layer has no such
node. -/
theorem searchLoop_spec {mem : Mem K V} (key : K) (inner : Nat)
    (ls : List (List (Cell K V))) :
    ∀ (L pre rest : List (Cell K V)) (x : Cell K V) (visited fuel : Nat),
      Tower mem (L :: ls) → L = pre ++ x :: rest → x.below key = true →
      (∀ M ∈ L :: ls, M.length < inner) → ls.length + 1 < inner → ls.length + 1 < fuel →
      ∃ B visited1, (L :: ls).getLast? = some B ∧
        ((hasKey key B = false ∧
            searchLoop mem key inner fuel (some x.addr) visited = .ok (none, visited1)) ∨
         (∃ b ∈ B, b.is key = true ∧
            searchLoop mem key inner fuel (some x.addr) visited =
              .ok (some b.addr, visited1))) := by
  induction ls with
  | nil =>
    intro L pre rest x visited fuel ht hL hx hin hin2 hf
    subst hL
    obtain ⟨hLok, hB⟩ := ht.single
    obtain ⟨preP, p, post, r, hsplit, _, hpred, _, _, _, _, _, hwalk, hm, hr, hris, hhas⟩ :=
      visit_layer key inner hLok hx (length_rest_lt (hin _ (List.mem_cons_self _ _)))
    have hpm : p ∈ pre ++ x :: rest := by rw [hsplit]; simp
    have hdown : p.down = none := hB p hpm
    match fuel, hf with
    | f + 2, _ =>
      cases hk : hasKey key (pre ++ x :: rest) with
      | false =>
        refine ⟨_, visited + 1 + (rest.takeWhile (Cell.below key)).length, rfl,
          Or.inl ⟨hk, ?_⟩⟩
        rw [hk] at hris
        simp only [searchLoop, hwalk, hris, hm, Cell.node, hdown]
      | true =>
        obtain ⟨d, post1, hpost, hd⟩ := hhas hk
        subst hpost
        have hdm : d ∈ pre ++ x :: rest := by rw [hsplit]; simp
        obtain ⟨hrd, r2, hm2, _⟩ := hr
        subst hrd
        refine ⟨_, visited + 1 + (rest.takeWhile (Cell.below key)).length, rfl,
          Or.inr ⟨d, hdm, hd, ?_⟩⟩
        rw [hk] at hris
        match inner, hin2 with
        | i + 2, _ =>
          simp only [searchLoop, hwalk, hris, hm, Cell.node, descend, hm2, hB d hdm]
  | cons L1 ls ih =>
    intro L pre rest x visited fuel ht hL hx hin hin2 hf
    subst hL
    obtain ⟨ht1, hLok, hlink⟩ := ht.tail
    obtain ⟨preP, p, post, r, hsplit, _, hpred, _, _, _, hpb, _, hwalk, hm, hr, hris, hhas⟩ :=
      visit_layer key inner hLok hx (length_rest_lt (hin _ (List.mem_cons_self _ _)))
    have hpm : p ∈ pre ++ x :: rest := by rw [hsplit]; simp
    obtain ⟨pre1, d, rest1, hL1, hdown, hdb, _, _⟩ := down_step hlink hpm hpb
    match fuel, hf with
    | f + 1, hf =>
      cases hk : hasKey key (pre ++ x :: rest) with
      | false =>
        obtain ⟨B, v1, hB, h1⟩ := ih L1 pre1 rest1 d
          (visited + 1 + (rest.takeWhile (Cell.below key)).length) f ht1 hL1 hdb
          (fun M hM => hin M (List.mem_cons_of_mem _ hM)) (by simp at hin2 ⊢; omega)
          (by simpa using hf)
        rw [hk] at hris
        refine ⟨B, v1, by simpa [List.getLast?_cons_cons] using hB, ?_⟩
        rcases h1 with ⟨hn, h1⟩ | ⟨b, hb, hbk, h1⟩
        · left
          refine ⟨hn, ?_⟩
          simp only [searchLoop, hwalk, hris, hm, Cell.node, hdown, h1]
        · right
          refine ⟨b, hb, hbk, ?_⟩
          simp only [searchLoop, hwalk, hris, hm, Cell.node, hdown, h1]
      | true =>
        obtain ⟨e, post1, hpost, he⟩ := hhas hk
        subst hpost
        have hem : e ∈ pre ++ x :: rest := by rw [hsplit]; simp
        obtain ⟨hrd, r2, hm2, _⟩ := hr
        subst hrd
        have hev : e.keyValid = true := by
          simp only [Cell.is, Bool.and_eq_true] at he; exact he.1
        have hek : e.key = key := by
          simp only [Cell.is, Bool.and_eq_true, decide_eq_true_eq] at he; exact he.2
        obtain ⟨B, b, hB, hb, hdesc, hbv, hbk⟩ :=
          descend_spec (L1 :: ls) (pre ++ x :: rest) e inner ht hem (by omega)
        rw [hk] at hris
        refine ⟨B, visited + 1 + (rest.takeWhile (Cell.below key)).length, hB,
          Or.inr ⟨b, hb, ?_, ?_⟩⟩
        · simp only [Cell.is, Bool.and_eq_true, decide_eq_true_eq]
          exact ⟨by rw [hbv, hev], by rw [hbk hev, hek]⟩
        · simp only [searchLoop, hwalk, hris, hm, Cell.node, hdesc]

end SkipList

/-! ## The loop of height -/

namespace SkipList
variable {K V : Type} [LinearOrder K]

theorem is_iff {key : K} {c : Cell K V} :
    c.is key = true ↔ c.keyValid = true ∧ c.key = key := by
  simp [Cell.is]

theorem hasKey_of_mem {key : K} {L : List (Cell K V)} {c : Cell K V} (hc : c ∈ L)
    (h : c.is key = true) : hasKey key L = true := by
  rw [hasKey, List.any_eq_true]
  exact ⟨c, hc, h⟩

theorem hasKey_iff {key : K} {L : List (Cell K V)} :
    hasKey key L = true ↔ ∃ c ∈ L, c.is key = true := by
  rw [hasKey, List.any_eq_true]

/-- Right of the node of `key` nothing is below `key` and nothing carries `key`. -/
theorem after_key {pre rest : List (Cell K V)} {e : Cell K V} {key : K}
    (h : (pre ++ e :: rest).Pairwise Cell.before) (he : e.is key = true) :
    rest.takeWhile (Cell.below key) = [] ∧ firstIs key rest = false := by
  obtain ⟨hev, hek⟩ := is_iff.mp he
  have heb : e.below key = false := by
    simp [Cell.below, hev, hek]
  have hnb := not_below_of_after h heb
  cases rest with
  | nil => exact ⟨rfl, rfl⟩
  | cons d rest =>
    have hd := hnb d (List.mem_cons_self _ _)
    refine ⟨by rw [List.takeWhile_cons, hd]; rfl, ?_⟩
    have h2 := (List.pairwise_append.mp h).2.1
    obtain ⟨_, hlt⟩ := (List.pairwise_cons.mp h2).1 d (List.mem_cons_self _ _)
    have : key < d.key := by rw [← hek]; exact hlt hev
    simp only [firstIs, Cell.is, Bool.and_eq_false_imp, decide_eq_false_iff_not]
    intro _
    exact ne_of_gt this

/-- Source `height` once it has matched: it goes on from the matched node's `down`, which
is the node of `key` one layer below; there the inner loop does not move and the test for
`key` looks at the node after it, so the counter stays as it is. -/
theorem heightLoop_after {mem : Mem K V} (key : K) (inner : Nat)
    (ls : List (List (Cell K V))) :
    ∀ (L pre rest : List (Cell K V)) (e : Cell K V) (h fuel : Nat),
      Tower mem (L :: ls) → L = pre ++ e :: rest → e.is key = true →
      (∀ M ∈ L :: ls, M.length < inner) → ls.length + 1 < fuel →
      heightLoop mem key inner fuel (some e.addr) h = .ok h := by
  induction ls with
  | nil =>
    intro L pre rest e h fuel ht hL he hin hf
    subst hL
    obtain ⟨hLok, hB⟩ := ht.single
    obtain ⟨hd, cells, hLe, _, hpw, hseg⟩ := hLok
    obtain ⟨htw, hfi⟩ := after_key hpw he
    obtain ⟨r, hm, _, hr⟩ := hseg.split
    have hwalk := walk_layer key inner 0 hseg hpw
      (length_rest_lt (hin _ (List.mem_cons_self _ _)))
    have hstop : stopCell key e rest = e := by simp [stopCell, htw]
    rw [hstop] at hwalk
    have hris := rightIs_spec key hm hr
    rw [hfi] at hris
    have hdown : e.down = none := hB e (by simp)
    match fuel, hf with
    | f + 2, _ =>
      simp only [heightLoop, hwalk, hris, hm, Cell.node, hdown]
  | cons L1 ls ih =>
    intro L pre rest e h fuel ht hL he hin hf
    subst hL
    obtain ⟨ht1, hLok, hlink⟩ := ht.tail
    obtain ⟨hd, cells, hLe, _, hpw, hseg⟩ := hLok
    obtain ⟨htw, hfi⟩ := after_key hpw he
    obtain ⟨r, hm, _, hr⟩ := hseg.split
    have hwalk := walk_layer key inner 0 hseg hpw
      (length_rest_lt (hin _ (List.mem_cons_self _ _)))
    have hstop : stopCell key e rest = e := by simp [stopCell, htw]
    rw [hstop] at hwalk
    have hris := rightIs_spec key hm hr
    rw [hfi] at hris
    obtain ⟨hev, hek⟩ := is_iff.mp he
    obtain ⟨d, hdm, hdown, hdv, hdk⟩ := hlink e (by simp)
    obtain ⟨pre1, rest1, hL1⟩ := List.append_of_mem hdm
    have hdis : d.is key = true := is_iff.mpr ⟨by rw [hdv, hev], by rw [hdk hev, hek]⟩
    match fuel, hf with
    | f + 1, hf =>
      have h1 := ih L1 pre1 rest1 d h f ht1 hL1 hdis
        (fun M hM => hin M (List.mem_cons_of_mem _ hM)) (by simpa using hf)
      simp only [heightLoop, hwalk, hris, hm, Cell.node, hdown, h1]

/-- Source `height` on a tower: the counter goes up by one if the bottom layer has the
key, and stays otherwise. -/
theorem heightLoop_spec {mem : Mem K V} (key : K) (inner : Nat)
    (ls : List (List (Cell K V))) :
    ∀ (L pre rest : List (Cell K V)) (x : Cell K V) (h fuel : Nat),
      Tower mem (L :: ls) → L = pre ++ x :: rest → x.below key = true →
      (∀ M ∈ L :: ls, M.length < inner) → ls.length + 1 < fuel →
      ∃ B, (L :: ls).getLast? = some B ∧
        heightLoop mem key inner fuel (some x.addr) h =
          .ok (if hasKey key B = true then h + 1 else h) := by
  induction ls with
  | nil =>
    intro L pre rest x h fuel ht hL hx hin hf
    subst hL
    obtain ⟨hLok, hB⟩ := ht.single
    obtain ⟨preP, p, post, r, hsplit, _, hpred, _, _, _, _, _, hwalk, hm, hr, hris, hhas⟩ :=
      visit_layer key inner hLok hx (length_rest_lt (hin _ (List.mem_cons_self _ _)))
    have hpm : p ∈ pre ++ x :: rest := by rw [hsplit]; simp
    have hdown : p.down = none := hB p hpm
    refine ⟨_, rfl, ?_⟩
    match fuel, hf with
    | f + 2, _ =>
      cases hk : hasKey key (pre ++ x :: rest) with
      | false =>
        rw [hk] at hris
        simp only [heightLoop, hwalk, hris, hm, Cell.node, hdown]
        simp [hk]
      | true =>
        obtain ⟨d, post1, hpost, hd⟩ := hhas hk
        subst hpost
        have hdm : d ∈ pre ++ x :: rest := by rw [hsplit]; simp
        obtain ⟨hrd, r2, hm2, _⟩ := hr
        subst hrd
        rw [hk] at hris
        simp only [heightLoop, hwalk, hris, hm, Cell.node, hm2, hB d hdm]
        simp [hk]
  | cons L1 ls ih =>
    intro L pre rest x h fuel ht hL hx hin hf
    subst hL
    obtain ⟨ht1, hLok, hlink⟩ := ht.tail
    obtain ⟨preP, p, post, r, hsplit, _, hpred, _, _, _, hpb, _, hwalk, hm, hr, hris, hhas⟩ :=
      visit_layer key inner hLok hx (length_rest_lt (hin _ (List.mem_cons_self _ _)))
    have hpm : p ∈ pre ++ x :: rest := by rw [hsplit]; simp
    obtain ⟨pre1, d, rest1, hL1, hdown, hdb, _, _⟩ := down_step hlink hpm hpb
    match fuel, hf with
    | f + 1, hf =>
      cases hk : hasKey key (pre ++ x :: rest) with
      | false =>
        obtain ⟨B, hB, h1⟩ := ih L1 pre1 rest1 d h f ht1 hL1 hdb
          (fun M hM => hin M (List.mem_cons_of_mem _ hM)) (by simp at hf ⊢; omega)
        rw [hk] at hris
        refine ⟨B, by simpa [List.getLast?_cons_cons] using hB, ?_⟩
        simp only [heightLoop, hwalk, hris, hm, Cell.node, hdown, h1]
      | true =>
        obtain ⟨e, post1, hpost, he⟩ := hhas hk
        subst hpost
        have hem : e ∈ pre ++ x :: rest := by rw [hsplit]; simp
        obtain ⟨hrd, r2, hm2, _⟩ := hr
        subst hrd
        obtain ⟨hev, hek⟩ := is_iff.mp he
        obtain ⟨g, hgm, hgdown, hgv, hgk⟩ := hlink e hem
        obtain ⟨pre2, rest2, hL2⟩ := List.append_of_mem hgm
        have hgis : g.is key = true := is_iff.mpr ⟨by rw [hgv, hev], by rw [hgk hev, hek]⟩
        have h1 := heightLoop_after key inner ls L1 pre2 rest2 g (h + 1) f ht1 hL2 hgis
          (fun M hM => hin M (List.mem_cons_of_mem _ hM)) (by simp at hf ⊢; omega)
        obtain ⟨B, b, hB, hb, _, hbv, hbk⟩ :=
          descend_spec ls L1 g (ls.length + 1) ht1 hgm (by omega)
        have hbis : b.is key = true :=
          is_iff.mpr ⟨by rw [hbv, hgv, hev], by rw [hbk (by rw [hgv, hev]), hgk hev, hek]⟩
        rw [hk] at hris
        refine ⟨B, by simpa [List.getLast?_cons_cons] using hB, ?_⟩
        rw [hasKey_of_mem hb hbis]
        simp only [heightLoop, hwalk, hris, hm, Cell.node, hm2, hgdown, h1]
        simp

end SkipList

/-! ## Replacing a layer -/

namespace SkipList
variable {K V : Type}

theorem flatten_split_perm {α : Type} (up low : List (List α)) (L : List α) :
    (up ++ L :: low).flatten.Perm (L ++ (up ++ low).flatten) := by
  simp only [List.flatten_append, List.flatten_cons]
  exact List.perm_append_comm_assoc _ _ _

/-- In a family of layers without repeated addresses, the address of a cell is not the
address of any other cell. -/
theorem addr_ne_of_nodup {up low : List (List (Cell K V))} {preP post : List (Cell K V)}
    {p : Cell K V}
    (hnd : ((up ++ (preP ++ p :: post) :: low).flatten.map Cell.addr).Nodup) :
    ∀ y ∈ preP ++ post ++ (up ++ low).flatten, y.addr ≠ p.addr := by
  have perm : (up ++ (preP ++ p :: post) :: low).flatten.Perm
      (p :: (preP ++ post ++ (up ++ low).flatten)) := by
    refine (flatten_split_perm up low _).trans ?_
    simp
  have h2 := (perm.map Cell.addr).nodup_iff.mp hnd
  rw [List.map_cons, List.nodup_cons] at h2
  intro y hy heq
  exact h2.1 (heq ▸ List.mem_map_of_mem _ hy)

theorem mem_flatten_split {α : Type} {up low : List (List α)} {L : List α} {y : α} :
    y ∈ (up ++ L :: low).flatten ↔ y ∈ L ∨ y ∈ (up ++ low).flatten :=
  by rw [(flatten_split_perm up low L).mem_iff, List.mem_append]

section Shape
variable [LinearOrder K]

theorem LayerOK.head {mem : Mem K V} {L : List (Cell K V)} (h : LayerOK mem L) :
    ∃ hd, L.head? = some hd ∧ hd.keyValid = false ∧ Seg mem (some hd.addr) L none ∧
      L.Pairwise Cell.before := by
  obtain ⟨hd, cells, hLe, hhd, hpw, hseg⟩ := h
  exact ⟨hd, by rw [hLe]; rfl, hhd, hseg, hpw⟩

theorem LayerOK.of_head {mem : Mem K V} {L : List (Cell K V)} {hd : Cell K V}
    (h1 : L.head? = some hd) (h2 : hd.keyValid = false) (h3 : Seg mem (some hd.addr) L none)
    (h4 : L.Pairwise Cell.before) : LayerOK mem L := by
  cases L with
  | nil => simp at h1
  | cons a cells =>
    simp at h1; subst h1
    exact ⟨a, cells, rfl, h2, h4, h3⟩

/-- Replacing one layer of a structure. -/
theorem Shape.replace {mem mem1 : Mem K V} {n n1 : Nat} {up low : List (List (Cell K V))}
    {L L1 : List (Cell K V)} (h : Shape mem n (up ++ L :: low))
    (hL : LayerOK mem1 L1)
    (hframe : ∀ c ∈ (up ++ low).flatten, mem1 c.addr = mem c.addr)
    (hup : ∀ U, up.getLast? = some U → Linked U L → Linked U L1)
    (hbot : low = [] → Bottom L → Bottom L1)
    (hlow : ∀ M, low.head? = some M → Linked L M → Linked L1 M)
    (hnodup : ((up ++ L1 :: low).flatten.map Cell.addr).Nodup)
    (hbound : ∀ c ∈ (up ++ L1 :: low).flatten, c.addr < n1) :
    Shape mem1 n1 (up ++ L1 :: low) := by
  refine ⟨?_, ?_, ?_, hnodup, hbound⟩
  · intro M hM
    rcases List.mem_append.mp hM with hM | hM
    · obtain ⟨hd, h1, h2, h3, h4⟩ := (h.layer M (List.mem_append_left _ hM)).head
      refine LayerOK.of_head h1 h2 (h3.frame ?_) h4
      intro c hc
      exact hframe c (List.mem_flatten.mpr ⟨M, List.mem_append_left _ hM, hc⟩)
    · rcases List.mem_cons.mp hM with rfl | hM
      · exact hL
      · obtain ⟨hd, h1, h2, h3, h4⟩ :=
          (h.layer M (List.mem_append_right _ (List.mem_cons_of_mem _ hM))).head
        refine LayerOK.of_head h1 h2 (h3.frame ?_) h4
        intro c hc
        exact hframe c (List.mem_flatten.mpr ⟨M, List.mem_append_right _ hM, hc⟩)
  · have hold := List.chain'_split.mp h.linked
    refine List.chain'_split.mpr ⟨?_, ?_⟩
    · have h1 := List.chain'_append.mp hold.1
      refine List.chain'_append.mpr ⟨h1.1, List.chain'_singleton _, ?_⟩
      intro U hU M hM
      simp at hM
      subst hM
      exact hup U hU (h1.2.2 U hU L (by simp))
    · cases low with
      | nil => exact List.chain'_singleton _
      | cons M low1 =>
        have h2 := List.chain'_cons.mp hold.2
        exact List.chain'_cons.mpr ⟨hlow M rfl h2.1, h2.2⟩
  · obtain ⟨B, hB, hb⟩ := h.bottom
    rw [getLast?_append_cons] at hB ⊢
    cases low with
    | nil =>
      simp at hB
      subst hB
      exact ⟨L1, rfl, hbot rfl hb⟩
    | cons M low1 =>
      refine ⟨B, ?_, hb⟩
      simpa [List.getLastD_cons] using hB

theorem mem_insCell {key : K} {c y : Cell K V} {L : List (Cell K V)} :
    y ∈ insCell key c L ↔ y = c ∨ y ∈ L := by
  have hL : L = L.takeWhile (Cell.below key) ++ L.dropWhile (Cell.below key) :=
    (List.takeWhile_append_dropWhile _ _).symm
  constructor
  · intro h
    rw [hL]
    simp only [insCell, List.mem_append, List.mem_cons] at h ⊢
    tauto
  · intro h
    rw [hL] at h
    simp only [insCell, List.mem_append, List.mem_cons] at h ⊢
    tauto

theorem insCell_perm (key : K) (c : Cell K V) (L : List (Cell K V)) :
    (insCell key c L).Perm (c :: L) := by
  have hL : L.takeWhile (Cell.below key) ++ L.dropWhile (Cell.below key) = L :=
    List.takeWhile_append_dropWhile _ _
  have := @List.perm_middle _ c (L.takeWhile (Cell.below key)) (L.dropWhile (Cell.below key))
  rw [hL] at this
  exact this

/-- The predecessor of `key` in a layer, with what the free store holds around it. -/
theorem LayerOK.pred {mem : Mem K V} {L : List (Cell K V)} (hL : LayerOK mem L) (key : K) :
    ∃ preP p post r hd,
      L = preP ++ p :: post ∧ predOf key L = some p ∧
      post = L.dropWhile (Cell.below key) ∧ preP ++ [p] = L.takeWhile (Cell.below key) ∧
      (∀ y ∈ preP, y.below key = true) ∧ p.below key = true ∧
      (∀ y ∈ post, y.below key = false) ∧
      mem p.addr = some (p.node r) ∧ Seg mem r post none ∧
      L.head? = some hd ∧ hd.keyValid = false ∧ Seg mem (some hd.addr) preP (some p.addr) ∧
      L.Pairwise Cell.before ∧
      rightIs mem key p.addr = .ok (hasKey key L) ∧
      (hasKey key L = true → ∃ d post1, post = d :: post1 ∧ d.is key = true) := by
  obtain ⟨hd, cells, hLe, hhd, hpw, hseg⟩ := id hL
  subst hLe
  have hx : hd.below key = true := by simp [Cell.below, hhd]
  have hL2 : LayerOK mem ([] ++ hd :: cells) := hL
  obtain ⟨preP, p, post, r, hsplit, _, hpred, hpost, htw, hpre, hp, hnb, _, hm, hr, hris, hhas⟩ :=
    visit_layer key (cells.length + 1) hL2 hx (Nat.lt_succ_self _)
  simp only [List.nil_append] at hsplit hpred hpost htw hris hhas
  have hseg2 := hseg
  rw [hsplit] at hseg2
  obtain ⟨r2, hm2, hsegpre, _⟩ := hseg2.split
  exact ⟨preP, p, post, r, hd, hsplit, hpred, hpost, htw, hpre, hp, hnb, hm, hr, rfl, hhd,
    hsegpre, hpw, hris, hhas⟩

end Shape
end SkipList

/-! ## Linking a node into a layer -/

namespace SkipList
variable {K V : Type} [LinearOrder K]

theorem insCell_eq {key : K} {c p : Cell K V} {L preP post : List (Cell K V)}
    (h1 : post = L.dropWhile (Cell.below key))
    (h2 : preP ++ [p] = L.takeWhile (Cell.below key)) :
    insCell key c L = preP ++ p :: c :: post := by
  rw [insCell, ← h1, ← h2]; simp

/-- Linking a fresh node for `key` right after the predecessor of `key` in one layer: the
layer gains the node, every other layer stays as it is. -/
theorem insert_layer {mem : Mem K V} {n : Nat} {up low : List (List (Cell K V))}
    {L : List (Cell K V)} (key : K) (node : Node K V)
    (h : Shape mem n (up ++ L :: low))
    (hnv : node.keyValid = true) (hnk : node.key = key)
    (hno : hasKey key L = false)
    (hbot : low = [] → node.down = none)
    (hlow : ∀ M, low.head? = some M →
      ∃ d ∈ M, node.down = some d.addr ∧ d.keyValid = true ∧ d.key = key) :
    ∃ mem1, linkAfter mem (predAddr key L) n node = .ok mem1 ∧
      Shape mem1 (n + 1) (up ++ insCell key (Cell.ofNode n node) L :: low) ∧
      (∀ a, a ≠ n → a ≠ predAddr key L → mem1 a = mem a) := by
  have hLok := h.layer L (by simp)
  obtain ⟨preP, p, post, r, hd, hsplit, hpred, hpost, htw, hpre, hp, hnb, hm, hr, hhead, hhd,
    hsegpre, hpw, _, _⟩ := hLok.pred key
  have hpa : predAddr key L = p.addr := by simp [predAddr, hpred]
  have hins := @insCell_eq _ _ _ key (Cell.ofNode n node) p L preP post hpost htw
  have hlt : ∀ y ∈ (up ++ L :: low).flatten, y.addr < n := h.bound
  have hnd := h.nodup
  rw [hsplit] at hnd
  have hne := addr_ne_of_nodup hnd
  have hpL : p ∈ L := by rw [hsplit]; simp
  have hpn : p.addr ≠ n := ne_of_lt (hlt p (mem_flatten_split.mpr (Or.inl hpL)))
  refine ⟨Mem.write (Mem.write mem n ((Cell.ofNode n node).node r)) p.addr (p.node (some n)),
    ?_, ?_, ?_⟩
  · rw [hpa, linkAfter, hm]
    rfl
  · have hsame : ∀ y ∈ preP ++ post ++ (up ++ low).flatten,
        Mem.write (Mem.write mem n ((Cell.ofNode n node).node r)) p.addr (p.node (some n))
          y.addr = mem y.addr := by
      intro y hy
      have hy2 : y ∈ (up ++ L :: low).flatten := by
        rw [mem_flatten_split, hsplit]
        simp only [List.mem_append, List.mem_cons] at hy ⊢
        tauto
      rw [Mem.write_other _ _ _ _ (hne y hy), Mem.write_other _ _ _ _ (ne_of_lt (hlt y hy2))]
    have hzpost : ∀ z ∈ post, z.keyValid = true ∧ key < z.key := by
      intro z hz
      have hzb := hnb z hz
      simp only [Cell.below, Bool.or_eq_false_iff, Bool.not_eq_false',
        decide_eq_false_iff_not, not_lt] at hzb
      refine ⟨hzb.1, lt_of_le_of_ne hzb.2 ?_⟩
      intro hk
      have : hasKey key L = true :=
        hasKey_of_mem (by rw [hsplit]; simp [hz]) (is_iff.mpr ⟨hzb.1, hk.symm⟩)
      rw [hno] at this
      exact Bool.false_ne_true this
    have hbelow : ∀ a ∈ preP ++ [p], a.keyValid = true → a.key < key := by
      intro a ha hav
      have hab : a.below key = true := by
        rcases List.mem_append.mp ha with ha | ha
        · exact hpre a ha
        · simp at ha; subst ha; exact hp
      simpa [Cell.below, hav] using hab
    rw [hins]
    refine Shape.replace h ?_ ?_ ?_ ?_ ?_ ?_ ?_
    · -- the layer itself
      refine @LayerOK.of_head _ _ _ _ _ hd ?_ hhd ?_ ?_
      · rw [hsplit] at hhead
        cases preP <;> simpa using hhead
      · refine Seg_append.mpr ⟨some p.addr, hsegpre.frame ?_, ?_⟩
        · intro y hy
          exact hsame y (by simp [hy])
        · refine ⟨rfl, some n, Mem.write_same _ _ _, rfl, r, ?_, hr.frame ?_⟩
          · show Mem.write (Mem.write mem n _) p.addr _ n = _
            rw [Mem.write_other _ _ _ _ hpn.symm, Mem.write_same]
          · intro y hy
            exact hsame y (by simp [hy])
      · have hpw2 : ((preP ++ [p]) ++ post).Pairwise Cell.before := by
          rw [hsplit] at hpw; simpa using hpw
        obtain ⟨hp1, hp2, hp3⟩ := List.pairwise_append.mp hpw2
        have : ((preP ++ [p]) ++ Cell.ofNode n node :: post).Pairwise Cell.before := by
          refine List.pairwise_append.mpr ⟨hp1, List.pairwise_cons.mpr ⟨?_, hp2⟩, ?_⟩
          · intro z hz
            exact ⟨(hzpost z hz).1, fun _ => by
              show node.key < z.key
              rw [hnk]; exact (hzpost z hz).2⟩
          · intro a ha b hb
            rcases List.mem_cons.mp hb with rfl | hb
            · exact ⟨hnv, fun hav => by
                show a.key < node.key
                rw [hnk]; exact hbelow a ha hav⟩
            · exact hp3 a ha b hb
        simpa using this
    · intro c hc
      exact hsame c (List.mem_append_right _ hc)
    · intro U _ hl c hc
      obtain ⟨d, hd1, hd2⟩ := hl c hc
      refine ⟨d, ?_, hd2⟩
      rw [← hins]
      exact mem_insCell.mpr (Or.inr hd1)
    · intro hlow0 hB c hc
      rw [← hins] at hc
      rcases mem_insCell.mp hc with rfl | hc
      · exact hbot hlow0
      · exact hB c hc
    · intro M hM hl c hc
      rw [← hins] at hc
      rcases mem_insCell.mp hc with rfl | hc
      · obtain ⟨d, hd1, hd2, hd3, hd4⟩ := hlow M hM
        exact ⟨d, hd1, hd2, by rw [hd3]; exact hnv.symm, fun _ => by rw [hd4]; exact hnk.symm⟩
      · exact hl c hc
    · rw [← hins]
      have perm : (up ++ insCell key (Cell.ofNode n node) L :: low).flatten.Perm
          (Cell.ofNode n node :: (up ++ L :: low).flatten) := by
        refine (flatten_split_perm up low _).trans ?_
        refine ((insCell_perm key _ L).append_right _).trans ?_
        exact (flatten_split_perm up low L).symm.cons _
      rw [(perm.map Cell.addr).nodup_iff, List.map_cons, List.nodup_cons]
      refine ⟨?_, h.nodup⟩
      intro hmem
      obtain ⟨y, hy, hyn⟩ := List.mem_map.mp hmem
      have := hlt y hy
      rw [hyn] at this
      exact lt_irrefl _ this
    · intro c hc
      rw [← hins] at hc
      rcases mem_flatten_split.mp hc with hc | hc
      · rcases mem_insCell.mp hc with rfl | hc
        · exact Nat.lt_succ_self _
        · exact Nat.lt_succ_of_lt (hlt c (mem_flatten_split.mpr (Or.inl hc)))
      · exact Nat.lt_succ_of_lt (hlt c (mem_flatten_split.mpr (Or.inr hc)))
  · intro a ha1 ha2
    rw [hpa] at ha2
    rw [Mem.write_other _ _ _ _ ha2, Mem.write_other _ _ _ _ ha1]

end SkipList

/-! ## Splicing a node out of a layer -/

namespace SkipList
variable {K V : Type} [LinearOrder K]

theorem mem_delKey {key : K} {y : Cell K V} {L : List (Cell K V)} :
    y ∈ delKey key L ↔ y ∈ L ∧ y.is key = false := by
  simp [delKey, List.mem_filter]

theorem delKey_of_not_hasKey {key : K} {L : List (Cell K V)} (h : hasKey key L = false) :
    delKey key L = L := by
  rw [delKey, List.filter_eq_self]
  intro y hy
  rw [hasKey, List.any_eq_false] at h
  simpa using h y hy

theorem hasKey_delKey (key : K) (L : List (Cell K V)) : hasKey key (delKey key L) = false := by
  rw [hasKey, List.any_eq_false]
  intro y hy
  simpa using (mem_delKey.mp hy).2

theorem delKey_split {key : K} {preP post1 : List (Cell K V)} {p d : Cell K V}
    (hpw : (preP ++ p :: d :: post1).Pairwise Cell.before)
    (hpre : ∀ y ∈ preP, y.below key = true) (hp : p.below key = true)
    (hd : d.is key = true) :
    delKey key (preP ++ p :: d :: post1) = preP ++ p :: post1 := by
  obtain ⟨hdv, hdk⟩ := is_iff.mp hd
  have h1 : preP.filter (fun c => !Cell.is key c) = preP := by
    rw [List.filter_eq_self]
    intro y hy; simp [is_false_of_below (hpre y hy)]
  have h2 : post1.filter (fun c => !Cell.is key c) = post1 := by
    rw [List.filter_eq_self]
    intro y hy
    have hpw2 : ((preP ++ [p]) ++ d :: post1).Pairwise Cell.before := by simpa using hpw
    have h3 := (List.pairwise_append.mp hpw2).2.1
    obtain ⟨_, hlt⟩ := (List.pairwise_cons.mp h3).1 y hy
    have : key < y.key := by rw [← hdk]; exact hlt hdv
    simp [Cell.is, ne_of_gt this]
  rw [delKey, List.filter_append, List.filter_cons, List.filter_cons, h1, h2]
  simp [is_false_of_below hp, hd]

/-- Splicing the node of `key` out of one layer, the layers above having lost it already:
the layer loses the node, every other layer stays as it is. -/
theorem erase_layer {mem : Mem K V} {n : Nat} {up low : List (List (Cell K V))}
    {L : List (Cell K V)} (key : K) (h : Shape mem n (up ++ L :: low))
    (hhas : hasKey key L = true)
    (hupno : ∀ U, up.getLast? = some U → hasKey key U = false) :
    ∃ preP p d post1 rd,
      L = preP ++ p :: d :: post1 ∧ predOf key L = some p ∧
      mem p.addr = some (p.node (some d.addr)) ∧ mem d.addr = some (d.node rd) ∧
      d.is key = true ∧ delKey key L = preP ++ p :: post1 ∧
      Shape (Mem.free (Mem.write mem p.addr (p.node rd)) d.addr) n
        (up ++ delKey key L :: low) := by
  have hLok := h.layer L (by simp)
  obtain ⟨preP, p, post, r, hd, hsplit, hpred, hpost, htw, hpre, hp, hnb, hm, hr, hhead, hhd,
    hsegpre, hpw, _, hfound⟩ := hLok.pred key
  obtain ⟨d, post1, hpost1, hdis⟩ := hfound hhas
  subst hpost1
  obtain ⟨hrd, rd, hmd, hrpost⟩ := hr
  subst hrd
  rw [hsplit] at hpw
  have hdel := delKey_split hpw hpre hp hdis
  rw [← hsplit] at hdel
  have hlt : ∀ y ∈ (up ++ L :: low).flatten, y.addr < n := h.bound
  have hnd := h.nodup
  rw [hsplit] at hnd
  have hne1 := addr_ne_of_nodup hnd
  have hnd2 : ((up ++ ((preP ++ [p]) ++ d :: post1) :: low).flatten.map Cell.addr).Nodup := by
    simpa using hnd
  have hne2 := addr_ne_of_nodup hnd2
  have hpd : p.addr ≠ d.addr := hne2 p (by simp)
  have hsame : ∀ y ∈ preP ++ post1 ++ (up ++ low).flatten,
      Mem.free (Mem.write mem p.addr (p.node rd)) d.addr y.addr = mem y.addr := by
    intro y hy
    have hy1 : y.addr ≠ p.addr := hne1 y (by
      simp only [List.mem_append, List.mem_cons] at hy ⊢; tauto)
    have hy2 : y.addr ≠ d.addr := hne2 y (by
      simp only [List.mem_append, List.mem_cons] at hy ⊢; tauto)
    rw [Mem.free_other _ _ _ hy2, Mem.write_other _ _ _ _ hy1]
  refine ⟨preP, p, d, post1, rd, hsplit, hpred, hm, hmd, hdis, hdel, ?_⟩
  have hsub : ∀ y, y ∈ delKey key L → y ∈ L := fun y hy => (mem_delKey.mp hy).1
  refine Shape.replace h ?_ ?_ ?_ ?_ ?_ ?_ ?_
  · rw [hdel]
    refine @LayerOK.of_head _ _ _ _ _ hd ?_ hhd ?_ ?_
    · rw [hsplit] at hhead
      cases preP <;> simpa using hhead
    · refine Seg_append.mpr ⟨some p.addr, hsegpre.frame ?_, ?_⟩
      · intro y hy
        exact hsame y (by simp [hy])
      · refine ⟨rfl, rd, ?_, hrpost.frame ?_⟩
        · rw [Mem.free_other _ _ _ hpd, Mem.write_same]
        · intro y hy
          exact hsame y (by simp [hy])
    · refine hpw.sublist ?_
      exact (List.Sublist.refl preP).append ((List.sublist_cons_self d post1).cons₂ p)
  · intro c hc
    exact hsame c (List.mem_append_right _ hc)
  · intro U hU hl c hc
    obtain ⟨e, he1, he2, he3, he4⟩ := hl c hc
    refine ⟨e, mem_delKey.mpr ⟨he1, ?_⟩, he2, he3, he4⟩
    by_contra hcon
    have heis : e.is key = true := by simpa using hcon
    obtain ⟨hev, hek⟩ := is_iff.mp heis
    have hcv : c.keyValid = true := by rw [← he3]; exact hev
    have hcis : c.is key = true := is_iff.mpr ⟨hcv, by rw [← he4 hcv]; exact hek⟩
    have := hasKey_of_mem hc hcis
    rw [hupno U hU] at this
    exact Bool.false_ne_true this
  · intro _ hB c hc
    exact hB c (hsub c hc)
  · intro M _ hl c hc
    exact hl c (hsub c hc)
  · have perm : (up ++ L :: low).flatten.Perm (d :: (up ++ delKey key L :: low).flatten) := by
      refine (flatten_split_perm up low _).trans ?_
      refine List.Perm.trans ?_ ((flatten_split_perm up low _).symm.cons d)
      rw [hdel, hsplit]
      have : (preP ++ p :: d :: post1).Perm (d :: (preP ++ p :: post1)) := by
        have := @List.perm_middle _ d (preP ++ [p]) post1
        simpa using this
      simpa using this.append_right (up ++ low).flatten
    have h2 := (perm.map Cell.addr).nodup_iff.mp h.nodup
    rw [List.map_cons, List.nodup_cons] at h2
    exact h2.2
  · intro c hc
    apply hlt c
    rcases mem_flatten_split.mp hc with hc | hc
    · exact mem_flatten_split.mpr (Or.inl (hsub c hc))
    · exact mem_flatten_split.mpr (Or.inr hc)

end SkipList

/-! ## The loop of erase -/

namespace SkipList
variable {K V : Type}

theorem length_le_of_nodup_lt (l : List Nat) (n : Nat) (hnd : l.Nodup) (hlt : ∀ a ∈ l, a < n) :
    l.length ≤ n := by
  have h1 : l.toFinset ⊆ Finset.range n := by
    intro a ha
    rw [List.mem_toFinset] at ha
    exact Finset.mem_range.mpr (hlt a ha)
  have h2 := Finset.card_le_card h1
  rw [List.toFinset_card_of_nodup hnd, Finset.card_range] at h2
  exact h2

theorem length_le_flatten_of_mem {α : Type} {ls : List (List α)} {M : List α} (h : M ∈ ls) :
    M.length ≤ ls.flatten.length := by
  obtain ⟨up, low, rfl⟩ := List.append_of_mem h
  rw [(flatten_split_perm up low M).length_eq, List.length_append]
  omega

theorem length_le_flatten {α : Type} (ls : List (List α)) (h : ∀ M ∈ ls, M ≠ []) :
    ls.length ≤ ls.flatten.length := by
  induction ls with
  | nil => simp
  | cons M ls ih =>
    have h1 := ih (fun N hN => h N (List.mem_cons_of_mem _ hN))
    have h2 : M ≠ [] := h M (List.mem_cons_self _ _)
    have h3 : 0 < M.length := List.length_pos.mpr h2
    simp only [List.flatten_cons, List.length_append, List.length_cons]
    omega

section Shape
variable [LinearOrder K]

theorem Shape.flatten_le {mem : Mem K V} {n : Nat} {ls : List (List (Cell K V))}
    (h : Shape mem n ls) : ls.flatten.length ≤ n := by
  have := length_le_of_nodup_lt (ls.flatten.map Cell.addr) n h.nodup (by
    intro a ha
    obtain ⟨c, hc, rfl⟩ := List.mem_map.mp ha
    exact h.bound c hc)
  rwa [List.length_map] at this

theorem Shape.layer_le {mem : Mem K V} {n : Nat} {ls : List (List (Cell K V))}
    (h : Shape mem n ls) {M : List (Cell K V)} (hM : M ∈ ls) : M.length ≤ n :=
  le_trans (length_le_flatten_of_mem hM) h.flatten_le

theorem Shape.length_le {mem : Mem K V} {n : Nat} {ls : List (List (Cell K V))}
    (h : Shape mem n ls) : ls.length ≤ n := by
  refine le_trans (length_le_flatten ls ?_) h.flatten_le
  intro M hM hnil
  obtain ⟨hd, cells, hLe, _⟩ := h.layer M hM
  rw [hnil] at hLe
  exact List.noConfusion hLe

theorem Shape.suffix {mem : Mem K V} {n : Nat} {up ls : List (List (Cell K V))}
    (h : Shape mem n (up ++ ls)) (hne : ls ≠ []) : Tower mem ls := by
  refine ⟨fun M hM => h.layer M (List.mem_append_right _ hM),
    (List.chain'_append.mp h.linked).2.1, ?_⟩
  obtain ⟨B, hB, hb⟩ := h.bottom
  rw [List.getLast?_append_of_ne_nil _ hne] at hB
  exact ⟨B, hB, hb⟩

/-- The key of an upper layer is a key of the bottom layer. -/
theorem Tower.hasKey_bottom {mem : Mem K V} {ls : List (List (Cell K V))}
    {L : List (Cell K V)} {key : K} (h : Tower mem (L :: ls)) (hk : hasKey key L = true) :
    ∃ B, (L :: ls).getLast? = some B ∧ hasKey key B = true := by
  obtain ⟨c, hc, hcis⟩ := hasKey_iff.mp hk
  obtain ⟨hcv, hck⟩ := is_iff.mp hcis
  obtain ⟨B, b, hB, hb, _, hbv, hbk⟩ := descend_spec ls L c (ls.length + 1) h hc (by omega)
  exact ⟨B, hB, hasKey_of_mem hb (is_iff.mpr ⟨by rw [hbv, hcv], by rw [hbk hcv, hck]⟩)⟩

/-- Source `erase`, on a structure whose layers above the current one have lost the key
already: every remaining layer loses the node of `key`, and `removed` is set if there was
one. -/
theorem eraseLoop_spec (key : K) (inner n : Nat) (low : List (List (Cell K V))) :
    ∀ (up : List (List (Cell K V))) (L pre rest : List (Cell K V)) (x : Cell K V)
      (mem : Mem K V) (removed : Bool) (fuel : Nat),
      Shape mem n (up ++ L :: low) → L = pre ++ x :: rest → x.below key = true →
      (∀ U ∈ up, hasKey key U = false) → n < inner → low.length + 1 < fuel →
      ∃ mem1, eraseLoop key inner fuel (some x.addr) mem removed =
          .ok (mem1, removed || (L :: low).any (hasKey key)) ∧
        Shape mem1 n (up ++ (L :: low).map (delKey key)) ∧
        ((L :: low).any (hasKey key) = false → mem1 = mem) := by
  induction low with
  | nil =>
    intro up L pre rest x mem removed fuel h hL hx hup hin hf
    have hLok := h.layer L (by simp)
    have hlen : L.length ≤ n := h.layer_le (by simp)
    have hB : Bottom L := (h.suffix (List.cons_ne_nil _ _)).single.2
    subst hL
    obtain ⟨preP, p, post, r, hsplit, _, hpred, _, _, _, hpb, _, hwalk, hm, hr, hris, _⟩ :=
      visit_layer key inner hLok hx (length_rest_lt (lt_of_le_of_lt hlen hin))
    have hpm : p ∈ pre ++ x :: rest := by rw [hsplit]; simp
    have hdown : p.down = none := hB p hpm
    match fuel, hf with
    | f + 2, _ =>
      cases hk : hasKey key (pre ++ x :: rest) with
      | false =>
        rw [hk] at hris
        refine ⟨mem, ?_, ?_, fun _ => rfl⟩
        · simp only [eraseLoop, hwalk, hris, hm, Cell.node, hdown]
          simp [hk]
        · simpa [delKey_of_not_hasKey hk] using h
      | true =>
        rw [hk] at hris
        obtain ⟨preP2, p2, d, post1, rd, _, hpred2, hm2, hmd, _, _, hshape⟩ :=
          erase_layer key h hk (fun U hU => hup U (List.mem_of_mem_getLast? hU))
        have hpp : p2 = p := by rw [hpred] at hpred2; exact (Option.some.inj hpred2).symm
        subst hpp
        refine ⟨_, ?_, by simpa using hshape, ?_⟩
        · simp only [eraseLoop, hwalk, hris, hm2, Cell.node, hmd, hdown]
          simp [hk]
        · intro hno; simp [hk] at hno
  | cons L1 low ih =>
    intro up L pre rest x mem removed fuel h hL hx hup hin hf
    have hLok := h.layer L (by simp)
    have hlen : L.length ≤ n := h.layer_le (by simp)
    have hlink : Linked L L1 := (h.suffix (List.cons_ne_nil _ _)).tail.2.2
    subst hL
    obtain ⟨preP, p, post, r, hsplit, _, hpred, _, _, _, hpb, _, hwalk, hm, hr, hris, _⟩ :=
      visit_layer key inner hLok hx (length_rest_lt (lt_of_le_of_lt hlen hin))
    have hpm : p ∈ pre ++ x :: rest := by rw [hsplit]; simp
    obtain ⟨pre1, e, rest1, hL1, hdown, heb, _, _⟩ := down_step hlink hpm hpb
    match fuel, hf with
    | f + 1, hf =>
      cases hk : hasKey key (pre ++ x :: rest) with
      | false =>
        rw [hk] at hris
        have h2 : Shape mem n ((up ++ [pre ++ x :: rest]) ++ L1 :: low) := by simpa using h
        obtain ⟨mem1, he, hs, hsame⟩ := ih (up ++ [pre ++ x :: rest]) L1 pre1 rest1 e mem removed f
          h2 hL1 heb (by
            intro U hU
            rcases List.mem_append.mp hU with hU | hU
            · exact hup U hU
            · simp at hU; subst hU; exact hk) hin (by simpa using hf)
        refine ⟨mem1, ?_, ?_, ?_⟩
        · simp only [eraseLoop, hwalk, hris, hm, Cell.node, hdown, he]
          simp [hk]
        · simpa [delKey_of_not_hasKey hk] using hs
        · intro hno
          apply hsame
          simpa [hk] using hno
      | true =>
        rw [hk] at hris
        obtain ⟨preP2, p2, d, post1, rd, _, hpred2, hm2, hmd, _, _, hshape⟩ :=
          erase_layer key h hk (fun U hU => hup U (List.mem_of_mem_getLast? hU))
        have hpp : p2 = p := by rw [hpred] at hpred2; exact (Option.some.inj hpred2).symm
        subst hpp
        have h2 : Shape (Mem.free (Mem.write mem p2.addr (p2.node rd)) d.addr) n
            ((up ++ [delKey key (pre ++ x :: rest)]) ++ L1 :: low) := by simpa using hshape
        obtain ⟨mem1, he, hs, _⟩ := ih (up ++ [delKey key (pre ++ x :: rest)]) L1 pre1 rest1 e
          _ true f h2 hL1 heb (by
            intro U hU
            rcases List.mem_append.mp hU with hU | hU
            · exact hup U hU
            · simp at hU; subst hU; exact hasKey_delKey _ _) hin (by simpa using hf)
        refine ⟨mem1, ?_, by simpa using hs, ?_⟩
        · simp only [eraseLoop, hwalk, hris, hm2, Cell.node, hmd, hdown]
          simp only [Cell.node, hdown] at he
          rw [he]
          simp [hk]
        · intro hno; simp [hk] at hno

end Shape
end SkipList

/-! ## erase on a well-formed structure -/

namespace SkipList
variable {K V : Type} [LinearOrder K]

theorem Inv.cons {s : SkipList K V} {ls : List (List (Cell K V))} (h : Inv s ls) :
    ∃ hd rest, ls = [hd] :: rest ∧ s.topHead_ = some hd.addr ∧ hd.keyValid = false ∧
      rest ≠ [] := by
  obtain ⟨hd, h1, h2⟩ := h.top
  cases ls with
  | nil => simp at h1
  | cons T rest =>
    simp at h1; subst h1
    have hv : hd.keyValid = false := by
      obtain ⟨hd2, cells, hLe, hhd, _⟩ := h.shape.layer [hd] (by simp)
      simp at hLe
      rw [hLe.1]; exact hhd
    refine ⟨hd, rest, rfl, h2, hv, ?_⟩
    intro hnil
    have := h.two
    rw [hnil] at this
    simp at this

theorem Inv.bottom_layer {s : SkipList K V} {ls : List (List (Cell K V))} (h : Inv s ls) :
    ∃ B, ls.getLast? = some B ∧ B.length = s.size_ + 1 ∧ LayerOK s.mem B ∧ Bottom B ∧
      B ∈ ls := by
  obtain ⟨B, hB, hsz⟩ := h.size
  obtain ⟨B2, hB2, hbot⟩ := h.shape.bottom
  rw [hB] at hB2
  have : B2 = B := (Option.some.inj hB2).symm
  subst this
  have hmem : B2 ∈ ls := List.mem_of_mem_getLast? hB
  exact ⟨B2, hB, hsz, h.shape.layer B2 hmem, hbot, hmem⟩

/-- A key is in some layer exactly when it is in the bottom layer. -/
theorem Tower.any_hasKey {mem : Mem K V} {ls : List (List (Cell K V))} {B : List (Cell K V)}
    (key : K) (h : Tower mem ls) (hB : ls.getLast? = some B) :
    ls.any (hasKey key) = hasKey key B := by
  cases hk : hasKey key B with
  | true =>
    rw [List.any_eq_true]
    exact ⟨B, List.mem_of_mem_getLast? hB, hk⟩
  | false =>
    rw [List.any_eq_false]
    intro L hL
    obtain ⟨up, low, rfl⟩ := List.append_of_mem hL
    have ht : Tower mem (L :: low) :=
      ⟨fun M hM => h.layer M (List.mem_append_right _ hM),
        (List.chain'_append.mp h.linked).2.1, by
          obtain ⟨B2, hB2, hb⟩ := h.bottom
          rw [List.getLast?_append_of_ne_nil _ (List.cons_ne_nil _ _)] at hB2
          exact ⟨B2, hB2, hb⟩⟩
    intro hcon
    obtain ⟨B3, hB3, hk3⟩ := ht.hasKey_bottom hcon
    rw [List.getLast?_append_of_ne_nil _ (List.cons_ne_nil _ _)] at hB
    rw [hB] at hB3
    rw [← Option.some.inj hB3, hk] at hk3
    exact Bool.false_ne_true hk3

theorem delKey_length {mem : Mem K V} {B : List (Cell K V)} {key : K} (hB : LayerOK mem B)
    (hk : hasKey key B = true) : (delKey key B).length + 1 = B.length ∧ 2 ≤ B.length := by
  obtain ⟨preP, p, post, r, hd, hsplit, _, _, _, hpre, hp, _, _, _, _, _, _, hpw, _, hfound⟩ :=
    hB.pred key
  obtain ⟨d, post1, hpost1, hdis⟩ := hfound hk
  subst hpost1
  rw [hsplit] at hpw
  rw [hsplit, delKey_split hpw hpre hp hdis]
  simp only [List.length_append, List.length_cons]
  omega

theorem getLast?_map {α β : Type} (f : α → β) (l : List α) :
    (l.map f).getLast? = l.getLast?.map f := by
  rw [List.getLast?_eq_head?_reverse, List.getLast?_eq_head?_reverse, ← List.map_reverse]
  cases l.reverse <;> rfl

/-- Source `erase` on a well-formed structure. -/
theorem erase_spec {s : SkipList K V} {ls : List (List (Cell K V))} (hinv : Inv s ls)
    (key : K) :
    ∃ B, ls.getLast? = some B ∧
      (hasKey key B = false → erase s key = (.error notFound, s)) ∧
      (hasKey key B = true →
        (erase s key).1 = .ok () ∧ Inv (erase s key).2 (ls.map (delKey key)) ∧
        (erase s key).2.size_ + 1 = s.size_ ∧ (erase s key).2.height_ = s.height_) := by
  obtain ⟨hd, rest, hls, htop, hhv, hrest⟩ := hinv.cons
  obtain ⟨B, hB, hsz, hBok, _, hBmem⟩ := hinv.bottom_layer
  have hshape := hinv.shape
  have hlen := hshape.length_le
  subst hls
  have hx : hd.below key = true := by simp [Cell.below, hhv]
  have hshape2 : Shape s.mem s.next ([] ++ [hd] :: rest) := hshape
  obtain ⟨mem1, he, hs1, hsame⟩ := eraseLoop_spec key (s.next + 1) s.next rest [] [hd] [] [] hd
    s.mem false (s.next + 1) hshape2 rfl hx (by simp) (Nat.lt_succ_self _) (by
      simp at hlen; omega)
  have hany := hshape.tower.any_hasKey key hB
  rw [hany] at he hsame
  rw [← htop] at he
  refine ⟨B, hB, ?_, ?_⟩
  · intro hk
    have hmem : mem1 = s.mem := hsame hk
    subst hmem
    rw [hk] at he
    simp only [erase, he]
    rfl
  · intro hk
    rw [hk] at he
    have hsz0 : s.size_ ≠ 0 := by
      have := delKey_length hBok hk
      omega
    have hres : erase s key =
        (.ok (), { s with mem := mem1, size_ := s.size_ - 1 }) := by
      simp only [erase, he]
      simp [hsz0]
    rw [hres]
    refine ⟨rfl, ?_, ?_, rfl⟩
    · refine ⟨by simpa using hs1, ?_, ?_, ?_, ?_⟩
      · refine ⟨hd, ?_, htop⟩
        have : delKey key [hd] = [hd] := by
          simp [delKey, Cell.is, hhv]
        simp [this]
      · simpa using hinv.height
      · simpa using hinv.two
      · refine ⟨delKey key B, ?_, ?_⟩
        · rw [getLast?_map, hB]; rfl
        · have := (delKey_length hBok hk).1
          simp only
          omega
    · simp only
      omega

end SkipList

/-! ## Adding top layers -/

namespace SkipList
variable {K V : Type} [LinearOrder K] [Inhabited K] [Inhabited V]

omit [Inhabited K] [Inhabited V] in
theorem predOf_single {key : K} {c : Cell K V} (h : c.keyValid = false) :
    predOf key [c] = some c := by
  simp [predOf, List.takeWhile_cons, Cell.below, h]

omit [Inhabited K] [Inhabited V] in
theorem hasKey_single {key : K} {c : Cell K V} (h : c.keyValid = false) :
    hasKey key [c] = false := by
  simp [hasKey, Cell.is, h]

/-- Source `addEmptyTopLayer` puts a layer with nothing but a sentinel on top. -/
theorem addEmptyTopLayer_inv {s : SkipList K V} {ls : List (List (Cell K V))}
    (hinv : Inv s ls) : Inv (addEmptyTopLayer s) ([topCell s] :: ls) := by
  obtain ⟨hd, rest, hls, htop, hhv, hrest⟩ := hinv.cons
  have hsh := hinv.shape
  have hne : ls ≠ [] := by rw [hls]; exact List.cons_ne_nil _ _
  have hlt : ∀ c ∈ ls.flatten, c.addr ≠ s.next := fun c hc => ne_of_lt (hsh.bound c hc)
  have hnv : (topCell s).keyValid = false := rfl
  refine ⟨⟨?_, ?_, ?_, ?_, ?_⟩, ⟨topCell s, rfl, rfl⟩, ?_, ?_, ?_⟩
  · intro M hM
    rcases List.mem_cons.mp hM with rfl | hM
    · refine @LayerOK.of_head _ _ _ _ _ (topCell s) rfl hnv ?_ (List.pairwise_singleton _ _)
      exact ⟨rfl, none, Mem.write_same _ _ _, rfl⟩
    · obtain ⟨hd2, h1, h2, h3, h4⟩ := (hsh.layer M hM).head
      refine LayerOK.of_head h1 h2 (h3.frame ?_) h4
      intro c hc
      exact Mem.write_other _ _ _ _ (hlt c (List.mem_flatten.mpr ⟨M, hM, hc⟩))
  · rw [hls]
    refine List.chain'_cons.mpr ⟨?_, by rw [← hls]; exact hsh.linked⟩
    intro c hc
    simp at hc
    subst hc
    exact ⟨hd, by simp, htop, hhv, fun h => by rw [hnv] at h; exact absurd h (by simp)⟩
  · obtain ⟨B, hB, hb⟩ := hsh.bottom
    refine ⟨B, ?_, hb⟩
    rw [← hB]
    cases ls with
    | nil => exact absurd rfl hne
    | cons M ls1 => exact List.getLast?_cons_cons
  · simp only [List.flatten_cons, List.map_append, List.map_cons, List.map_nil,
      List.singleton_append]
    refine List.nodup_cons.mpr ⟨?_, hsh.nodup⟩
    intro hmem
    obtain ⟨c, hc, hca⟩ := List.mem_map.mp hmem
    exact hlt c hc hca
  · intro c hc
    simp only [List.flatten_cons, List.singleton_append, List.mem_cons] at hc
    rcases hc with rfl | hc
    · exact Nat.lt_succ_self _
    · exact Nat.lt_succ_of_lt (hsh.bound c hc)
  · simp [addEmptyTopLayer, hinv.height]
  · have := hinv.two
    simp only [List.length_cons]
    omega
  · obtain ⟨B, hB, hsz⟩ := hinv.size
    refine ⟨B, ?_, hsz⟩
    rw [← hB]
    cases ls with
    | nil => exact absurd rfl hne
    | cons M ls1 => exact List.getLast?_cons_cons

/-- The loop that adds top layers: `count` sentinel layers are put on top, and the new
sentinels are recorded ahead of the predecessors collected before. -/
theorem growLayers_spec (key : K) (count : Nat) :
    ∀ (s : SkipList K V) (ls : List (List (Cell K V))), Inv s ls →
      ∃ tops, Inv (growLayers count s (predAddrs key ls)).1 (tops ++ ls) ∧
        (growLayers count s (predAddrs key ls)).2 = predAddrs key (tops ++ ls) ∧
        tops.length = count ∧ (∀ T ∈ tops, hasKey key T = false) ∧
        (growLayers count s (predAddrs key ls)).1.size_ = s.size_ ∧
        (growLayers count s (predAddrs key ls)).1.height_ = s.height_ + count := by
  induction count with
  | zero =>
    intro s ls hinv
    exact ⟨[], by simpa [growLayers] using hinv, by simp [growLayers], rfl, by simp, rfl, rfl⟩
  | succ g ih =>
    intro s ls hinv
    have hinv2 := addEmptyTopLayer_inv hinv
    have hp : s.next :: predAddrs key ls = predAddrs key ([topCell s] :: ls) := by
      rw [predAddrs_cons (@predOf_single _ _ _ key (topCell s) rfl)]
      rfl
    obtain ⟨tops, h1, h2, h3, h4, h5, h6⟩ := ih (addEmptyTopLayer s) ([topCell s] :: ls) hinv2
    refine ⟨tops ++ [[topCell s]], ?_, ?_, ?_, ?_, ?_, ?_⟩
    · simp only [growLayers, hp]
      simpa using h1
    · simp only [growLayers, hp]
      simpa using h2
    · simp [h3]
    · intro T hT
      rcases List.mem_append.mp hT with hT | hT
      · exact h4 T hT
      · simp at hT; subst hT; exact hasKey_single rfl
    · simp only [growLayers, hp]
      rw [h5]; rfl
    · simp only [growLayers, hp]
      rw [h6]
      simp [addEmptyTopLayer]
      omega

end SkipList

/-! ## The tower loop of insert -/

namespace SkipList
variable {K V : Type} [LinearOrder K] [Inhabited V]

theorem raise_nil (key : K) (count below next : Nat) :
    raise key count below next ([] : List (List (Cell K V))) = [] := by
  cases count <;> rfl

theorem raise_length (key : K) (rem : List (List (Cell K V))) :
    ∀ count below next, (raise key count below next rem).length = rem.length := by
  induction rem with
  | nil => intro count below next; rw [raise_nil]
  | cons L rem ih =>
    intro count below next
    cases count with
    | zero => rfl
    | succ c => simp [raise, ih]

theorem raise_getLast? (key : K) (rem : List (List (Cell K V))) :
    ∀ count below next, count < rem.length →
      (raise key count below next rem).getLast? = rem.getLast? := by
  induction rem with
  | nil => intro count below next h; simp at h
  | cons L rem ih =>
    intro count below next h
    cases count with
    | zero => rfl
    | succ c =>
      have hc : c < rem.length := by simpa using h
      have := ih c next (next + 1) hc
      cases rem with
      | nil => simp at hc
      | cons M rem1 =>
        simp only [raise] at this ⊢
        cases c with
        | zero => simp [raise]
        | succ c1 =>
          simp only [raise] at this ⊢
          rw [List.getLast?_cons_cons, List.getLast?_cons_cons]
          exact this

/-- The `for` loop of `insert`: going up from the layer above `low`, it links an upper
node of `key` into each layer until the tower has `towerLevels` nodes. -/
theorem buildTower_spec (key : K) (towerLevels : Nat) (rem : List (List (Cell K V))) :
    ∀ (low : List (List (Cell K V))) (built below : Nat) (mem : Mem K V) (n : Nat),
      Shape mem n (rem.reverse ++ low) → (∀ L ∈ rem, hasKey key L = false) →
      (∃ M d, low.head? = some M ∧ d ∈ M ∧ d.addr = below ∧ d.keyValid = true ∧
        d.key = key) →
      ∃ mem1 n1, buildTower key towerLevels (predAddrs key rem) built below mem n =
          .ok (mem1, n1) ∧
        Shape mem1 n1 ((raise key (towerLevels - built) below n rem).reverse ++ low) := by
  induction rem with
  | nil =>
    intro low built below mem n h _ _
    refine ⟨mem, n, rfl, ?_⟩
    rw [raise_nil]; exact h
  | cons L rem ih =>
    intro low built below mem n h hno hlow
    by_cases hb : built < towerLevels
    · have h2 : Shape mem n (rem.reverse ++ L :: low) := by simpa using h
      obtain ⟨M, d, hM, hdM, hda, hdv, hdk⟩ := hlow
      obtain ⟨mem1, hlink, hs1, _⟩ := insert_layer key (upperNodeOf key below) h2 rfl rfl
        (hno L (List.mem_cons_self _ _))
        (by intro hnil; rw [hnil] at hM; simp at hM)
        (by
          intro M2 hM2
          rw [hM] at hM2
          have : M = M2 := Option.some.inj hM2
          subst this
          exact ⟨d, hdM, by rw [hda]; rfl, hdv, hdk⟩)
      obtain ⟨mem2, n2, hbt, hs2⟩ := ih
        (insCell key (Cell.ofNode n (upperNodeOf key below)) L :: low) (built + 1) n mem1 (n + 1)
        hs1 (fun L2 hL2 => hno L2 (List.mem_cons_of_mem _ hL2))
        ⟨_, Cell.ofNode n (upperNodeOf key below), rfl, mem_insCell.mpr (Or.inl rfl), rfl, rfl,
          rfl⟩
      refine ⟨mem2, n2, ?_, ?_⟩
      · have hp : predAddrs key (L :: rem) = predAddr key L :: predAddrs key rem := rfl
        rw [hp]
        simp only [buildTower, hb, if_true, hlink, hbt]
      · have hc : towerLevels - built = (towerLevels - (built + 1)) + 1 := by omega
        rw [hc]
        simpa [raise] using hs2
    · have hp : predAddrs key (L :: rem) = predAddr key L :: predAddrs key rem := rfl
      have hc : towerLevels - built = 0 := by omega
      refine ⟨mem, n, ?_, ?_⟩
      · rw [hp]
        simp only [buildTower, hb, if_false]
      · rw [hc]
        exact h

end SkipList

/-! ## insert on a well-formed structure -/

namespace SkipList
variable {K V : Type} [LinearOrder K] [Inhabited K] [Inhabited V]

omit [Inhabited K] [Inhabited V] in
theorem collectPredecessors_spec {s : SkipList K V} {ls : List (List (Cell K V))}
    (hinv : Inv s ls) (key : K) (visited : Nat) :
    ∃ visited1, collectPredecessors s key visited = .ok (predAddrs key ls, visited1) := by
  obtain ⟨hd, rest, hls, htop, hhv, hrest⟩ := hinv.cons
  have hsh := hinv.shape
  have hlen := hsh.length_le
  subst hls
  have hx : hd.below key = true := by simp [Cell.below, hhv]
  obtain ⟨v1, h1⟩ := collectLoop_spec key (s.next + 1) rest [hd] [] [] hd [] visited
    (s.next + 1) hsh.tower rfl hx (fun M hM => Nat.lt_succ_of_le (hsh.layer_le hM))
    (by simp at hlen; omega)
  refine ⟨v1, ?_⟩
  rw [collectPredecessors, htop, h1]
  simp

omit [Inhabited K] [Inhabited V] in
theorem predAddr_last {s : SkipList K V} {ls : List (List (Cell K V))} {B : List (Cell K V)}
    (hinv : Inv s ls) (hB : ls.getLast? = some B) (key : K) :
    (predAddrs key ls).getLast? = some (predAddr key B) ∧
      rightIs s.mem key (predAddr key B) = .ok (hasKey key B) := by
  refine ⟨by rw [predAddrs, getLast?_map, hB]; rfl, ?_⟩
  have hBok := hinv.shape.layer B (List.mem_of_mem_getLast? hB)
  obtain ⟨preP, p, post, r, hd, _, hpred, _, _, _, _, _, _, _, _, _, _, _, hris, _⟩ :=
    hBok.pred key
  have hpa : predAddr key B = p.addr := by simp [predAddr, hpred]
  rw [hpa]; exact hris

/-- Source `insert` on a well-formed structure. For a key that is present nothing
happens. For an absent key, `tops` are the sentinel layers added on top, `n1` is the
address of the new bottom node, and the new layers are the old ones with the tower of
`key` put into the lowest `towerLevelsFor flip s key` of them. -/
theorem insert_spec (flip : K → Nat → Bool) {s : SkipList K V} {ls : List (List (Cell K V))}
    (hinv : Inv s ls) (key : K) (value : V) :
    ∃ B, ls.getLast? = some B ∧
      (hasKey key B = true → insert flip s key value = (.ok none, s)) ∧
      (hasKey key B = false → ∃ visited tops n1,
        (insert flip s key value).1 = .ok (some visited) ∧
        tops.length = towerLevelsFor flip s key + 1 - s.height_ ∧
        (∀ T ∈ tops, hasKey key T = false) ∧
        Inv (insert flip s key value).2
          ((raise key (towerLevelsFor flip s key - 1) n1 (n1 + 1)
              (tops ++ ls).dropLast.reverse).reverse ++
            [insCell key (Cell.ofNode n1 (bottomNodeOf key value)) B]) ∧
        (insert flip s key value).2.size_ = s.size_ + 1 ∧
        (insert flip s key value).2.height_ =
          s.height_ + (towerLevelsFor flip s key + 1 - s.height_)) := by
  obtain ⟨B, hB, hsz, hBok, hBot, hBmem⟩ := hinv.bottom_layer
  obtain ⟨visited, hcol⟩ := collectPredecessors_spec hinv key 0
  obtain ⟨hlast, hris⟩ := predAddr_last hinv hB key
  refine ⟨B, hB, ?_, ?_⟩
  · intro hk
    rw [hk] at hris
    simp only [insert, hcol, hlast, hris]
  · intro hk
    rw [hk] at hris
    have hlsne : ls ≠ [] := by intro h; rw [h] at hB; simp at hB
    obtain ⟨tops, hinv1, hpreds1, hlen, hno, hsz1, hht1⟩ :=
      growLayers_spec key (towerLevelsFor flip s key + 1 - s.height_) s ls hinv
    generalize hg : growLayers (towerLevelsFor flip s key + 1 - s.height_) s (predAddrs key ls)
      = grown at hinv1 hpreds1 hsz1 hht1
    have hB1 : (tops ++ ls).getLast? = some B := by
      rw [List.getLast?_append_of_ne_nil _ hlsne]; exact hB
    have hsplit : (tops ++ ls).dropLast ++ [B] = tops ++ ls :=
      List.dropLast_append_getLast? B hB1
    have hsh1 : Shape grown.1.mem grown.1.next ((tops ++ ls).dropLast ++ [B]) := by
      rw [hsplit]; exact hinv1.shape
    obtain ⟨mem1, hlink, hs1, _⟩ := insert_layer key (bottomNodeOf key value) hsh1 rfl rfl hk
      (fun _ => rfl) (by intro M hM; simp at hM)
    have hnoall : ∀ L ∈ (tops ++ ls).dropLast.reverse, hasKey key L = false := by
      intro L hL
      have hL2 : L ∈ tops ++ ls := by
        rw [← hsplit]; exact List.mem_append_left _ (List.mem_reverse.mp hL)
      rcases List.mem_append.mp hL2 with hL3 | hL3
      · exact hno L hL3
      · have hany := hinv.shape.tower.any_hasKey key hB
        rw [hk, List.any_eq_false] at hany
        simpa using hany L hL3
    obtain ⟨mem2, n2, hbt, hs2⟩ := buildTower_spec key (towerLevelsFor flip s key)
      (tops ++ ls).dropLast.reverse
      [insCell key (Cell.ofNode grown.1.next (bottomNodeOf key value)) B] 1 grown.1.next mem1
      (grown.1.next + 1) (by simpa using hs1) hnoall
      ⟨_, Cell.ofNode grown.1.next (bottomNodeOf key value), rfl,
        mem_insCell.mpr (Or.inl rfl), rfl, rfl, rfl⟩
    have hpd : grown.2.dropLast.reverse = predAddrs key (tops ++ ls).dropLast.reverse := by
      rw [hpreds1]
      conv_lhs => rw [← hsplit]
      simp [predAddrs]
    have hres : insert flip s key value = (.ok (some visited),
        { grown.1 with mem := mem2, next := n2, size_ := grown.1.size_ + 1 }) := by
      simp only [insert, hcol, hlast, hris]
      have ht : towerLoop flip key (layerLimit (s.size_ + 1) - 1) 1 = towerLevelsFor flip s key :=
        rfl
      simp only [ht, hg, hlink, hpd, hbt]
    rw [hres]
    refine ⟨visited, tops, grown.1.next, rfl, hlen, hno, ?_, ?_, ?_⟩
    · have hcons1 := hinv1.cons
      obtain ⟨hd1, rest1, hls1, htop1, hhv1, hrest1⟩ := hcons1
      have hup : (tops ++ ls).dropLast = [hd1] :: rest1.dropLast := by
        rw [hls1]
        cases rest1 with
        | nil => exact absurd rfl hrest1
        | cons M r => rfl
      have hlen1 : (tops ++ ls).length = grown.1.height_ := hinv1.height.symm
      have hlen2 : ((tops ++ ls).dropLast).length + 1 = (tops ++ ls).length := by
        rw [← hsplit]; simp
      have hheight : s.height_ = ls.length := hinv.height
      have htwo := hinv.two
      have hcount : towerLevelsFor flip s key - 1 < (tops ++ ls).dropLast.reverse.length := by
        rw [List.length_reverse]
        omega
      refine ⟨hs2, ?_, ?_, ?_, ?_⟩
      · refine ⟨hd1, ?_, htop1⟩
        have hne : (raise key (towerLevelsFor flip s key - 1) grown.1.next (grown.1.next + 1)
            (tops ++ ls).dropLast.reverse).reverse ≠ [] := by
          intro h
          have := congrArg List.length h
          rw [List.length_reverse, raise_length, List.length_reverse] at this
          rw [hup] at this
          simp at this
        rw [List.head?_append_of_ne_nil _ hne, List.head?_reverse,
          raise_getLast? _ _ _ _ _ hcount, List.getLast?_reverse, hup]
        rfl
      · simp only [List.length_append, List.length_reverse, raise_length, List.length_cons,
          List.length_nil]
        omega
      · simp only [List.length_append, List.length_reverse, raise_length, List.length_cons,
          List.length_nil]
        omega
      · refine ⟨insCell key (Cell.ofNode grown.1.next (bottomNodeOf key value)) B, by simp, ?_⟩
        rw [(insCell_perm key _ B).length_eq]
        simp only [List.length_cons]
        omega
    · simp only
      omega
    · exact hht1

end SkipList

/-! ## Scans of the bottom layer -/

namespace SkipList
variable {K V : Type}

theorem keysOf_cons (c : Cell K V) (cs : List (Cell K V)) :
    keysOf (c :: cs) = (if c.keyValid then [c.key] else []) ++ keysOf cs := by
  cases h : c.keyValid <;> simp [keysOf, List.filter_cons, h]

theorem keysLoop_spec (mem : Mem K V) (cs : List (Cell K V)) :
    ∀ (p : Option Nat) (fuel : Nat) (out : List K), Seg mem p cs none → cs.length < fuel →
      keysLoop mem fuel p out = .ok (out ++ keysOf cs) := by
  induction cs with
  | nil =>
    intro p fuel out h hf
    have : p = none := h
    subst this
    match fuel, hf with
    | f + 1, _ => simp [keysLoop, keysOf]
  | cons c cs ih =>
    intro p fuel out h hf
    obtain ⟨hp, r, hm, hr⟩ := h
    subst hp
    match fuel, hf with
    | f + 1, hf =>
      have := ih r f (if c.keyValid then out ++ [c.key] else out) hr (by simpa using hf)
      simp only [keysLoop, hm, Cell.node, this, keysOf_cons]
      cases c.keyValid <;> simp

/-- The `(key, value)` pairs of the real nodes of a layer. -/
theorem entriesLoop_spec (mem : Mem K V) (cs : List (Cell K V)) :
    ∀ (p : Option Nat) (fuel : Nat) (out : List (K × V)), Seg mem p cs none →
      cs.length < fuel →
      entriesLoop mem fuel p out =
        .ok (out ++ (cs.filter (fun c => c.keyValid)).map (fun c => (c.key, c.value))) := by
  induction cs with
  | nil =>
    intro p fuel out h hf
    have : p = none := h
    subst this
    match fuel, hf with
    | f + 1, _ => simp [entriesLoop]
  | cons c cs ih =>
    intro p fuel out h hf
    obtain ⟨hp, r, hm, hr⟩ := h
    subst hp
    match fuel, hf with
    | f + 1, hf =>
      have := ih r f (if c.keyValid then out ++ [(c.key, c.value)] else out) hr
        (by simpa using hf)
      simp only [entriesLoop, hm, Cell.node, this]
      cases hv : c.keyValid <;> simp [List.filter_cons, hv]

theorem lastLoop_spec (mem : Mem K V) (cs : List (Cell K V)) :
    ∀ (p : Option Nat) (fuel : Nat) (last : Option Nat), Seg mem p cs none →
      (∀ c ∈ cs, c.keyValid = true) → cs.length < fuel →
      lastLoop mem fuel p last = .ok ((cs.getLast?.map Cell.addr).or last) := by
  induction cs with
  | nil =>
    intro p fuel last h _ hf
    have : p = none := h
    subst this
    match fuel, hf with
    | f + 1, _ => simp [lastLoop]
  | cons c cs ih =>
    intro p fuel last h hv hf
    obtain ⟨hp, r, hm, hr⟩ := h
    subst hp
    match fuel, hf with
    | f + 1, hf =>
      have := ih r f (some c.addr) hr (fun x hx => hv x (List.mem_cons_of_mem _ hx))
        (by simpa using hf)
      simp only [lastLoop, hm, Cell.node, hv c (List.mem_cons_self _ _), if_true, this]
      cases cs with
      | nil => simp
      | cons d cs =>
        rw [List.getLast?_cons_cons,
          show (d :: cs).getLast? = some (cs.getLastD d) from getLast?_append_cons [] cs d]
        simp

section Order
variable [LinearOrder K]

theorem prevLoop_spec (mem : Mem K V) (key : K) (cs : List (Cell K V)) :
    ∀ (p : Option Nat) (fuel : Nat) (prev : Option Nat), Seg mem p cs none →
      cs.length < fuel →
      prevLoop mem key fuel p prev =
        .ok (((cs.dropWhile (fun c => c.keyValid && decide (c.key < key))).head?.map Cell.addr),
          (((cs.takeWhile (fun c => c.keyValid && decide (c.key < key))).getLast?.map
            Cell.addr).or prev)) := by
  induction cs with
  | nil =>
    intro p fuel prev h hf
    have : p = none := h
    subst this
    match fuel, hf with
    | f + 1, _ => simp [prevLoop]
  | cons c cs ih =>
    intro p fuel prev h hf
    obtain ⟨hp, r, hm, hr⟩ := h
    subst hp
    match fuel, hf with
    | f + 1, hf =>
      have := ih r f (some c.addr) hr (by simpa using hf)
      by_cases hq : (c.keyValid && decide (c.key < key)) = true
      · simp only [prevLoop, hm, Cell.node, hq, if_true, this, List.dropWhile_cons,
          List.takeWhile_cons]
        cases h2 : cs.takeWhile (fun c => c.keyValid && decide (c.key < key)) with
        | nil => simp
        | cons d ds =>
          rw [List.getLast?_cons_cons,
            show (d :: ds).getLast? = some (ds.getLastD d) from getLast?_append_cons [] ds d]
          simp
      · simp only [prevLoop, hm, Cell.node, hq, List.dropWhile_cons, List.takeWhile_cons]
        simp

end Order
end SkipList

/-! ## Lookups on a well-formed structure -/

namespace SkipList
variable {K V : Type} [LinearOrder K]

/-- Two nodes of a layer with the same key are the same node. -/
theorem is_unique {L : List (Cell K V)} {a b : Cell K V} {key : K}
    (hpw : L.Pairwise Cell.before) (ha : a ∈ L) (hb : b ∈ L) (hak : a.is key = true)
    (hbk : b.is key = true) : a = b := by
  obtain ⟨hav, hake⟩ := is_iff.mp hak
  obtain ⟨hbv, hbke⟩ := is_iff.mp hbk
  obtain ⟨pre, rest, rfl⟩ := List.append_of_mem ha
  obtain ⟨h1, h2, h3⟩ := List.pairwise_append.mp hpw
  rcases List.mem_append.mp hb with hb | hb
  · have := (h3 b hb a (List.mem_cons_self _ _)).2 hbv
    rw [hake, hbke] at this
    exact absurd this (lt_irrefl _)
  · rcases List.mem_cons.mp hb with rfl | hb
    · rfl
    · have := ((List.pairwise_cons.mp h2).1 b hb).2 hav
      rw [hake, hbke] at this
      exact absurd this (lt_irrefl _)

/-- The bottom layer of a well-formed structure: its sentinel is what the descent from
`topHead_` arrives at, its real nodes are chained behind it in key order, and `size_`
counts them. -/
theorem Inv.bottom_view {s : SkipList K V} {ls : List (List (Cell K V))} (hinv : Inv s ls) :
    ∃ hd cells r, ls.getLast? = some (hd :: cells) ∧ hd.keyValid = false ∧
      (∀ c ∈ cells, c.keyValid = true) ∧ (cells.map Cell.key).Pairwise (· < ·) ∧
      bottomHead s = .ok hd.addr ∧ s.mem hd.addr = some (hd.node r) ∧
      Seg s.mem r cells none ∧ cells.length = s.size_ ∧ cells.length < s.next + 1 ∧
      LayerOK s.mem (hd :: cells) ∧ (hd :: cells).Pairwise Cell.before := by
  obtain ⟨B, hB, hsz, hBok, hBot, hBmem⟩ := hinv.bottom_layer
  obtain ⟨hd, cells, hBe, hhv, hpw, hseg⟩ := id hBok
  subst hBe
  obtain ⟨top, rest, hls, htop, htv, hrest⟩ := hinv.cons
  have hsh := hinv.shape
  have hval : ∀ c ∈ cells, c.keyValid = true :=
    fun c hc => ((List.pairwise_cons.mp hpw).1 c hc).1
  obtain ⟨_, r, hm, hr⟩ := id hseg
  have hlenB : (hd :: cells).length ≤ s.next := hsh.layer_le hBmem
  have hlen := hsh.length_le
  refine ⟨hd, cells, r, hB, hhv, hval, ?_, ?_, hm, hr, by simpa using hsz,
    by simp at hlenB; omega, hBok, hpw⟩
  · rw [List.pairwise_map]
    refine (List.pairwise_cons.mp hpw).2.imp_of_mem ?_
    intro a b ha _ hab
    exact hab.2 (hval a ha)
  · subst hls
    obtain ⟨B2, b, hB2, hb, hdesc, hbv, _⟩ := descend_spec rest [top] top (s.next + 1)
      hsh.tower (by simp) (by simp at hlen; omega)
    rw [hB] at hB2
    have hB3 : hd :: cells = B2 := Option.some.inj hB2
    subst hB3
    have hbh : b = hd := by
      rcases List.mem_cons.mp hb with h | h
      · exact h
      · have := hval b h
        rw [hbv, htv] at this
        exact absurd this (by simp)
    subst hbh
    rw [bottomHead, htop]
    exact hdesc

omit [LinearOrder K] in
theorem keysOf_bottom {hd : Cell K V} {cells : List (Cell K V)} (hhv : hd.keyValid = false)
    (hval : ∀ c ∈ cells, c.keyValid = true) : keysOf (hd :: cells) = cells.map Cell.key := by
  rw [keysOf_cons, hhv]
  simp only [Bool.false_eq_true, if_false, List.nil_append, keysOf]
  congr 1
  rw [List.filter_eq_self]
  exact hval

theorem hasKey_cells_iff {hd : Cell K V} {cells : List (Cell K V)} (key : K)
    (hhv : hd.keyValid = false) (hval : ∀ c ∈ cells, c.keyValid = true) :
    hasKey key (hd :: cells) = true ↔ key ∈ cells.map Cell.key := by
  rw [hasKey_iff]
  constructor
  · rintro ⟨c, hc, hcis⟩
    obtain ⟨hcv, hck⟩ := is_iff.mp hcis
    rcases List.mem_cons.mp hc with rfl | hc
    · rw [hhv] at hcv; exact absurd hcv (by simp)
    · exact List.mem_map.mpr ⟨c, hc, hck⟩
  · intro h
    obtain ⟨c, hc, hck⟩ := List.mem_map.mp h
    exact ⟨c, List.mem_cons_of_mem _ hc, is_iff.mpr ⟨hval c hc, hck⟩⟩

/-- Source `allKeysInOrder` on a well-formed structure. -/
theorem allKeysInOrder_spec {s : SkipList K V} {ls : List (List (Cell K V))}
    (hinv : Inv s ls) :
    ∃ hd cells, ls.getLast? = some (hd :: cells) ∧
      allKeysInOrder s = .ok (cells.map Cell.key) ∧
      bottomEntries s = .ok (cells.map (fun c => (c.key, c.value))) := by
  obtain ⟨hd, cells, r, hB, hhv, hval, _, hbh, hm, hr, _, hf, _, _⟩ := hinv.bottom_view
  refine ⟨hd, cells, hB, ?_, ?_⟩
  · rw [allKeysInOrder, hbh]
    simp only [hm, Cell.node]
    rw [keysLoop_spec s.mem cells r (s.next + 1) [] hr hf]
    simp only [List.nil_append, keysOf]
    rw [List.filter_eq_self.mpr hval]
  · rw [bottomEntries, hbh]
    simp only [hm, Cell.node]
    rw [entriesLoop_spec s.mem cells r (s.next + 1) [] hr hf]
    simp only [List.nil_append]
    rw [List.filter_eq_self.mpr hval]

/-- Source `searchBottomNode` on a well-formed structure. -/
theorem searchBottomNode_spec {s : SkipList K V} {ls : List (List (Cell K V))}
    (hinv : Inv s ls) (key : K) (visited : Nat) :
    ∃ hd cells visited1, ls.getLast? = some (hd :: cells) ∧
      ((key ∉ cells.map Cell.key ∧ searchBottomNode s key visited = .ok (none, visited1)) ∨
       (∃ b ∈ cells, b.key = key ∧ (∃ r, s.mem b.addr = some (b.node r)) ∧
          searchBottomNode s key visited = .ok (some b.addr, visited1))) := by
  obtain ⟨hd, cells, r, hB, hhv, hval, _, _, _, _, _, _, hBok, _⟩ := hinv.bottom_view
  obtain ⟨top, rest, hls, htop, htv, hrest⟩ := hinv.cons
  have hsh := hinv.shape
  have hlen := hsh.length_le
  subst hls
  have hx : top.below key = true := by simp [Cell.below, htv]
  obtain ⟨B, v1, hB2, hres⟩ := searchLoop_spec key (s.next + 1) rest [top] [] [] top visited
    (s.next + 1) hsh.tower rfl hx (fun M hM => Nat.lt_succ_of_le (hsh.layer_le hM))
    (by simp at hlen; omega) (by simp at hlen; omega)
  rw [hB] at hB2
  have hB3 : hd :: cells = B := Option.some.inj hB2
  subst hB3
  refine ⟨hd, cells, v1, hB, ?_⟩
  rw [searchBottomNode, htop]
  rcases hres with ⟨hno, hres⟩ | ⟨b, hb, hbis, hres⟩
  · left
    refine ⟨?_, hres⟩
    intro hmem
    rw [(hasKey_cells_iff key hhv hval).mpr hmem] at hno
    exact Bool.noConfusion hno
  · right
    obtain ⟨hbv, hbk⟩ := is_iff.mp hbis
    have hbc : b ∈ cells := by
      rcases List.mem_cons.mp hb with rfl | h
      · rw [hhv] at hbv; exact absurd hbv (by simp)
      · exact h
    exact ⟨b, hbc, hbk, hBok.stored hb, hres⟩

/-- Source `find` on a well-formed structure. -/
theorem find_spec {s : SkipList K V} {ls : List (List (Cell K V))} (hinv : Inv s ls)
    (key : K) :
    ∃ hd cells, ls.getLast? = some (hd :: cells) ∧
      (key ∉ cells.map Cell.key → find s key = (.error notFound, s)) ∧
      (∀ b ∈ cells, b.key = key → ∃ visited, find s key = (.ok (b.value, visited), s)) := by
  obtain ⟨hd, cells, v1, hB, hres⟩ := searchBottomNode_spec hinv key 0
  obtain ⟨hd2, cells2, _, hB2, _, hval, _, _, _, _, _, _, _, hpw⟩ := hinv.bottom_view
  rw [hB] at hB2
  obtain ⟨rfl, rfl⟩ := List.cons.inj (Option.some.inj hB2)
  refine ⟨hd, cells, hB, ?_, ?_⟩
  · intro hno
    rcases hres with ⟨_, hres⟩ | ⟨b, hb, hbk, _, _⟩
    · simp only [find, hres]
    · exact absurd (List.mem_map.mpr ⟨b, hb, hbk⟩) hno
  · intro b hb hbk
    rcases hres with ⟨hno, _⟩ | ⟨b2, hb2, hbk2, ⟨r, hm⟩, hres⟩
    · exact absurd (List.mem_map.mpr ⟨b, hb, hbk⟩) hno
    · have : b2 = b := is_unique hpw (List.mem_cons_of_mem _ hb2) (List.mem_cons_of_mem _ hb)
        (is_iff.mpr ⟨hval b2 hb2, hbk2⟩) (is_iff.mpr ⟨hval b hb, hbk⟩)
      subst this
      exact ⟨v1, by simp only [find, hres, hm, Cell.node]⟩

/-- Source `height` on a well-formed structure: one for every present key, whatever the
number of layers the key is in. -/
theorem height_spec {s : SkipList K V} {ls : List (List (Cell K V))} (hinv : Inv s ls)
    (key : K) :
    ∃ hd cells, ls.getLast? = some (hd :: cells) ∧
      (key ∉ cells.map Cell.key → height s key = .error notFound) ∧
      (key ∈ cells.map Cell.key → height s key = .ok 1) := by
  obtain ⟨hd, cells, r, hB, hhv, hval, _, _, _, _, _, _, hBok, _⟩ := hinv.bottom_view
  obtain ⟨top, rest, hls, htop, htv, hrest⟩ := hinv.cons
  have hsh := hinv.shape
  have hlen := hsh.length_le
  subst hls
  have hx : top.below key = true := by simp [Cell.below, htv]
  obtain ⟨B, hB2, hres⟩ := heightLoop_spec key (s.next + 1) rest [top] [] [] top 0
    (s.next + 1) hsh.tower rfl hx (fun M hM => Nat.lt_succ_of_le (hsh.layer_le hM))
    (by simp at hlen; omega)
  rw [hB] at hB2
  have hB3 : hd :: cells = B := Option.some.inj hB2
  subst hB3
  refine ⟨hd, cells, hB, ?_, ?_⟩
  · intro hno
    have hk : hasKey key (hd :: cells) = false := by
      cases h : hasKey key (hd :: cells) with
      | false => rfl
      | true => exact absurd ((hasKey_cells_iff key hhv hval).mp h) hno
    rw [hk] at hres
    simp [height, htop, hres]
  · intro hyes
    rw [(hasKey_cells_iff key hhv hval).mpr hyes] at hres
    simp [height, htop, hres]

end SkipList

/-! ## Order queries on a well-formed structure -/

namespace SkipList
variable {K V : Type}

/-- Where a walk stops, the free store holds the stop cell, and its `right` pointer leads
to the cells the walk did not pass. -/
theorem walk_stop {mem : Mem K V} (q : Cell K V → Bool) {c : Cell K V}
    {rest : List (Cell K V)} (h : Seg mem (some c.addr) (c :: rest) none) :
    ∃ r, mem ((rest.takeWhile q).getLastD c).addr = some (((rest.takeWhile q).getLastD c).node r) ∧
      Seg mem r (rest.dropWhile q) none := by
  obtain ⟨init, hi, _⟩ := cons_eq_concat_getLastD (rest.takeWhile q) c
  have hL : c :: rest = init ++ (rest.takeWhile q).getLastD c :: rest.dropWhile q := by
    have : c :: rest = (c :: rest.takeWhile q) ++ rest.dropWhile q := by
      simp [List.takeWhile_append_dropWhile]
    rw [this, hi]; simp
  rw [hL] at h
  obtain ⟨r, hm, _, hr⟩ := h.split
  exact ⟨r, hm, hr⟩

section Order
variable [LinearOrder K]

theorem find_dropWhile (k : K) (cells : List (Cell K V)) (hval : ∀ c ∈ cells, c.keyValid = true) :
    (cells.map Cell.key).find? (fun m => decide (k < m)) =
      ((cells.dropWhile (fun c => c.keyValid && decide (c.key ≤ k))).head?).map Cell.key := by
  induction cells with
  | nil => rfl
  | cons c cs ih =>
    have hc := hval c (List.mem_cons_self _ _)
    have ih2 := ih (fun x hx => hval x (List.mem_cons_of_mem _ hx))
    by_cases hle : c.key ≤ k
    · have hn : ¬ k < c.key := not_lt.mpr hle
      simp [List.find?_cons, List.dropWhile_cons, hc, hle, hn, ih2]
    · have hn : k < c.key := not_le.mp hle
      simp [List.find?_cons, List.dropWhile_cons, hc, hle, hn]

theorem takeWhile_keys (k : K) (cells : List (Cell K V))
    (hval : ∀ c ∈ cells, c.keyValid = true) :
    (cells.map Cell.key).takeWhile (fun m => decide (m < k)) =
      (cells.takeWhile (fun c => c.keyValid && decide (c.key < k))).map Cell.key := by
  induction cells with
  | nil => rfl
  | cons c cs ih =>
    have hc := hval c (List.mem_cons_self _ _)
    have ih2 := ih (fun x hx => hval x (List.mem_cons_of_mem _ hx))
    by_cases hlt : c.key < k
    · simp [List.takeWhile_cons, hc, hlt, ih2]
    · simp [List.takeWhile_cons, hc, hlt]

/-- In a sorted layer the scan of `previousKey` stops at the node of a present key. -/
theorem dropWhile_at_key (k : K) (cells : List (Cell K V))
    (hval : ∀ c ∈ cells, c.keyValid = true) (hs : (cells.map Cell.key).Pairwise (· < ·))
    (hk : k ∈ cells.map Cell.key) :
    ∃ e rest, cells.dropWhile (fun c => c.keyValid && decide (c.key < k)) = e :: rest ∧
      e.key = k ∧ e ∈ cells := by
  induction cells with
  | nil => simp at hk
  | cons c cs ih =>
    have hc := hval c (List.mem_cons_self _ _)
    rw [List.map_cons, List.pairwise_cons] at hs
    by_cases hlt : c.key < k
    · have hk2 : k ∈ cs.map Cell.key := by
        rcases List.mem_cons.mp hk with h | h
        · exact absurd (h ▸ hlt) (lt_irrefl _)
        · exact h
      obtain ⟨e, rest, h1, h2, h3⟩ :=
        ih (fun x hx => hval x (List.mem_cons_of_mem _ hx)) hs.2 hk2
      refine ⟨e, rest, ?_, h2, List.mem_cons_of_mem _ h3⟩
      simp [List.dropWhile_cons, hc, hlt, h1]
    · refine ⟨c, cs, by simp [List.dropWhile_cons, hc, hlt], ?_, List.mem_cons_self _ _⟩
      rcases List.mem_cons.mp hk with h | h
      · exact h.symm
      · exact absurd (hs.1 k h) hlt

/-- Source `nextKey` on a well-formed structure. -/
theorem nextKey_spec {s : SkipList K V} {ls : List (List (Cell K V))} (hinv : Inv s ls)
    (key : K) :
    ∃ hd cells, ls.getLast? = some (hd :: cells) ∧
      (key ∉ cells.map Cell.key → nextKey s key = .error notFound) ∧
      (key ∈ cells.map Cell.key → nextKey s key =
        orThrow noSuccessor ((cells.map Cell.key).find? (fun m => decide (key < m)))) := by
  obtain ⟨hd, cells, v1, hB, hres⟩ := searchBottomNode_spec hinv key 0
  obtain ⟨hd2, cells2, r, hB2, hhv, hval, _, hbh, hm, hr, _, hf, hBok, hpw⟩ := hinv.bottom_view
  rw [hB] at hB2
  obtain ⟨rfl, rfl⟩ := List.cons.inj (Option.some.inj hB2)
  refine ⟨hd, cells, hB, ?_, ?_⟩
  · intro hno
    rcases hres with ⟨_, hres⟩ | ⟨b, hb, hbk, _, _⟩
    · simp only [nextKey, hres]
    · exact absurd (List.mem_map.mpr ⟨b, hb, hbk⟩) hno
  · intro hyes
    rcases hres with ⟨hno, _⟩ | ⟨b, hb, hbk, _, hres⟩
    · exact absurd hyes hno
    · have hseg : Seg s.mem (some hd.addr) (hd :: cells) none := ⟨rfl, r, hm, hr⟩
      have hwalk := walkRight_spec s.mem (fun k => decide (k ≤ key)) cells hd (s.next + 1) 0
        hseg hf
      obtain ⟨r2, hm2, hr2⟩ :=
        walk_stop (fun x => x.keyValid && decide (x.key ≤ key)) hseg
      rw [find_dropWhile key cells hval]
      simp only [nextKey, hres, hbh, hwalk, hm2, Cell.node]
      cases hdw : cells.dropWhile (fun x => x.keyValid && decide (x.key ≤ key)) with
      | nil =>
        rw [hdw] at hr2
        have : r2 = none := hr2
        subst this
        rfl
      | cons d dw =>
        rw [hdw] at hr2
        obtain ⟨hrd, r3, hm3, _⟩ := hr2
        subst hrd
        have hdc : d ∈ cells := by
          have : d ∈ cells.dropWhile (fun x => x.keyValid && decide (x.key ≤ key)) := by
            rw [hdw]; exact List.mem_cons_self _ _
          exact (List.dropWhile_sublist _).subset this
        simp [hm3, Cell.node, hval d hdc, orThrow]

/-- Source `previousKey` on a well-formed structure. -/
theorem previousKey_spec {s : SkipList K V} {ls : List (List (Cell K V))} (hinv : Inv s ls)
    (key : K) :
    ∃ hd cells, ls.getLast? = some (hd :: cells) ∧
      (key ∉ cells.map Cell.key → previousKey s key = .error notFound) ∧
      (key ∈ cells.map Cell.key → previousKey s key =
        orThrow noPredecessor
          (((cells.map Cell.key).takeWhile (fun m => decide (m < key))).getLast?)) := by
  obtain ⟨hd, cells, v1, hB, hres⟩ := searchBottomNode_spec hinv key 0
  obtain ⟨hd2, cells2, r, hB2, hhv, hval, hsorted, hbh, hm, hr, _, hf, hBok, hpw⟩ :=
    hinv.bottom_view
  rw [hB] at hB2
  obtain ⟨rfl, rfl⟩ := List.cons.inj (Option.some.inj hB2)
  refine ⟨hd, cells, hB, ?_, ?_⟩
  · intro hno
    rcases hres with ⟨_, hres⟩ | ⟨b, hb, hbk, _, _⟩
    · simp only [previousKey, hres]
    · exact absurd (List.mem_map.mpr ⟨b, hb, hbk⟩) hno
  · intro hyes
    rcases hres with ⟨hno, _⟩ | ⟨b, hb, hbk, _, hres⟩
    · exact absurd hyes hno
    · have hprev := prevLoop_spec s.mem key cells r (s.next + 1) none hr hf
      obtain ⟨e, rest, hdw, hek, hec⟩ := dropWhile_at_key key cells hval hsorted hyes
      obtain ⟨re, hme⟩ := hBok.stored (List.mem_cons_of_mem _ hec)
      rw [takeWhile_keys key cells hval, getLast?_map]
      simp only [previousKey, hres, hbh, hm, Cell.node, hprev, hdw, List.head?_cons,
        Option.map_some', hme, hek, ne_eq, not_true_eq_false, if_false]
      cases htw : (cells.takeWhile (fun c => c.keyValid && decide (c.key < key))).getLast? with
      | none => rfl
      | some p =>
        have hpc : p ∈ cells :=
          (List.takeWhile_sublist _).subset (List.mem_of_mem_getLast? htw)
        obtain ⟨rp, hmp⟩ := hBok.stored (List.mem_cons_of_mem _ hpc)
        simp [hmp, Cell.node, orThrow]

/-- Source `isSmallestKey` on a well-formed structure. -/
theorem isSmallestKey_spec {s : SkipList K V} {ls : List (List (Cell K V))}
    (hinv : Inv s ls) (key : K) :
    ∃ hd cells, ls.getLast? = some (hd :: cells) ∧
      (key ∉ cells.map Cell.key → isSmallestKey s key = .error notFound) ∧
      (key ∈ cells.map Cell.key →
        isSmallestKey s key = .ok (decide ((cells.map Cell.key).head? = some key))) := by
  obtain ⟨hd, cells, v1, hB, hres⟩ := searchBottomNode_spec hinv key 0
  obtain ⟨hd2, cells2, r, hB2, hhv, hval, hsorted, hbh, hm, hr, _, hf, hBok, hpw⟩ :=
    hinv.bottom_view
  rw [hB] at hB2
  obtain ⟨rfl, rfl⟩ := List.cons.inj (Option.some.inj hB2)
  refine ⟨hd, cells, hB, ?_, ?_⟩
  · intro hno
    rcases hres with ⟨_, hres⟩ | ⟨b, hb, hbk, _, _⟩
    · simp only [isSmallestKey, hres]
    · exact absurd (List.mem_map.mpr ⟨b, hb, hbk⟩) hno
  · intro hyes
    rcases hres with ⟨hno, _⟩ | ⟨b, hb, hbk, _, hres⟩
    · exact absurd hyes hno
    · cases cells with
      | nil => simp at hyes
      | cons f cs =>
        obtain ⟨hrf, r2, hmf, _⟩ := hr
        subst hrf
        simp [isSmallestKey, hres, hbh, hm, Cell.node, hmf, hval f (List.mem_cons_self _ _)]

/-- Source `isLargestKey` on a well-formed structure. -/
theorem isLargestKey_spec {s : SkipList K V} {ls : List (List (Cell K V))}
    (hinv : Inv s ls) (key : K) :
    ∃ hd cells, ls.getLast? = some (hd :: cells) ∧
      (key ∉ cells.map Cell.key → isLargestKey s key = .error notFound) ∧
      (key ∈ cells.map Cell.key →
        isLargestKey s key = .ok (decide ((cells.map Cell.key).getLast? = some key))) := by
  obtain ⟨hd, cells, v1, hB, hres⟩ := searchBottomNode_spec hinv key 0
  obtain ⟨hd2, cells2, r, hB2, hhv, hval, hsorted, hbh, hm, hr, _, hf, hBok, hpw⟩ :=
    hinv.bottom_view
  rw [hB] at hB2
  obtain ⟨rfl, rfl⟩ := List.cons.inj (Option.some.inj hB2)
  refine ⟨hd, cells, hB, ?_, ?_⟩
  · intro hno
    rcases hres with ⟨_, hres⟩ | ⟨b, hb, hbk, _, _⟩
    · simp only [isLargestKey, hres]
    · exact absurd (List.mem_map.mpr ⟨b, hb, hbk⟩) hno
  · intro hyes
    rcases hres with ⟨hno, _⟩ | ⟨b, hb, hbk, _, hres⟩
    · exact absurd hyes hno
    · have hlast := lastLoop_spec s.mem cells r (s.next + 1) none hr hval hf
      rw [getLast?_map]
      simp only [isLargestKey, hres, hbh, hm, Cell.node, hlast]
      cases hgl : cells.getLast? with
      | none =>
        rw [List.getLast?_eq_none_iff] at hgl
        subst hgl
        simp at hyes
      | some l =>
        obtain ⟨rl, hml⟩ := hBok.stored (List.mem_cons_of_mem _ (List.mem_of_mem_getLast? hgl))
        simp [hml, Cell.node]

end Order
end SkipList

/-! ## Reachable structures are well formed -/

namespace SkipList
variable {K V : Type} [LinearOrder K] [Inhabited K] [Inhabited V]

/-- The freshly constructed structure: two layers, a sentinel each. -/
theorem create_inv : Inv (SkipList.create : SkipList K V)
    [[Cell.ofNode 0 { (sentinel : Node K V) with down := some 1 }],
     [Cell.ofNode 1 (sentinel : Node K V)]] := by
  refine ⟨⟨?_, ?_, ?_, ?_, ?_⟩, ⟨_, rfl, rfl⟩, rfl, by simp, ⟨_, rfl, rfl⟩⟩
  · intro M hM
    simp only [List.mem_cons, List.mem_singleton, List.not_mem_nil, or_false] at hM
    rcases hM with rfl | rfl
    · refine LayerOK.of_head rfl rfl ?_ (List.pairwise_singleton _ _)
      exact ⟨rfl, none, by simp [SkipList.create, Mem.write, Cell.node, Cell.ofNode, sentinel], rfl⟩
    · refine LayerOK.of_head rfl rfl ?_ (List.pairwise_singleton _ _)
      exact ⟨rfl, none, by simp [SkipList.create, Mem.write, Cell.node, Cell.ofNode, sentinel], rfl⟩
  · refine List.chain'_cons.mpr ⟨?_, List.chain'_singleton _⟩
    intro c hc
    simp only [List.mem_singleton] at hc
    subst hc
    exact ⟨_, List.mem_singleton.mpr rfl, rfl, rfl, fun h => absurd h (by simp [Cell.ofNode, sentinel])⟩
  · refine ⟨[Cell.ofNode 1 (sentinel : Node K V)], rfl, ?_⟩
    intro c hc
    simp only [List.mem_singleton] at hc
    subst hc
    rfl
  · simp [Cell.ofNode]
  · intro c hc
    simp only [List.flatten_cons, List.flatten_nil, List.singleton_append, List.mem_cons,
      List.mem_singleton, List.not_mem_nil, or_false, List.append_nil] at hc
    rcases hc with rfl | rfl <;> simp [Cell.ofNode, SkipList.create]

/-- Every structure the operations can produce is well formed. -/
theorem reachable_inv {flip : K → Nat → Bool} {s : SkipList K V} (h : Reachable flip s) :
    ∃ ls, Inv s ls := by
  induction h with
  | fresh => exact ⟨_, create_inv⟩
  | insert s key value _ ih =>
    obtain ⟨ls, hinv⟩ := ih
    obtain ⟨B, _, hyes, hno⟩ := insert_spec flip hinv key value
    cases hk : hasKey key B with
    | true => rw [hyes hk]; exact ⟨ls, hinv⟩
    | false =>
      obtain ⟨_, _, _, _, _, _, hinv2, _⟩ := hno hk
      exact ⟨_, hinv2⟩
  | erase s key _ ih =>
    obtain ⟨ls, hinv⟩ := ih
    obtain ⟨B, _, hno, hyes⟩ := erase_spec hinv key
    cases hk : hasKey key B with
    | true => exact ⟨_, (hyes hk).2.1⟩
    | false => rw [hno hk]; exact ⟨ls, hinv⟩

end SkipList

/-! ## Observers in terms of the bottom layer -/

namespace SkipList
variable {K V : Type} [LinearOrder K]

omit [LinearOrder K] in
theorem keysOf_eq_entries (L : List (Cell K V)) : keysOf L = (entriesOf L).map Prod.fst := by
  simp [keysOf, entriesOf, List.map_map, Function.comp_def]

omit [LinearOrder K] in
theorem entriesOf_bottom {hd : Cell K V} {cells : List (Cell K V)} (hhv : hd.keyValid = false)
    (hval : ∀ c ∈ cells, c.keyValid = true) :
    entriesOf (hd :: cells) = cells.map (fun c => (c.key, c.value)) := by
  rw [entriesOf, List.filter_cons, hhv]
  simp only [Bool.false_eq_true, if_false]
  rw [List.filter_eq_self.mpr hval]

/-- What the public observers return on a well-formed structure, in terms of its bottom
layer. -/
theorem Inv.view {s : SkipList K V} {ls : List (List (Cell K V))} (hinv : Inv s ls) :
    ∃ B, ls.getLast? = some B ∧ allKeysInOrder s = .ok (keysOf B) ∧
      bottomEntries s = .ok (entriesOf B) ∧ (keysOf B).Pairwise (· < ·) ∧
      s.size_ = (keysOf B).length ∧ (∀ k, hasKey k B = true ↔ k ∈ keysOf B) ∧
      (∀ k, k ∉ keysOf B → find s k = (.error notFound, s)) ∧
      (∀ k v, (k, v) ∈ entriesOf B → ∃ n, find s k = (.ok (v, n), s)) := by
  obtain ⟨hd, cells, r, hB, hhv, hval, hsorted, _, _, _, hsz, _, _, _⟩ := hinv.bottom_view
  obtain ⟨hd2, cells2, hB2, hkeys, hentries⟩ := allKeysInOrder_spec hinv
  rw [hB] at hB2
  obtain ⟨rfl, rfl⟩ := List.cons.inj (Option.some.inj hB2)
  have hk := keysOf_bottom hhv hval
  have he := entriesOf_bottom hhv hval
  refine ⟨hd :: cells, hB, by rw [hk]; exact hkeys, by rw [he]; exact hentries,
    by rw [hk]; exact hsorted, by rw [hk]; simp [hsz], ?_, ?_, ?_⟩
  · intro k; rw [hk]; exact hasKey_cells_iff k hhv hval
  · intro k hno
    obtain ⟨hd3, cells3, hB3, h1, _⟩ := find_spec hinv k
    rw [hB] at hB3
    obtain ⟨rfl, rfl⟩ := List.cons.inj (Option.some.inj hB3)
    exact h1 (by rw [← hk]; exact hno)
  · intro k v hkv
    obtain ⟨hd3, cells3, hB3, _, h2⟩ := find_spec hinv k
    rw [hB] at hB3
    obtain ⟨rfl, rfl⟩ := List.cons.inj (Option.some.inj hB3)
    rw [he] at hkv
    obtain ⟨b, hb, hbe⟩ := List.mem_map.mp hkv
    simp only [Prod.mk.injEq] at hbe
    obtain ⟨n, hn⟩ := h2 b hb hbe.1
    exact ⟨n, by rw [hn, hbe.2]⟩

theorem contains_iff {s : SkipList K V} {ks : List K} (h : allKeysInOrder s = .ok ks) (k : K) :
    contains s k = true ↔ k ∈ ks := by
  simp [contains, h]

theorem contains_false_iff {s : SkipList K V} {ks : List K} (h : allKeysInOrder s = .ok ks)
    (k : K) : contains s k = false ↔ k ∉ ks := by
  simp [contains, h]

omit [LinearOrder K] in
theorem keysOf_perm {L M : List (Cell K V)} (h : L.Perm M) : (keysOf L).Perm (keysOf M) :=
  (h.filter _).map _

omit [LinearOrder K] in
theorem entriesOf_perm {L M : List (Cell K V)} (h : L.Perm M) :
    (entriesOf L).Perm (entriesOf M) :=
  (h.filter _).map _

section Ins
variable [Inhabited K] [Inhabited V]

/-- A successful `insert` on a well-formed structure: the key and its value join the
bottom layer, everything else in it stays. -/
theorem insert_fresh (flip : K → Nat → Bool) {s : SkipList K V}
    {ls : List (List (Cell K V))} (hinv : Inv s ls) (key : K) (value : V)
    (hno : contains s key = false) :
    ∃ visited ls1 es0 es1,
      (insert flip s key value).1 = .ok (some visited) ∧ Inv (insert flip s key value).2 ls1 ∧
      bottomEntries s = .ok es0 ∧ bottomEntries (insert flip s key value).2 = .ok es1 ∧
      es1.Perm ((key, value) :: es0) ∧
      allKeysInOrder s = .ok (es0.map Prod.fst) ∧
      allKeysInOrder (insert flip s key value).2 = .ok (es1.map Prod.fst) ∧
      (insert flip s key value).2.size_ = s.size_ + 1 ∧
      (insert flip s key value).2.height_ =
        s.height_ + (towerLevelsFor flip s key + 1 - s.height_) := by
  obtain ⟨B, hB, hkeys, hentries, _, _, hhas, _, _⟩ := hinv.view
  obtain ⟨B2, hB2, _, hins⟩ := insert_spec flip hinv key value
  rw [hB] at hB2
  have : B = B2 := Option.some.inj hB2
  subst this
  have hk : hasKey key B = false := by
    cases h : hasKey key B with
    | false => rfl
    | true =>
      have := (contains_iff hkeys key).mpr ((hhas key).mp h)
      rw [hno] at this
      exact Bool.noConfusion this
  obtain ⟨visited, tops, n1, hres, _, _, hinv2, hsz, hht⟩ := hins hk
  obtain ⟨B3, hB3, hkeys3, hentries3, _, _, _, _, _⟩ := hinv2.view
  have hB4 : B3 = insCell key (Cell.ofNode n1 (bottomNodeOf key value)) B := by
    rw [List.getLast?_append_of_ne_nil _ (List.cons_ne_nil _ _)] at hB3
    exact (Option.some.inj hB3).symm
  subst hB4
  refine ⟨visited, _, entriesOf B, _, hres, hinv2, hentries, hentries3, ?_, ?_, ?_, hsz, hht⟩
  · exact entriesOf_perm (insCell_perm key _ B)
  · rw [← keysOf_eq_entries]; exact hkeys
  · rw [← keysOf_eq_entries]; exact hkeys3

end Ins
end SkipList

/-! ## Sorted lists of keys -/

namespace SkipList
variable {K : Type} [LinearOrder K]

theorem sorted_head_iff {l : List K} (hs : l.Pairwise (· < ·)) (k : K) :
    l.head? = some k ↔ k ∈ l ∧ ∀ m ∈ l, k ≤ m := by
  cases l with
  | nil => simp
  | cons a t =>
    rw [List.pairwise_cons] at hs
    constructor
    · intro h
      simp only [List.head?_cons, Option.some.injEq] at h
      subst h
      refine ⟨List.mem_cons_self _ _, ?_⟩
      intro m hm
      rcases List.mem_cons.mp hm with rfl | hm
      · exact le_refl _
      · exact le_of_lt (hs.1 m hm)
    · rintro ⟨hk, hmin⟩
      simp only [List.head?_cons, Option.some.injEq]
      rcases List.mem_cons.mp hk with rfl | hk
      · rfl
      · exact le_antisymm (le_of_lt (hs.1 k hk)) (hmin a (List.mem_cons_self _ _))

theorem sorted_le_last {l : List K} (hs : l.Pairwise (· < ·)) {p : K}
    (hp : l.getLast? = some p) : ∀ m ∈ l, m ≤ p := by
  induction l with
  | nil => simp
  | cons a t ih =>
    rw [List.pairwise_cons] at hs
    intro m hm
    cases t with
    | nil =>
      simp only [List.getLast?_singleton, Option.some.injEq] at hp
      simp only [List.mem_singleton] at hm
      rw [hm, hp]
    | cons b t2 =>
      rw [List.getLast?_cons_cons] at hp
      rcases List.mem_cons.mp hm with rfl | hm
      · exact le_of_lt (hs.1 p (List.mem_of_mem_getLast? hp))
      · exact ih hs.2 hp m hm

theorem sorted_last_iff {l : List K} (hs : l.Pairwise (· < ·)) (k : K) :
    l.getLast? = some k ↔ k ∈ l ∧ ∀ m ∈ l, m ≤ k := by
  constructor
  · intro h
    exact ⟨List.mem_of_mem_getLast? h, sorted_le_last hs h⟩
  · rintro ⟨hk, hmax⟩
    cases hl : l.getLast? with
    | none =>
      rw [List.getLast?_eq_none_iff] at hl
      subst hl
      simp at hk
    | some p =>
      have h1 := sorted_le_last hs hl k hk
      have h2 := hmax p (List.mem_of_mem_getLast? hl)
      rw [le_antisymm h1 h2]

theorem sorted_find_gt {l : List K} (hs : l.Pairwise (· < ·)) {k n : K}
    (h : l.find? (fun m => decide (k < m)) = some n) :
    n ∈ l ∧ k < n ∧ ∀ m ∈ l, k < m → n ≤ m := by
  induction l with
  | nil => simp at h
  | cons a t ih =>
    rw [List.pairwise_cons] at hs
    by_cases hka : k < a
    · simp only [List.find?_cons, hka, decide_True, Option.some.injEq] at h
      subst h
      refine ⟨List.mem_cons_self _ _, hka, ?_⟩
      intro m hm _
      rcases List.mem_cons.mp hm with rfl | hm
      · exact le_refl _
      · exact le_of_lt (hs.1 m hm)
    · simp only [List.find?_cons, hka, decide_False] at h
      obtain ⟨h1, h2, h3⟩ := ih hs.2 h
      refine ⟨List.mem_cons_of_mem _ h1, h2, ?_⟩
      intro m hm hkm
      rcases List.mem_cons.mp hm with rfl | hm
      · exact absurd hkm hka
      · exact h3 m hm hkm

theorem find_gt_none {l : List K} {k : K} :
    l.find? (fun m => decide (k < m)) = none ↔ ∀ m ∈ l, m ≤ k := by
  rw [List.find?_eq_none]
  simp

theorem sorted_mem_takeWhile {l : List K} (hs : l.Pairwise (· < ·)) {k m : K} (hm : m ∈ l)
    (hmk : m < k) : m ∈ l.takeWhile (fun x => decide (x < k)) := by
  induction l with
  | nil => simp at hm
  | cons a t ih =>
    rw [List.pairwise_cons] at hs
    have hak : a < k := by
      rcases List.mem_cons.mp hm with rfl | hm
      · exact hmk
      · exact lt_trans (hs.1 m hm) hmk
    rw [List.takeWhile_cons, if_pos (by simpa using hak)]
    rcases List.mem_cons.mp hm with rfl | hm
    · exact List.mem_cons_self _ _
    · exact List.mem_cons_of_mem _ (ih hs.2 hm)

theorem sorted_takeWhile_last {l : List K} (hs : l.Pairwise (· < ·)) {k p : K}
    (h : (l.takeWhile (fun x => decide (x < k))).getLast? = some p) :
    p ∈ l ∧ p < k ∧ ∀ m ∈ l, m < k → m ≤ p := by
  have hp := List.mem_of_mem_getLast? h
  have hs2 : (l.takeWhile (fun x => decide (x < k))).Pairwise (· < ·) :=
    hs.sublist (List.takeWhile_sublist _)
  refine ⟨(List.takeWhile_sublist _).subset hp, by simpa using List.mem_takeWhile_imp hp, ?_⟩
  intro m hm hmk
  exact sorted_le_last hs2 h m (sorted_mem_takeWhile hs hm hmk)

theorem sorted_takeWhile_none {l : List K} (hs : l.Pairwise (· < ·)) {k : K} :
    (l.takeWhile (fun x => decide (x < k))).getLast? = none ↔ ∀ m ∈ l, k ≤ m := by
  rw [List.getLast?_eq_none_iff]
  constructor
  · intro h m hm
    by_contra hcon
    have := sorted_mem_takeWhile hs hm (not_le.mp hcon)
    rw [h] at this
    simp at this
  · intro h
    cases l with
    | nil => rfl
    | cons a t =>
      rw [List.takeWhile_cons, if_neg]
      simpa using h a (List.mem_cons_self _ _)

end SkipList

/-! ## Runs of inserts -/

namespace SkipList
variable {K V : Type} [LinearOrder K] [Inhabited K] [Inhabited V]

theorem reachable_insertAll (flip : K → Nat → Bool) (kvs : List (K × V)) :
    ∀ s : SkipList K V, Reachable flip s → Reachable flip (insertAll flip s kvs).2 := by
  induction kvs with
  | nil => intro s h; exact h
  | cons kv rest ih =>
    intro s h
    obtain ⟨k, v⟩ := kv
    exact ih _ (Reachable.insert s k v h)

theorem ok_injective {α : Type} {a b : α} (h : (Except.ok a : Except Exn α) = .ok b) : a = b := by
  injection h

/-- A run of inserts of fresh, pairwise distinct keys on a well-formed structure. -/
theorem insertAll_spec (flip : K → Nat → Bool) (kvs : List (K × V)) :
    ∀ (s : SkipList K V) (ls : List (List (Cell K V))) (ks0 : List K), Inv s ls →
      allKeysInOrder s = .ok ks0 → (kvs.map Prod.fst).Nodup →
      (∀ k ∈ kvs.map Prod.fst, k ∉ ks0) →
      (∀ r ∈ (insertAll flip s kvs).1, ∃ visited, r = .ok (some visited)) ∧
      (insertAll flip s kvs).1.length = kvs.length ∧
      ∃ ls1 ks1, Inv (insertAll flip s kvs).2 ls1 ∧
        allKeysInOrder (insertAll flip s kvs).2 = .ok ks1 ∧
        ks1.Perm (kvs.map Prod.fst ++ ks0) ∧
        (insertAll flip s kvs).2.size_ = s.size_ + kvs.length := by
  induction kvs with
  | nil =>
    intro s ls ks0 hinv hks _ _
    exact ⟨by simp [insertAll], rfl, ls, ks0, hinv, hks, by simp, rfl⟩
  | cons kv rest ih =>
    intro s ls ks0 hinv hks hnd hdisj
    obtain ⟨k, v⟩ := kv
    simp only [List.map_cons, List.nodup_cons] at hnd
    have hk0 : k ∉ ks0 := hdisj k (by simp)
    obtain ⟨visited, ls1, es0, es1, hres, hinv1, _, _, hperm, hkeys0, hkeys1, hsz, _⟩ :=
      insert_fresh flip hinv k v ((contains_false_iff hks k).mpr hk0)
    have hks0 : ks0 = es0.map Prod.fst := ok_injective (hks.symm.trans hkeys0)
    have hperm1 : (es1.map Prod.fst).Perm (k :: ks0) := by
      rw [hks0]; exact hperm.map Prod.fst
    obtain ⟨h1, h2, ls2, ks2, hinv2, hkeys2, hperm2, hsz2⟩ :=
      ih (insert flip s k v).2 ls1 (es1.map Prod.fst) hinv1 hkeys1 hnd.2 (by
        intro k2 hk2 hmem
        rcases List.mem_cons.mp (hperm1.subset hmem) with h | h
        · rw [h] at hk2; exact hnd.1 hk2
        · exact hdisj k2 (by simp [List.mem_map] at hk2 ⊢; exact Or.inr hk2) h)
    refine ⟨?_, ?_, ls2, ks2, hinv2, hkeys2, ?_, ?_⟩
    · intro r hr
      simp only [insertAll, List.mem_cons] at hr
      rcases hr with rfl | hr
      · exact ⟨visited, hres⟩
      · exact h1 r hr
    · simp only [insertAll, List.length_cons, h2]
    · refine hperm2.trans ?_
      refine (List.Perm.append_left _ hperm1).trans ?_
      simp
    · simp only [insertAll, hsz2, hsz, List.length_cons]
      omega

/-- C1: for every finite sequence of pairwise distinct keys inserted (with arbitrary
values) into a freshly constructed structure, every insert succeeds, `allKeysInOrder`
afterwards returns exactly those keys in strictly ascending order, and `size` is the
number of keys inserted. -/
theorem C1_distinct_inserts_round_trip (flip : K → Nat → Bool) (kvs : List (K × V))
    (hnd : (kvs.map Prod.fst).Nodup) :
    (∀ r ∈ (insertAll flip (SkipList.create : SkipList K V) kvs).1,
        ∃ visited, r = .ok (some visited)) ∧
      (insertAll flip (SkipList.create : SkipList K V) kvs).1.length = kvs.length ∧
      (∃ ks, allKeysInOrder (insertAll flip (SkipList.create : SkipList K V) kvs).2 = .ok ks ∧
        ks.Sorted (· < ·) ∧ ks.Perm (kvs.map Prod.fst)) ∧
      size (insertAll flip (SkipList.create : SkipList K V) kvs).2 = kvs.length := by
  obtain ⟨h1, h2, ls1, ks1, hinv1, hkeys1, hperm, hsz⟩ :=
    insertAll_spec flip kvs (SkipList.create : SkipList K V) _ [] create_inv rfl hnd (by simp)
  obtain ⟨B, _, hkeysB, _, hsorted, _⟩ := hinv1.view
  have hks : ks1 = keysOf B := ok_injective (hkeys1.symm.trans hkeysB)
  refine ⟨h1, h2, ⟨ks1, hkeys1, ?_, by simpa using hperm⟩, ?_⟩
  · rw [hks]; exact hsorted
  · rw [size, hsz]
    simp [SkipList.create]

/-- C1 on the scenario of the specification: inserting 10, 20, 5, 15 gives the keys
5, 10, 15, 20 and size 4. -/
theorem C1_distinct_inserts_round_trip_witness :
    (scenarioPairs.map Prod.fst).Nodup ∧
      allKeysInOrder (insertAll flipCoin (SkipList.create : SkipList Nat Nat) scenarioPairs).2 =
        .ok [5, 10, 15, 20] ∧
      size (insertAll flipCoin (SkipList.create : SkipList Nat Nat) scenarioPairs).2 = 4 :=
  ⟨by decide, by decide,
    (C1_distinct_inserts_round_trip flipCoin scenarioPairs (by decide)).2.2.2⟩

end SkipList

/-! ## Lookups and updates on reachable structures -/

namespace SkipList
variable {K V : Type} [LinearOrder K]

/-- The key queries on a well-formed structure, in terms of the keys `allKeysInOrder`
returns. -/
theorem Inv.order_view {s : SkipList K V} {ls : List (List (Cell K V))} (hinv : Inv s ls)
    (k : K) :
    ∃ ks, allKeysInOrder s = .ok ks ∧ ks.Pairwise (· < ·) ∧
      (k ∉ ks → nextKey s k = .error notFound ∧ previousKey s k = .error notFound ∧
        isSmallestKey s k = .error notFound ∧ isLargestKey s k = .error notFound ∧
        SkipList.height s k = .error notFound) ∧
      (k ∈ ks →
        nextKey s k = orThrow noSuccessor (ks.find? (fun m => decide (k < m))) ∧
        previousKey s k =
          orThrow noPredecessor ((ks.takeWhile (fun m => decide (m < k))).getLast?) ∧
        isSmallestKey s k = .ok (decide (ks.head? = some k)) ∧
        isLargestKey s k = .ok (decide (ks.getLast? = some k)) ∧
        SkipList.height s k = .ok 1) := by
  obtain ⟨hd, cells, r, hB, hhv, hval, hsorted, _, _, _, _, _, _, _⟩ := hinv.bottom_view
  obtain ⟨hd1, cells1, hB1, hkeys, _⟩ := allKeysInOrder_spec hinv
  obtain ⟨hd2, cells2, hB2, hn1, hn2⟩ := nextKey_spec hinv k
  obtain ⟨hd3, cells3, hB3, hp1, hp2⟩ := previousKey_spec hinv k
  obtain ⟨hd4, cells4, hB4, hs1, hs2⟩ := isSmallestKey_spec hinv k
  obtain ⟨hd5, cells5, hB5, hl1, hl2⟩ := isLargestKey_spec hinv k
  obtain ⟨hd6, cells6, hB6, hh1, hh2⟩ := height_spec hinv k
  rw [hB] at hB1 hB2 hB3 hB4 hB5 hB6
  obtain ⟨rfl, rfl⟩ := List.cons.inj (Option.some.inj hB1)
  obtain ⟨rfl, rfl⟩ := List.cons.inj (Option.some.inj hB2)
  obtain ⟨rfl, rfl⟩ := List.cons.inj (Option.some.inj hB3)
  obtain ⟨rfl, rfl⟩ := List.cons.inj (Option.some.inj hB4)
  obtain ⟨rfl, rfl⟩ := List.cons.inj (Option.some.inj hB5)
  obtain ⟨rfl, rfl⟩ := List.cons.inj (Option.some.inj hB6)
  exact ⟨cells.map Cell.key, hkeys, hsorted,
    fun h => ⟨hn1 h, hp1 h, hs1 h, hl1 h, hh1 h⟩,
    fun h => ⟨hn2 h, hp2 h, hs2 h, hl2 h, hh2 h⟩⟩

theorem orThrow_ok_iff {α : Type} {e : Exn} {o : Option α} {a : α} :
    orThrow e o = .ok a ↔ o = some a := by
  cases o <;> simp [orThrow]

theorem orThrow_error_iff {α : Type} {e : Exn} {o : Option α} :
    orThrow e o = .error e ↔ o = none := by
  cases o <;> simp [orThrow]

theorem orThrow_cases {α : Type} (e : Exn) (o : Option α) :
    (∃ a, orThrow e o = .ok a) ∨ orThrow e o = .error e := by
  cases o with
  | none => exact Or.inr rfl
  | some a => exact Or.inl ⟨a, rfl⟩

theorem layerLimit_pos (n : Nat) : 1 ≤ layerLimit n := by
  unfold layerLimit
  split <;> omega

theorem find_state (s : SkipList K V) (k : K) : (find s k).2 = s := by
  unfold find
  split
  · rfl
  · rfl
  · split <;> rfl

section Claims
variable [Inhabited K] [Inhabited V]

theorem scenario_reachable : Reachable flipCoin scenario :=
  reachable_insertAll flipCoin scenarioPairs _ Reachable.fresh

theorem oneThreeFive_reachable : Reachable flipCoin oneThreeFive :=
  reachable_insertAll flipCoin _ _ Reachable.fresh

/-- C2: in a reachable structure, if `insert(k, v)` succeeds then `find(k)` afterwards
returns exactly `v`, and for every other key that was present before, `find` still
succeeds and returns the value it returned before the insert. -/
theorem C2_find_after_insert (flip : K → Nat → Bool) (s : SkipList K V)
    (hr : Reachable flip s) (k : K) (v : V) (visited : Nat)
    (hok : (insert flip s k v).1 = .ok (some visited)) :
    (∃ n, (find (insert flip s k v).2 k).1 = .ok (v, n)) ∧
      ∀ k1, k1 ≠ k → contains s k1 = true →
        ∃ w n n1, (find s k1).1 = .ok (w, n) ∧
          (find (insert flip s k v).2 k1).1 = .ok (w, n1) := by
  obtain ⟨ls, hinv⟩ := reachable_inv hr
  obtain ⟨B, hB, hkeys, hentries, _, _, hhas, _, hfind⟩ := hinv.view
  have hno : contains s k = false := by
    cases hc : contains s k with
    | false => rfl
    | true =>
      obtain ⟨B2, hB2, hyes, _⟩ := insert_spec flip hinv k v
      rw [hB] at hB2
      have : B = B2 := Option.some.inj hB2
      subst this
      rw [hyes ((hhas k).mpr ((contains_iff hkeys k).mp hc))] at hok
      simp at hok
  obtain ⟨visited1, ls1, es0, es1, _, hinv1, he0, he1, hperm, _, _, _, _⟩ :=
    insert_fresh flip hinv k v hno
  obtain ⟨B1, _, _, hentries1, _, _, _, _, hfind1⟩ := hinv1.view
  have hes0 : es0 = entriesOf B := ok_injective (he0.symm.trans hentries)
  have hes1 : es1 = entriesOf B1 := ok_injective (he1.symm.trans hentries1)
  subst hes0 hes1
  constructor
  · obtain ⟨n, hn⟩ := hfind1 k v (hperm.symm.subset (List.mem_cons_self _ _))
    exact ⟨n, by rw [hn]⟩
  · intro k1 _ hc
    have hk1 : k1 ∈ keysOf B := (contains_iff hkeys k1).mp hc
    rw [keysOf_eq_entries] at hk1
    obtain ⟨⟨k2, w⟩, hmem, hk2⟩ := List.mem_map.mp hk1
    simp only at hk2
    subst hk2
    obtain ⟨n, hn⟩ := hfind k2 w hmem
    obtain ⟨n1, hn1⟩ := hfind1 k2 w (hperm.symm.subset (List.mem_cons_of_mem _ hmem))
    exact ⟨w, n, n1, by rw [hn], by rw [hn1]⟩

/-- C2 on the scenario structure: `insert(7, 70)` succeeds (7 nodes visited). -/
theorem C2_find_after_insert_witness :
    (insert flipCoin scenario 7 70).1 = .ok (some 7) ∧
      ∃ n, (find (insert flipCoin scenario 7 70).2 7).1 = .ok (70, n) :=
  ⟨by decide, (C2_find_after_insert flipCoin scenario scenario_reachable 7 70 7 (by decide)).1⟩

/-- C3: in a reachable structure, `insert(k, v)` for a key that is already present returns
the absent result and leaves the structure as it was: `size`, `layers`, `allKeysInOrder`
and what `find` returns for every key (value and visited count) are unchanged. -/
theorem C3_insert_existing_key (flip : K → Nat → Bool) (s : SkipList K V)
    (hr : Reachable flip s) (k : K) (v : V) (hk : contains s k = true) :
    (insert flip s k v).1 = .ok none ∧ (insert flip s k v).2 = s ∧
      size (insert flip s k v).2 = size s ∧ layers (insert flip s k v).2 = layers s ∧
      allKeysInOrder (insert flip s k v).2 = allKeysInOrder s ∧
      ∀ k1, (find (insert flip s k v).2 k1).1 = (find s k1).1 := by
  obtain ⟨ls, hinv⟩ := reachable_inv hr
  obtain ⟨B, hB, hkeys, _, _, _, hhas, _, _⟩ := hinv.view
  obtain ⟨B2, hB2, hyes, _⟩ := insert_spec flip hinv k v
  rw [hB] at hB2
  have : B = B2 := Option.some.inj hB2
  subst this
  rw [hyes ((hhas k).mpr ((contains_iff hkeys k).mp hk))]
  exact ⟨rfl, rfl, rfl, rfl, rfl, fun _ => rfl⟩

/-- C3 on the scenario structure: inserting key 10 again. -/
theorem C3_insert_existing_key_witness :
    contains scenario 10 = true ∧ (insert flipCoin scenario 10 7).1 = .ok none ∧
      (insert flipCoin scenario 10 7).2 = scenario :=
  ⟨by decide, (C3_insert_existing_key flipCoin scenario scenario_reachable 10 7 (by decide)).1,
    (C3_insert_existing_key flipCoin scenario scenario_reachable 10 7 (by decide)).2.1⟩

/-- C4: in a reachable structure, `erase(k)` for a present key succeeds, `find(k)`
afterwards reports `NotFound`, and `size` is one less than before. -/
theorem C4_erase_present_key (flip : K → Nat → Bool) (s : SkipList K V)
    (hr : Reachable flip s) (k : K) (hk : contains s k = true) :
    (erase s k).1 = .ok () ∧ (find (erase s k).2 k).1 = .error notFound ∧
      size (erase s k).2 + 1 = size s := by
  obtain ⟨ls, hinv⟩ := reachable_inv hr
  obtain ⟨B, hB, hkeys, _, _, _, hhas, _, _⟩ := hinv.view
  obtain ⟨B2, hB2, _, hyes⟩ := erase_spec hinv k
  rw [hB] at hB2
  have : B = B2 := Option.some.inj hB2
  subst this
  obtain ⟨hres, hinv1, hsz, _⟩ := hyes ((hhas k).mpr ((contains_iff hkeys k).mp hk))
  obtain ⟨B1, hB1, _, _, _, _, hhas1, hnf, _⟩ := hinv1.view
  rw [getLast?_map, hB] at hB1
  have hB1e : delKey k B = B1 := Option.some.inj hB1
  subst hB1e
  refine ⟨hres, ?_, hsz⟩
  rw [hnf k]
  intro hmem
  have := (hhas1 k).mpr hmem
  rw [hasKey_delKey] at this
  exact Bool.noConfusion this

/-- C4 on the scenario structure: erasing key 10. -/
theorem C4_erase_present_key_witness :
    contains scenario 10 = true ∧ (erase scenario 10).1 = .ok () ∧
      (find (erase scenario 10).2 10).1 = .error notFound ∧
      size (erase scenario 10).2 + 1 = size scenario :=
  ⟨by decide, C4_erase_present_key flipCoin scenario scenario_reachable 10 (by decide)⟩

/-- C5: in a reachable structure, `find(k)` reports `NotFound` exactly when `k` is not
among the keys `allKeysInOrder` returns; for a present key it returns the value stored in
the layer-0 node of `k`; and in both cases the structure after the call is the structure
before it. -/
theorem C5_find_present_or_not_found (flip : K → Nat → Bool) (s : SkipList K V)
    (hr : Reachable flip s) (k : K) :
    ∃ ks es, allKeysInOrder s = .ok ks ∧ bottomEntries s = .ok es ∧
      ks = es.map Prod.fst ∧
      ((find s k).1 = .error notFound ↔ k ∉ ks) ∧
      (k ∈ ks → ∃ v n, (k, v) ∈ es ∧ (find s k).1 = .ok (v, n)) ∧
      (find s k).2 = s := by
  obtain ⟨ls, hinv⟩ := reachable_inv hr
  obtain ⟨B, hB, hkeys, hentries, _, _, _, hnf, hfind⟩ := hinv.view
  have hyes : k ∈ keysOf B → ∃ v n, (k, v) ∈ entriesOf B ∧ (find s k).1 = .ok (v, n) := by
    intro hmem
    rw [keysOf_eq_entries] at hmem
    obtain ⟨⟨k2, w⟩, hmem2, hk2⟩ := List.mem_map.mp hmem
    simp only at hk2
    subst hk2
    obtain ⟨n, hn⟩ := hfind k2 w hmem2
    exact ⟨w, n, hmem2, by rw [hn]⟩
  refine ⟨keysOf B, entriesOf B, hkeys, hentries, keysOf_eq_entries B, ?_, hyes, find_state s k⟩
  constructor
  · intro herr hmem
    obtain ⟨v, n, _, hok⟩ := hyes hmem
    rw [hok] at herr
    exact Except.noConfusion herr
  · intro hno
    rw [hnf k hno]

/-- C5 on the scenario structure: `find(15)` returns the stored value 150, `find(7)`
reports `NotFound`. -/
theorem C5_find_present_or_not_found_witness :
    (find scenario 15).1 = .ok (150, 2) ∧ (find scenario 7).1 = .error notFound ∧
      (find scenario 15).2 = scenario :=
  ⟨by decide, by decide,
    (C5_find_present_or_not_found flipCoin scenario scenario_reachable 15).elim
      (fun _ h => h.elim (fun _ h2 => h2.2.2.2.2.2))⟩

end Claims
end SkipList

/-! ## Height, order queries and failed erase on reachable structures -/

namespace SkipList
variable {K V : Type} [LinearOrder K] [Inhabited K] [Inhabited V]

/-- Source `height` on a reachable structure returns 1 for every present key: after the
first match the walk continues from the matched node's `down`, so no lower layer matches
again. -/
theorem height_present (flip : K → Nat → Bool) (s : SkipList K V) (hr : Reachable flip s)
    (k : K) (hk : contains s k = true) : height s k = .ok 1 := by
  obtain ⟨ls, hinv⟩ := reachable_inv hr
  obtain ⟨ks, hkeys, _, _, hyes⟩ := hinv.order_view k
  exact (hyes ((contains_iff hkeys k).mp hk)).2.2.2.2

/-- C6 (the code departs from it): after `insert(1, 0)` into a fresh structure the coin
flips give key 1 a tower of two nodes, two layers contain key 1, and `height(1)` is 1. -/
theorem C6_height_misses_lower_layers :
    towerLevelsFor flipCoin (SkipList.create : SkipList Nat Nat) 1 = 2 ∧
      towerOf afterOne 1 = .ok 2 ∧ height afterOne 1 = .ok 1 := by
  decide

/-- C7: in a reachable structure with `n = size()`, `height(k)` of every present key is at
most `layerLimit(n)`. -/
theorem C7_height_at_most_layer_limit (flip : K → Nat → Bool) (s : SkipList K V)
    (hr : Reachable flip s) (k : K) (hk : contains s k = true) :
    ∃ h, height s k = .ok h ∧ h ≤ layerLimit (size s) :=
  ⟨1, height_present flip s hr k hk, layerLimit_pos _⟩

/-- C7 on the scenario structure, key 10. -/
theorem C7_height_at_most_layer_limit_witness :
    contains scenario 10 = true ∧ ∃ h, height scenario 10 = .ok h ∧ h ≤ layerLimit (size scenario) :=
  ⟨by decide, C7_height_at_most_layer_limit flipCoin scenario scenario_reachable 10 (by decide)⟩

/-- C8: in a reachable structure, `nextKey(k)` and `previousKey(k)` signal `NotFound` for
an absent key; for a present key `nextKey(k)` returns the least present key greater than
`k`, or signals `NoSuccessor` exactly when no present key is greater, and `previousKey(k)`
returns the greatest present key less than `k`, or signals `NoPredecessor` exactly when no
present key is less. -/
theorem C8_next_and_previous_key (flip : K → Nat → Bool) (s : SkipList K V)
    (hr : Reachable flip s) (k : K) :
    ∃ ks, allKeysInOrder s = .ok ks ∧
      (k ∉ ks → nextKey s k = .error notFound ∧ previousKey s k = .error notFound) ∧
      (k ∈ ks →
        (∀ n, nextKey s k = .ok n ↔ (n ∈ ks ∧ k < n ∧ ∀ m ∈ ks, k < m → n ≤ m)) ∧
        (nextKey s k = .error noSuccessor ↔ ∀ m ∈ ks, m ≤ k) ∧
        ((∃ n, nextKey s k = .ok n) ∨ nextKey s k = .error noSuccessor) ∧
        (∀ p, previousKey s k = .ok p ↔ (p ∈ ks ∧ p < k ∧ ∀ m ∈ ks, m < k → m ≤ p)) ∧
        (previousKey s k = .error noPredecessor ↔ ∀ m ∈ ks, k ≤ m) ∧
        ((∃ p, previousKey s k = .ok p) ∨ previousKey s k = .error noPredecessor)) := by
  obtain ⟨ls, hinv⟩ := reachable_inv hr
  obtain ⟨ks, hkeys, hsorted, hno, hyes⟩ := hinv.order_view k
  refine ⟨ks, hkeys, fun h => ⟨(hno h).1, (hno h).2.1⟩, ?_⟩
  intro hk
  obtain ⟨hnext, hprev, _, _, _⟩ := hyes hk
  rw [hnext, hprev]
  refine ⟨?_, ?_, orThrow_cases _ _, ?_, ?_, orThrow_cases _ _⟩
  · intro n
    rw [orThrow_ok_iff]
    constructor
    · exact sorted_find_gt hsorted
    · rintro ⟨hn, hkn, hleast⟩
      cases hf : ks.find? (fun m => decide (k < m)) with
      | none =>
        have := find_gt_none.mp hf n hn
        exact absurd hkn (not_lt.mpr this)
      | some n1 =>
        obtain ⟨h1, h2, h3⟩ := sorted_find_gt hsorted hf
        rw [le_antisymm (h3 n hn hkn) (hleast n1 h1 h2)]
  · rw [orThrow_error_iff]
    exact find_gt_none
  · intro p
    rw [orThrow_ok_iff]
    constructor
    · exact sorted_takeWhile_last hsorted
    · rintro ⟨hp, hpk, hgreatest⟩
      cases hf : (ks.takeWhile (fun m => decide (m < k))).getLast? with
      | none =>
        have := (sorted_takeWhile_none hsorted).mp hf p hp
        exact absurd hpk (not_lt.mpr this)
      | some p1 =>
        obtain ⟨h1, h2, h3⟩ := sorted_takeWhile_last hsorted hf
        rw [le_antisymm (hgreatest p1 h1 h2) (h3 p hp hpk)]
  · rw [orThrow_error_iff]
    exact sorted_takeWhile_none hsorted

/-- C8 on the structure with the keys 1, 3, 5: `nextKey(1) = 3`, `previousKey(5) = 3`,
`previousKey(1)` is `NoPredecessor`, `nextKey(5)` is `NoSuccessor`. -/
theorem C8_next_and_previous_key_witness :
    allKeysInOrder oneThreeFive = .ok [1, 3, 5] ∧
      nextKey oneThreeFive 1 = .ok 3 ∧ previousKey oneThreeFive 5 = .ok 3 ∧
      previousKey oneThreeFive 1 = .error noPredecessor ∧
      nextKey oneThreeFive 5 = .error noSuccessor ∧
      ∃ ks, allKeysInOrder oneThreeFive = .ok ks ∧
        (2 ∉ ks → nextKey oneThreeFive 2 = .error notFound ∧
          previousKey oneThreeFive 2 = .error notFound) :=
  ⟨by decide, by decide, by decide, by decide, by decide,
    (C8_next_and_previous_key flipCoin oneThreeFive oneThreeFive_reachable 2).imp
      (fun _ h => ⟨h.1, h.2.1⟩)⟩

/-- C9: in a reachable structure, `isSmallestKey(k)` and `isLargestKey(k)` signal
`NotFound` for an absent key; for a present key `isSmallestKey(k)` tells whether `k` is the
first element of `allKeysInOrder()`, which is the minimum of the present keys, and
`isLargestKey(k)` whether `k` is the last element, which is the maximum. -/
theorem C9_smallest_and_largest_key (flip : K → Nat → Bool) (s : SkipList K V)
    (hr : Reachable flip s) (k : K) :
    ∃ ks, allKeysInOrder s = .ok ks ∧
      (k ∉ ks → isSmallestKey s k = .error notFound ∧ isLargestKey s k = .error notFound) ∧
      (k ∈ ks →
        isSmallestKey s k = .ok (decide (ks.head? = some k)) ∧
        isLargestKey s k = .ok (decide (ks.getLast? = some k)) ∧
        (ks.head? = some k ↔ ∀ m ∈ ks, k ≤ m) ∧
        (ks.getLast? = some k ↔ ∀ m ∈ ks, m ≤ k)) := by
  obtain ⟨ls, hinv⟩ := reachable_inv hr
  obtain ⟨ks, hkeys, hsorted, hno, hyes⟩ := hinv.order_view k
  refine ⟨ks, hkeys, fun h => ⟨(hno h).2.2.1, (hno h).2.2.2.1⟩, ?_⟩
  intro hk
  obtain ⟨_, _, hsm, hlg, _⟩ := hyes hk
  refine ⟨hsm, hlg, ?_, ?_⟩
  · rw [sorted_head_iff hsorted]
    exact ⟨fun h => h.2, fun h => ⟨hk, h⟩⟩
  · rw [sorted_last_iff hsorted]
    exact ⟨fun h => h.2, fun h => ⟨hk, h⟩⟩

/-- C9 on the structure with the keys 1, 3, 5. -/
theorem C9_smallest_and_largest_key_witness :
    isSmallestKey oneThreeFive 1 = .ok true ∧ isLargestKey oneThreeFive 5 = .ok true ∧
      isSmallestKey oneThreeFive 3 = .ok false ∧
      ∃ ks, allKeysInOrder oneThreeFive = .ok ks ∧
        (3 ∉ ks → isSmallestKey oneThreeFive 3 = .error notFound ∧
          isLargestKey oneThreeFive 3 = .error notFound) :=
  ⟨by decide, by decide, by decide,
    (C9_smallest_and_largest_key flipCoin oneThreeFive oneThreeFive_reachable 3).imp
      (fun _ h => ⟨h.1, h.2.1⟩)⟩

/-- C10: in a reachable structure, `erase(k)` for an absent key signals `NotFound` and
leaves the structure as it was: the free store with every chain and every stored value,
`size`, `layers` and `allKeysInOrder` are unchanged. -/
theorem C10_erase_absent_key (flip : K → Nat → Bool) (s : SkipList K V)
    (hr : Reachable flip s) (k : K) (hk : contains s k = false) :
    (erase s k).1 = .error notFound ∧ (erase s k).2 = s ∧
      size (erase s k).2 = size s ∧ layers (erase s k).2 = layers s ∧
      allKeysInOrder (erase s k).2 = allKeysInOrder s ∧
      bottomEntries (erase s k).2 = bottomEntries s ∧
      ∀ k1, towerOf (erase s k).2 k1 = towerOf s k1 := by
  obtain ⟨ls, hinv⟩ := reachable_inv hr
  obtain ⟨B, hB, hkeys, _, _, _, hhas, _, _⟩ := hinv.view
  obtain ⟨B2, hB2, hno, _⟩ := erase_spec hinv k
  rw [hB] at hB2
  have : B = B2 := Option.some.inj hB2
  subst this
  have hkB : hasKey k B = false := by
    cases h : hasKey k B with
    | false => rfl
    | true =>
      have := (contains_iff hkeys k).mpr ((hhas k).mp h)
      rw [hk] at this
      exact Bool.noConfusion this
  rw [hno hkB]
  exact ⟨rfl, rfl, rfl, rfl, rfl, rfl, fun _ => rfl⟩

/-- C10 on the scenario structure: erasing the absent key 11. -/
theorem C10_erase_absent_key_witness :
    contains scenario 11 = false ∧ (erase scenario 11).1 = .error notFound ∧
      (erase scenario 11).2 = scenario :=
  ⟨by decide, (C10_erase_absent_key flipCoin scenario scenario_reachable 11 (by decide)).1,
    (C10_erase_absent_key flipCoin scenario scenario_reachable 11 (by decide)).2.1⟩

end SkipList

/-! ## The coin flip -/

namespace SkipList

theorem byteSelector_eq (x : Nat) (b : IntegerByteOffsets) :
    flipCoinByteSelector x b = ((x % 2 ^ 32) >>> b.toNat) &&& 0xFF := by
  have hb : b.toNat + 8 ≤ 32 := by cases b <;> simp [IntegerByteOffsets.toNat]
  apply Nat.eq_of_testBit_eq
  intro i
  have h255 : (0xFF : Nat) = 2 ^ 8 - 1 := by norm_num
  have h256 : (256 : Nat) = 2 ^ 8 := by norm_num
  rw [flipCoinByteSelector, h256, h255]
  simp only [Nat.testBit_mod_two_pow, Nat.testBit_shiftRight, Nat.testBit_and,
    Nat.testBit_shiftLeft, Nat.testBit_two_pow_sub_one]
  by_cases hi : i < 8
  · have h1 : b.toNat + i < 32 := by omega
    have h2 : b.toNat + i - b.toNat < 8 := by omega
    have h3 : b.toNat + i ≥ b.toNat := by omega
    simp [hi, h1, h2, h3]
  · simp [hi]

theorem select_bit (hash j : Nat) (hj : j < 8) :
    ((hash &&& ((1 <<< j) % 256)) != 0) = hash.testBit j := by
  have h1 : (1 <<< j) % 256 = 2 ^ j := by
    rw [Nat.one_shiftLeft]
    apply Nat.mod_eq_of_lt
    calc 2 ^ j < 2 ^ 8 := Nat.pow_lt_pow_right (by norm_num) hj
      _ = 256 := by norm_num
  rw [h1, Nat.and_two_pow]
  cases hash.testBit j
  · simp
  · have : 2 ^ j ≠ 0 := by positivity
    simp [this]

theorem foldl_xor_bytes (s : List Nat) :
    ∀ a, s.foldl (fun h character => h ^^^ (character % 256)) a = a ^^^ hashStringSpec s := by
  induction s with
  | nil => intro a; simp [hashStringSpec]
  | cons c s ih =>
    intro a
    rw [List.foldl_cons, ih, hashStringSpec, Nat.xor_assoc]

theorem flipCoin_eq_spec (x p : Nat) (hx : x < 2 ^ 32) : flipCoin x p = flipCoinSpec x p := by
  have hp : p % 8 < 8 := Nat.mod_lt _ (by norm_num)
  have hm : x % 2 ^ 32 = x := Nat.mod_eq_of_lt hx
  simp only [flipCoin, NUMBER_OF_BITS_IN_BYTE, byteSelector_eq, hm, IntegerByteOffsets.toNat]
  rw [select_bit _ _ hp]
  simp [flipCoinSpec, hashByteSpec]

theorem flipCoinString_eq_spec (s : List Nat) (p : Nat) :
    flipCoinString s p = flipCoinStringSpec s p := by
  have hp : p % 8 < 8 := Nat.mod_lt _ (by norm_num)
  simp only [flipCoinString, NUMBER_OF_BITS_IN_BYTE, foldl_xor_bytes]
  rw [select_bit _ _ hp]
  simp [flipCoinStringSpec]

/-- C11: for every 32-bit unsigned key `x` and every prior-flip count `p`, `flipCoin(x, p)`
is bit number `p mod 8` of the XOR of the four bytes of `x`; for every text key `s`,
`flipCoin(s, p)` is bit number `p mod 8` of the XOR of all character bytes of `s`; and
eight more prior flips give the same result. -/
theorem C11_flipCoin_selects_hash_bit (x p : Nat) (s : List Nat) (hx : x < 2 ^ 32) :
    flipCoin x p = flipCoinSpec x p ∧ flipCoinString s p = flipCoinStringSpec s p ∧
      hashStringSpec [] = 0 ∧ flipCoin x (p + 8) = flipCoin x p ∧
      flipCoinString s (p + 8) = flipCoinString s p := by
  refine ⟨flipCoin_eq_spec x p hx, flipCoinString_eq_spec s p, rfl, ?_, ?_⟩
  · simp [flipCoin, NUMBER_OF_BITS_IN_BYTE]
  · simp [flipCoinString, NUMBER_OF_BITS_IN_BYTE]

/-- C11 on the key `0x01020304` (hash byte `0x04`) and the text `"ab"` (hash byte `0x03`). -/
theorem C11_flipCoin_selects_hash_bit_witness :
    (0x01020304 : Nat) < 2 ^ 32 ∧ hashByteSpec 0x01020304 = 4 ∧
      flipCoin 0x01020304 10 = true ∧ flipCoinString [97, 98] 9 = true ∧
      flipCoin 0x01020304 10 = flipCoinSpec 0x01020304 10 :=
  ⟨by decide, by decide, by decide, by decide,
    (C11_flipCoin_selects_hash_bit 0x01020304 10 [97, 98] (by decide)).1⟩

end SkipList

/-! ## The layer limit in double precision -/

namespace SkipList

theorem floorLog2Aux_eq_log (budget : Nat) :
    ∀ n, n ≤ budget → floorLog2Aux budget n = Nat.log 2 n := by
  induction budget with
  | zero =>
    intro n hn
    have : n = 0 := by omega
    subst this
    simp [floorLog2Aux]
  | succ b ih =>
    intro n hn
    by_cases h1 : n ≤ 1
    · simp [floorLog2Aux, h1, Nat.log_of_lt (by omega : n < 2)]
    · have h2 : 2 ≤ n := by omega
      rw [Nat.log_of_one_lt_of_le (by decide) h2]
      simp only [floorLog2Aux, h1, if_false]
      rw [ih (n / 2) (by omega)]

/-- The halving count of `floorLog2` is the integer floor logarithm. -/
theorem floorLog2_eq_log (n : Nat) : floorLog2 n = Nat.log 2 n :=
  floorLog2Aux_eq_log n n (le_refl n)

theorem floorLog2_of_bounds {x k : Nat} (h1 : 2 ^ k ≤ x) (h2 : x < 2 ^ (k + 1)) :
    floorLog2 x = k := by
  rw [floorLog2_eq_log]
  exact Nat.log_eq_of_pow_le_of_lt_pow h1 h2

theorem floorLog2_pow (k : Nat) : floorLog2 (2 ^ k) = k := by
  rw [floorLog2_eq_log]
  exact Nat.log_pow (by decide) k

theorem roundToEven_bounds (unit n : Nat) :
    n / unit * unit ≤ roundToEven unit n ∧ roundToEven unit n ≤ (n / unit + 1) * unit := by
  unfold roundToEven
  split
  · exact ⟨le_refl _, Nat.mul_le_mul_right _ (Nat.le_succ _)⟩
  · exact ⟨Nat.mul_le_mul_right _ (Nat.le_succ _), le_refl _⟩

theorem roundToEven_of_dvd {unit n : Nat} (hu : 0 < unit) (h : unit ∣ n) :
    roundToEven unit n = n := by
  have hm : n % unit = 0 := Nat.mod_eq_zero_of_dvd h
  unfold roundToEven
  rw [if_pos (Or.inl (by rw [hm]; exact hu))]
  exact Nat.div_mul_cancel h

/-- Rounding keeps the order. -/
theorem roundToEven_mono {unit m n : Nat} (h : m ≤ n) :
    roundToEven unit m ≤ roundToEven unit n := by
  have hdiv : m / unit ≤ n / unit := Nat.div_le_div_right h
  rcases Nat.lt_or_eq_of_le hdiv with hlt | heq
  · calc roundToEven unit m ≤ (m / unit + 1) * unit := (roundToEven_bounds unit m).2
      _ ≤ n / unit * unit := Nat.mul_le_mul_right _ hlt
      _ ≤ roundToEven unit n := (roundToEven_bounds unit n).1
  · have hm := Nat.div_add_mod m unit
    have hn := Nat.div_add_mod n unit
    rw [heq] at hm
    have hr : m % unit ≤ n % unit := by omega
    unfold roundToEven
    rw [heq]
    by_cases hc : 2 * (n % unit) < unit ∨ (2 * (n % unit) = unit ∧ (n / unit) % 2 = 0)
    · have hc2 : 2 * (m % unit) < unit ∨ (2 * (m % unit) = unit ∧ (n / unit) % 2 = 0) := by
        omega
      rw [if_pos hc, if_pos hc2]
    · rw [if_neg hc]
      split
      · exact Nat.mul_le_mul_right _ (Nat.le_succ _)
      · exact le_refl _

/-- The conversion to `double` stays between the powers of two around the number. -/
theorem toDouble_bounds {n : Nat} (hn : n ≠ 0) :
    2 ^ Nat.log 2 n ≤ toDouble n ∧ toDouble n ≤ 2 ^ (Nat.log 2 n + 1) := by
  have h1 : 2 ^ Nat.log 2 n ≤ n := Nat.pow_log_le_self 2 hn
  have h2 : n ≤ 2 ^ (Nat.log 2 n + 1) := Nat.le_of_lt (Nat.lt_pow_succ_log_self (by decide) n)
  have hu : 0 < 2 ^ (Nat.log 2 n - 52) := Nat.pos_pow_of_pos _ (by decide)
  have e1 : roundToEven (2 ^ (Nat.log 2 n - 52)) (2 ^ Nat.log 2 n) = 2 ^ Nat.log 2 n :=
    roundToEven_of_dvd hu (Nat.pow_dvd_pow 2 (Nat.sub_le _ _))
  have e2 : roundToEven (2 ^ (Nat.log 2 n - 52)) (2 ^ (Nat.log 2 n + 1)) =
      2 ^ (Nat.log 2 n + 1) :=
    roundToEven_of_dvd hu (Nat.pow_dvd_pow 2 (by omega))
  rw [toDouble, floorLog2_eq_log]
  constructor
  · rw [← e1]; exact roundToEven_mono h1
  · rw [← e2]; exact roundToEven_mono h2

theorem ceilLog2Double_bounds (x : Nat) :
    floorLog2 x ≤ ceilLog2Double x ∧ ceilLog2Double x ≤ floorLog2 x + 1 := by
  unfold ceilLog2Double
  split <;> omega

/-- The logarithm of a power of two is exact. -/
theorem ceilLog2Double_pow (k : Nat) : ceilLog2Double (2 ^ k) = k := by
  unfold ceilLog2Double
  rw [floorLog2_pow, Nat.sub_self, if_pos]
  simp only [Nat.zero_mul]
  exact Nat.mul_pos (Nat.mul_pos (by decide) (Nat.pos_pow_of_pos _ (by decide)))
    (Nat.pos_pow_of_pos _ (by decide))

/-- The `double` computation gives the floor of the logarithm or one more. -/
theorem ceilLog2Double_toDouble_bounds {n : Nat} (hn : n ≠ 0) :
    Nat.log 2 n ≤ ceilLog2Double (toDouble n) ∧
      ceilLog2Double (toDouble n) ≤ Nat.log 2 n + 1 := by
  obtain ⟨h1, h2⟩ := toDouble_bounds hn
  rcases Nat.lt_or_eq_of_le h2 with hlt | heq
  · have hf := floorLog2_of_bounds h1 hlt
    have hb := ceilLog2Double_bounds (toDouble n)
    rw [hf] at hb
    exact hb
  · rw [heq, ceilLog2Double_pow]
    omega

/-- The `double` computation of `ceil(log2 n)` keeps the order. -/
theorem ceilLog2Double_toDouble_mono {m n : Nat} (h : m ≤ n) :
    ceilLog2Double (toDouble m) ≤ ceilLog2Double (toDouble n) := by
  by_cases hm : m = 0
  · subst hm
    have : ceilLog2Double (toDouble 0) = 0 := by decide
    rw [this]
    exact Nat.zero_le _
  have hn : n ≠ 0 := by omega
  obtain ⟨hm1, hm2⟩ := ceilLog2Double_toDouble_bounds hm
  obtain ⟨hn1, hn2⟩ := ceilLog2Double_toDouble_bounds hn
  have hlog : Nat.log 2 m ≤ Nat.log 2 n := Nat.log_mono_right h
  rcases Nat.lt_or_eq_of_le hlog with hlt | heq
  · omega
  · -- the same binade
    obtain ⟨bm1, bm2⟩ := toDouble_bounds hm
    obtain ⟨bn1, bn2⟩ := toDouble_bounds hn
    rw [heq] at bm1 bm2 hm1 hm2
    have hmn : toDouble m ≤ toDouble n := by
      rw [toDouble, toDouble, floorLog2_eq_log, floorLog2_eq_log, heq]
      exact roundToEven_mono h
    rcases Nat.lt_or_eq_of_le bn2 with hlt2 | heq2
    · have hfn := floorLog2_of_bounds bn1 hlt2
      have hfm := floorLog2_of_bounds bm1 (Nat.lt_of_le_of_lt hmn hlt2)
      unfold ceilLog2Double
      rw [hfn, hfm]
      by_cases hc : (toDouble n - 2 ^ Nat.log 2 n) * 2 ^ 53 * 10 ^ 16 <
          6931471805599453 * 2 ^ floorLog2 (Nat.log 2 n) * 2 ^ Nat.log 2 n
      · have hc2 : (toDouble m - 2 ^ Nat.log 2 n) * 2 ^ 53 * 10 ^ 16 <
            6931471805599453 * 2 ^ floorLog2 (Nat.log 2 n) * 2 ^ Nat.log 2 n := by
          refine Nat.lt_of_le_of_lt ?_ hc
          exact Nat.mul_le_mul_right _ (Nat.mul_le_mul_right _ (Nat.sub_le_sub_right hmn _))
        rw [if_pos hc, if_pos hc2]
      · rw [if_neg hc]
        split <;> omega
    · rw [heq2, ceilLog2Double_pow]
      exact hm2

/-- A larger size never has a smaller layer limit. -/
theorem layerLimit_mono {m n : Nat} (h : m ≤ n) : layerLimit m ≤ layerLimit n := by
  rw [layerLimit, layerLimit]
  by_cases hm : m ≤ 16
  · by_cases hn : n ≤ 16
    · rw [if_pos hm, if_pos hn]
    · rw [if_pos hm, if_neg hn]
      have h4 : 4 ≤ Nat.log 2 n := Nat.le_log_of_pow_le (by decide) (by omega)
      have := (ceilLog2Double_toDouble_bounds (by omega : n ≠ 0)).1
      omega
  · have hn : ¬ n ≤ 16 := by omega
    rw [if_neg hm, if_neg hn]
    have := ceilLog2Double_toDouble_mono h
    omega

end SkipList

/-! ## The rounding of the logarithm -/

namespace SkipList

theorem log_one_add_lower {j0 j : Nat} (h : j0 ≤ j) :
    1 - (1 + (j0 : ℝ) / 2 ^ 52)⁻¹ ≤ Real.log (1 + (j : ℝ) / 2 ^ 52) := by
  have h0 : (0 : ℝ) < 1 + (j0 : ℝ) / 2 ^ 52 := by positivity
  have h1 : 1 + (j0 : ℝ) / 2 ^ 52 ≤ 1 + (j : ℝ) / 2 ^ 52 := by
    have : (j0 : ℝ) ≤ (j : ℝ) := by exact_mod_cast h
    have h2 : (j0 : ℝ) / 2 ^ 52 ≤ (j : ℝ) / 2 ^ 52 := by
      apply div_le_div_of_nonneg_right this
      positivity
    linarith
  exact le_trans (Real.one_sub_inv_le_log_of_pos h0) (Real.log_le_log h0 h1)

theorem log_one_add_upper {j1 j : Nat} (h : j ≤ j1) :
    Real.log (1 + (j : ℝ) / 2 ^ 52) ≤ (j1 : ℝ) / 2 ^ 52 := by
  have h0 : (0 : ℝ) < 1 + (j : ℝ) / 2 ^ 52 := by positivity
  have h1 := Real.log_le_sub_one_of_pos h0
  have : (j : ℝ) ≤ (j1 : ℝ) := by exact_mod_cast h
  have h2 : (j : ℝ) / 2 ^ 52 ≤ (j1 : ℝ) / 2 ^ 52 := by
    apply div_le_div_of_nonneg_right this
    positivity
  linarith

/-- The whole-number test of `ceilLog2Double` against the real logarithm: for a fraction
`j / 2 ^ 52` of a `double` and the exponent `e` of a number below 64, the test holds exactly
when `ln(1 + j / 2 ^ 52)` is below `2 ^ e / 2 ^ 53` times `ln 2`. -/
theorem test_iff_log_lt (e j : Nat) (he : e ≤ 5) (hj : 1 ≤ j) :
    2 * 10 ^ 16 * j < 6931471805599453 * 2 ^ e ↔
      Real.log (1 + (j : ℝ) / 2 ^ 52) < (2 : ℝ) ^ e / 2 ^ 53 * Real.log 2 := by
  have hlo := Real.log_two_gt_d9
  have hhi := Real.log_two_lt_d9
  interval_cases e
  · -- e = 0
    constructor
    · intro h; omega
    · intro h
      have hl := @log_one_add_lower 1 j hj
      have hc : (2 : ℝ) ^ 0 / 2 ^ 53 * 0.6931471808 < 1 - (1 + ((1 : Nat) : ℝ) / 2 ^ 52)⁻¹ := by
        norm_num
      have ht : (2 : ℝ) ^ 0 / 2 ^ 53 * Real.log 2 < (2 : ℝ) ^ 0 / 2 ^ 53 * 0.6931471808 := by
        apply mul_lt_mul_of_pos_left hhi
        positivity
      linarith
  · -- e = 1
    constructor
    · intro h; omega
    · intro h
      have hl := @log_one_add_lower 1 j hj
      have hc : (2 : ℝ) ^ 1 / 2 ^ 53 * 0.6931471808 < 1 - (1 + ((1 : Nat) : ℝ) / 2 ^ 52)⁻¹ := by
        norm_num
      have ht : (2 : ℝ) ^ 1 / 2 ^ 53 * Real.log 2 < (2 : ℝ) ^ 1 / 2 ^ 53 * 0.6931471808 := by
        apply mul_lt_mul_of_pos_left hhi
        positivity
      linarith
  · -- e = 2
    constructor
    · intro h
      have hj1 : j ≤ 1 := by omega
      have hu := @log_one_add_upper 1 j hj1
      have hc : (((1 : Nat) : ℝ)) / 2 ^ 52 < (2 : ℝ) ^ 2 / 2 ^ 53 * 0.6931471803 := by norm_num
      have ht : (2 : ℝ) ^ 2 / 2 ^ 53 * 0.6931471803 < (2 : ℝ) ^ 2 / 2 ^ 53 * Real.log 2 := by
        apply mul_lt_mul_of_pos_left hlo
        positivity
      linarith
    · intro h
      by_contra hn
      have hj0 : 2 ≤ j := by omega
      have hl := @log_one_add_lower 2 j hj0
      have hc : (2 : ℝ) ^ 2 / 2 ^ 53 * 0.6931471808 < 1 - (1 + ((2 : Nat) : ℝ) / 2 ^ 52)⁻¹ := by
        norm_num
      have ht : (2 : ℝ) ^ 2 / 2 ^ 53 * Real.log 2 < (2 : ℝ) ^ 2 / 2 ^ 53 * 0.6931471808 := by
        apply mul_lt_mul_of_pos_left hhi
        positivity
      linarith
  · -- e = 3
    constructor
    · intro h
      have hj1 : j ≤ 2 := by omega
      have hu := @log_one_add_upper 2 j hj1
      have hc : (((2 : Nat) : ℝ)) / 2 ^ 52 < (2 : ℝ) ^ 3 / 2 ^ 53 * 0.6931471803 := by norm_num
      have ht : (2 : ℝ) ^ 3 / 2 ^ 53 * 0.6931471803 < (2 : ℝ) ^ 3 / 2 ^ 53 * Real.log 2 := by
        apply mul_lt_mul_of_pos_left hlo
        positivity
      linarith
    · intro h
      by_contra hn
      have hj0 : 3 ≤ j := by omega
      have hl := @log_one_add_lower 3 j hj0
      have hc : (2 : ℝ) ^ 3 / 2 ^ 53 * 0.6931471808 < 1 - (1 + ((3 : Nat) : ℝ) / 2 ^ 52)⁻¹ := by
        norm_num
      have ht : (2 : ℝ) ^ 3 / 2 ^ 53 * Real.log 2 < (2 : ℝ) ^ 3 / 2 ^ 53 * 0.6931471808 := by
        apply mul_lt_mul_of_pos_left hhi
        positivity
      linarith
  · -- e = 4
    constructor
    · intro h
      have hj1 : j ≤ 5 := by omega
      have hu := @log_one_add_upper 5 j hj1
      have hc : (((5 : Nat) : ℝ)) / 2 ^ 52 < (2 : ℝ) ^ 4 / 2 ^ 53 * 0.6931471803 := by norm_num
      have ht : (2 : ℝ) ^ 4 / 2 ^ 53 * 0.6931471803 < (2 : ℝ) ^ 4 / 2 ^ 53 * Real.log 2 := by
        apply mul_lt_mul_of_pos_left hlo
        positivity
      linarith
    · intro h
      by_contra hn
      have hj0 : 6 ≤ j := by omega
      have hl := @log_one_add_lower 6 j hj0
      have hc : (2 : ℝ) ^ 4 / 2 ^ 53 * 0.6931471808 < 1 - (1 + ((6 : Nat) : ℝ) / 2 ^ 52)⁻¹ := by
        norm_num
      have ht : (2 : ℝ) ^ 4 / 2 ^ 53 * Real.log 2 < (2 : ℝ) ^ 4 / 2 ^ 53 * 0.6931471808 := by
        apply mul_lt_mul_of_pos_left hhi
        positivity
      linarith
  · -- e = 5
    constructor
    · intro h
      have hj1 : j ≤ 11 := by omega
      have hu := @log_one_add_upper 11 j hj1
      have hc : (((11 : Nat) : ℝ)) / 2 ^ 52 < (2 : ℝ) ^ 5 / 2 ^ 53 * 0.6931471803 := by norm_num
      have ht : (2 : ℝ) ^ 5 / 2 ^ 53 * 0.6931471803 < (2 : ℝ) ^ 5 / 2 ^ 53 * Real.log 2 := by
        apply mul_lt_mul_of_pos_left hlo
        positivity
      linarith
    · intro h
      by_contra hn
      have hj0 : 12 ≤ j := by omega
      have hl := @log_one_add_lower 12 j hj0
      have hc : (2 : ℝ) ^ 5 / 2 ^ 53 * 0.6931471808 < 1 - (1 + ((12 : Nat) : ℝ) / 2 ^ 52)⁻¹ := by
        norm_num
      have ht : (2 : ℝ) ^ 5 / 2 ^ 53 * Real.log 2 < (2 : ℝ) ^ 5 / 2 ^ 53 * 0.6931471808 := by
        apply mul_lt_mul_of_pos_left hhi
        positivity
      linarith

/-- The test of `ceilLog2Double` is the one its description gives. Let `x` be a `double`
strictly between `2 ^ k` and `2 ^ (k + 1)`, that is `x = 2 ^ k * (1 + j / 2 ^ 52)` with
`0 < j < 2 ^ 52`, for `1 ≤ k < 64`. Then `ceilLog2Double x` is `k` exactly when the real
logarithm `log2 x` is below `k + 2 ^ floor(log2 k) / 2 ^ 53`, the midpoint between `k` and
the `double` next above `k`; otherwise it is `k + 1`. -/
theorem ceilLog2Double_eq_iff_below_midpoint (x k j : Nat) (hk1 : 1 ≤ k) (hk2 : k < 64)
    (hj1 : 1 ≤ j) (hj2 : j < 2 ^ 52) (hx : x * 2 ^ 52 = (2 ^ 52 + j) * 2 ^ k) :
    (ceilLog2Double x = k ↔
      Real.logb 2 (x : ℝ) < (k : ℝ) + (2 : ℝ) ^ Nat.log 2 k / 2 ^ 53) ∧
    (ceilLog2Double x = k ∨ ceilLog2Double x = k + 1) := by
  have hpk : 0 < 2 ^ k := Nat.pos_pow_of_pos _ (by decide)
  have hlo : 2 ^ k ≤ x := by
    apply Nat.le_of_mul_le_mul_right _ (by decide : 0 < 2 ^ 52)
    rw [hx, Nat.mul_comm]
    exact Nat.mul_le_mul_right _ (Nat.le_add_right _ _)
  have hhi : x < 2 ^ (k + 1) := by
    apply Nat.lt_of_mul_lt_mul_right (a := 2 ^ 52)
    rw [hx, Nat.pow_succ]
    have : 2 ^ 52 + j < 2 * 2 ^ 52 := by omega
    calc (2 ^ 52 + j) * 2 ^ k < 2 * 2 ^ 52 * 2 ^ k := Nat.mul_lt_mul_of_pos_right this hpk
      _ = 2 ^ k * 2 * 2 ^ 52 := by ring
  have hfl : floorLog2 x = k := floorLog2_of_bounds hlo hhi
  have he : Nat.log 2 k ≤ 5 :=
    Nat.lt_succ_iff.mp (Nat.log_lt_of_lt_pow (by omega) (by omega))
  have hsub : (x - 2 ^ k) * 2 ^ 52 = j * 2 ^ k := by
    rw [Nat.sub_mul, hx]
    have : (2 ^ 52 + j) * 2 ^ k = 2 ^ k * 2 ^ 52 + j * 2 ^ k := by ring
    omega
  have htest : ((x - 2 ^ k) * 2 ^ 53 * 10 ^ 16 <
      6931471805599453 * 2 ^ floorLog2 k * 2 ^ k) ↔
      2 * 10 ^ 16 * j < 6931471805599453 * 2 ^ Nat.log 2 k := by
    have e1 : (x - 2 ^ k) * 2 ^ 53 * 10 ^ 16 = (2 * 10 ^ 16 * j) * 2 ^ k := by
      have : (x - 2 ^ k) * 2 ^ 53 * 10 ^ 16 = ((x - 2 ^ k) * 2 ^ 52) * (2 * 10 ^ 16) := by ring
      rw [this, hsub]
      ring
    rw [e1, floorLog2_eq_log]
    exact Nat.mul_lt_mul_right hpk
  have hcd : ceilLog2Double x = k ↔
      2 * 10 ^ 16 * j < 6931471805599453 * 2 ^ Nat.log 2 k := by
    rw [← htest]
    unfold ceilLog2Double
    rw [hfl]
    constructor
    · intro h
      by_contra hn
      rw [if_neg hn] at h
      omega
    · intro h
      rw [if_pos h]
  have hor : ceilLog2Double x = k ∨ ceilLog2Double x = k + 1 := by
    have := ceilLog2Double_bounds x
    rw [hfl] at this
    omega
  refine ⟨?_, hor⟩
  rw [hcd, test_iff_log_lt _ j he hj1]
  -- the real logarithm of `x`
  have hxr : (x : ℝ) = 2 ^ k * (1 + (j : ℝ) / 2 ^ 52) := by
    have hc : ((x * 2 ^ 52 : Nat) : ℝ) = (((2 ^ 52 + j) * 2 ^ k : Nat) : ℝ) := by
      rw [hx]
    push_cast at hc
    field_simp
    linarith
  have hl2 : 0 < Real.log 2 := Real.log_pos (by norm_num)
  have h1f : (0 : ℝ) < 1 + (j : ℝ) / 2 ^ 52 := by positivity
  have hlog : Real.log (x : ℝ) = k * Real.log 2 + Real.log (1 + (j : ℝ) / 2 ^ 52) := by
    rw [hxr, Real.log_mul (by positivity) (ne_of_gt h1f), Real.log_pow]
  rw [Real.logb, div_lt_iff₀ hl2, hlog]
  constructor
  · intro h
    linarith
  · intro h
    linarith

end SkipList

/-! ## Reading the layers off a well-formed structure -/

namespace SkipList
variable {K V : Type}

theorem ofNode_node (c : Cell K V) (r : Option Nat) : Cell.ofNode c.addr (c.node r) = c := rfl

theorem chainCells_spec (mem : Mem K V) (cs : List (Cell K V)) :
    ∀ (p : Option Nat) (fuel : Nat), Seg mem p cs none → cs.length < fuel →
      chainCells mem fuel p = .ok cs := by
  induction cs with
  | nil =>
    intro p fuel h hf
    have : p = none := h
    subst this
    match fuel, hf with
    | f + 1, _ => rfl
  | cons c cs ih =>
    intro p fuel h hf
    obtain ⟨hp, r, hm, hr⟩ := h
    subst hp
    match fuel, hf with
    | f + 1, hf =>
      have := ih r f hr (by simpa using hf)
      simp only [chainCells, hm, Cell.node, this]
      rfl

section Order
variable [LinearOrder K]

/-- The only node of a layer that is not a real node is its sentinel. -/
theorem LayerOK.invalid_head {mem : Mem K V} {L : List (Cell K V)} (h : LayerOK mem L)
    {d : Cell K V} (hd : d ∈ L) (hv : d.keyValid = false) : L.head? = some d := by
  obtain ⟨hd0, cells, hLe, _, hpw, _⟩ := h
  subst hLe
  rcases List.mem_cons.mp hd with rfl | hmem
  · rfl
  · have := ((List.pairwise_cons.mp hpw).1 d hmem).1
    rw [hv] at this
    exact absurd this (by simp)

theorem hasKey_iff_keysOf {key : K} {L : List (Cell K V)} :
    hasKey key L = true ↔ key ∈ keysOf L := by
  rw [hasKey_iff]
  constructor
  · rintro ⟨c, hc, hcis⟩
    obtain ⟨hcv, hck⟩ := is_iff.mp hcis
    exact List.mem_map.mpr ⟨c, List.mem_filter.mpr ⟨hc, hcv⟩, hck⟩
  · intro h
    obtain ⟨c, hc, hck⟩ := List.mem_map.mp h
    obtain ⟨hc1, hc2⟩ := List.mem_filter.mp hc
    exact ⟨c, hc1, is_iff.mpr ⟨hc2, hck⟩⟩

/-- Reading the layers off the free store gives the layers the free store holds. -/
theorem layersLoop_spec {mem : Mem K V} (inner : Nat) (ls : List (List (Cell K V))) :
    ∀ (L : List (Cell K V)) (hd : Cell K V) (fuel : Nat), Tower mem (L :: ls) →
      L.head? = some hd → (∀ M ∈ L :: ls, M.length < inner) → ls.length + 1 < fuel →
      layersLoop mem inner fuel (some hd.addr) = .ok (L :: ls) := by
  induction ls with
  | nil =>
    intro L hd fuel ht hh hin hf
    obtain ⟨hLok, hB⟩ := ht.single
    obtain ⟨hd2, h1, _, hseg, _⟩ := hLok.head
    rw [hh] at h1
    have : hd = hd2 := Option.some.inj h1
    subst this
    have hmem : hd ∈ L := List.mem_of_mem_head? hh
    obtain ⟨r, hm⟩ := hLok.stored hmem
    have hc := chainCells_spec mem L (some hd.addr) inner hseg (hin L (List.mem_cons_self _ _))
    match fuel, hf with
    | f + 2, _ =>
      simp only [layersLoop, hm, hc, Cell.node, hB hd hmem]
  | cons L1 ls ih =>
    intro L hd fuel ht hh hin hf
    obtain ⟨ht1, hLok, hlink⟩ := ht.tail
    obtain ⟨hd2, h1, hhv, hseg, _⟩ := hLok.head
    rw [hh] at h1
    have : hd = hd2 := Option.some.inj h1
    subst this
    have hmem : hd ∈ L := List.mem_of_mem_head? hh
    obtain ⟨r, hm⟩ := hLok.stored hmem
    have hc := chainCells_spec mem L (some hd.addr) inner hseg (hin L (List.mem_cons_self _ _))
    obtain ⟨d, hd1, hdown, hdv, _⟩ := hlink hd hmem
    have hL1 := ht1.layer L1 (List.mem_cons_self _ _)
    have hdh : L1.head? = some d := hL1.invalid_head hd1 (by rw [hdv]; exact hhv)
    match fuel, hf with
    | f + 1, hf =>
      have := ih L1 d f ht1 hdh (fun M hM => hin M (List.mem_cons_of_mem _ hM))
        (by simpa using hf)
      simp only [layersLoop, hm, hc, Cell.node, hdown, this]

/-- The layers read off a well-formed structure are its layers. -/
theorem layerCells_spec {s : SkipList K V} {ls : List (List (Cell K V))} (hinv : Inv s ls) :
    layerCells s = .ok ls := by
  obtain ⟨hd, rest, hls, htop, _, _⟩ := hinv.cons
  have hsh := hinv.shape
  have hlen := hsh.length_le
  subst hls
  rw [layerCells, htop]
  exact layersLoop_spec (s.next + 1) rest [hd] hd (s.next + 1) hsh.tower rfl
    (fun M hM => Nat.lt_succ_of_le (hsh.layer_le hM)) (by simp at hlen; omega)

/-- Counting the layers with `key` on the free store counts the layers that have it. -/
theorem countLayers_spec {mem : Mem K V} (key : K) (inner : Nat)
    (ls : List (List (Cell K V))) :
    ∀ (L : List (Cell K V)) (hd : Cell K V) (fuel count : Nat), Tower mem (L :: ls) →
      L.head? = some hd → (∀ M ∈ L :: ls, M.length < inner) → ls.length + 1 < fuel →
      countLayers mem key inner fuel (some hd.addr) count =
        .ok (count + (L :: ls).countP (hasKey key)) := by
  induction ls with
  | nil =>
    intro L hd fuel count ht hh hin hf
    obtain ⟨hLok, hB⟩ := ht.single
    obtain ⟨hd2, cells, hLe, hhv, _, hseg⟩ := id hLok
    subst hLe
    simp only [List.head?_cons, Option.some.injEq] at hh
    subst hh
    obtain ⟨_, r, hm, hr⟩ := hseg
    have hk := keysLoop_spec mem cells r inner [] hr (by
      have := hin _ (List.mem_cons_self _ _); simp at this; omega)
    have hkeys : keysOf (hd2 :: cells) = keysOf cells := by
      rw [keysOf_cons, hhv]; rfl
    match fuel, hf with
    | f + 2, _ =>
      simp only [countLayers, hm, Cell.node, hk, List.nil_append, hB hd2 (List.mem_cons_self _ _)]
      by_cases hmem : key ∈ keysOf cells
      · have : hasKey key (hd2 :: cells) = true := hasKey_iff_keysOf.mpr (by rw [hkeys]; exact hmem)
        simp [hmem, this]
      · have : hasKey key (hd2 :: cells) = false := by
          cases h : hasKey key (hd2 :: cells) with
          | false => rfl
          | true => exact absurd (by rw [← hkeys]; exact hasKey_iff_keysOf.mp h) hmem
        simp [hmem, this]
  | cons L1 ls ih =>
    intro L hd fuel count ht hh hin hf
    obtain ⟨ht1, hLok, hlink⟩ := ht.tail
    obtain ⟨hd2, cells, hLe, hhv, _, hseg⟩ := id hLok
    subst hLe
    simp only [List.head?_cons, Option.some.injEq] at hh
    subst hh
    obtain ⟨_, r, hm, hr⟩ := hseg
    have hk := keysLoop_spec mem cells r inner [] hr (by
      have := hin _ (List.mem_cons_self _ _); simp at this; omega)
    have hkeys : keysOf (hd2 :: cells) = keysOf cells := by
      rw [keysOf_cons, hhv]; rfl
    obtain ⟨d, hd1, hdown, hdv, _⟩ := hlink hd2 (List.mem_cons_self _ _)
    have hL1 := ht1.layer L1 (List.mem_cons_self _ _)
    have hdh : L1.head? = some d := hL1.invalid_head hd1 (by rw [hdv]; exact hhv)
    match fuel, hf with
    | f + 1, hf =>
      have hrec := fun c => ih L1 d f c ht1 hdh (fun M hM => hin M (List.mem_cons_of_mem _ hM))
        (by simpa using hf)
      simp only [countLayers, hm, Cell.node, hk, List.nil_append, hdown, hrec]
      by_cases hmem : key ∈ keysOf cells
      · have : hasKey key (hd2 :: cells) = true := hasKey_iff_keysOf.mpr (by rw [hkeys]; exact hmem)
        simp [hmem, this, List.countP_cons]
        omega
      · have : hasKey key (hd2 :: cells) = false := by
          cases h : hasKey key (hd2 :: cells) with
          | false => rfl
          | true => exact absurd (by rw [← hkeys]; exact hasKey_iff_keysOf.mp h) hmem
        simp [hmem, this, List.countP_cons]

/-- The tower of a key in a well-formed structure: the number of layers that have it. -/
theorem towerOf_spec {s : SkipList K V} {ls : List (List (Cell K V))} (hinv : Inv s ls)
    (key : K) : towerOf s key = .ok (ls.countP (hasKey key)) := by
  obtain ⟨hd, rest, hls, htop, _, _⟩ := hinv.cons
  have hsh := hinv.shape
  have hlen := hsh.length_le
  subst hls
  rw [towerOf, htop, countLayers_spec key (s.next + 1) rest [hd] hd (s.next + 1) 0 hsh.tower rfl
    (fun M hM => Nat.lt_succ_of_le (hsh.layer_le hM)) (by simp at hlen; omega)]
  simp

end Order
end SkipList

/-! ## The layer invariant, layer count, size and structure errors -/

namespace SkipList
variable {K V : Type} [LinearOrder K]

theorem LayerOK.keys_sorted {mem : Mem K V} {L : List (Cell K V)} (h : LayerOK mem L) :
    (keysOf L).Pairwise (· < ·) := by
  obtain ⟨hd, cells, hLe, hhv, hpw, _⟩ := h
  rw [keysOf, List.pairwise_map]
  have h1 : (L.filter (fun c => c.keyValid)).Pairwise Cell.before :=
    hpw.sublist (List.filter_sublist _)
  refine h1.imp_of_mem ?_
  intro a b ha _ hab
  exact hab.2 (List.mem_filter.mp ha).2

omit [LinearOrder K] in
theorem Linked.towerLink {U L : List (Cell K V)} (h : Linked U L) : TowerLink U L := by
  intro c hc hcv
  obtain ⟨d, hd, hdown, hdv, hdk⟩ := h c hc
  exact ⟨d, hd, by rw [hdv, hcv], hdk hcv, hdown⟩

/-- A well-formed structure satisfies the layer invariant of the specification. -/
theorem Inv.layerInvariant {s : SkipList K V} {ls : List (List (Cell K V))} (hinv : Inv s ls) :
    LayerInvariant s :=
  ⟨ls, layerCells_spec hinv, fun L hL => (hinv.shape.layer L hL).keys_sorted,
    hinv.shape.linked.imp (fun {U L} (h : Linked U L) => h.towerLink)⟩

section Claims
variable [Inhabited K] [Inhabited V]

/-- The outcome of `insert` on a reachable structure tells whether the key was present. -/
theorem insert_outcome (flip : K → Nat → Bool) {s : SkipList K V}
    {ls : List (List (Cell K V))} (hinv : Inv s ls) (k : K) (v : V) :
    (contains s k = true ∧ insert flip s k v = (.ok none, s)) ∨
      (contains s k = false ∧ ∃ visited, (insert flip s k v).1 = .ok (some visited)) := by
  obtain ⟨B, hB, hkeys, _, _, _, hhas, _, _⟩ := hinv.view
  cases hc : contains s k with
  | true =>
    left
    obtain ⟨B2, hB2, hyes, _⟩ := insert_spec flip hinv k v
    rw [hB] at hB2
    have : B = B2 := Option.some.inj hB2
    subst this
    exact ⟨rfl, hyes ((hhas k).mpr ((contains_iff hkeys k).mp hc))⟩
  | false =>
    right
    obtain ⟨visited, _, _, _, hres, _⟩ := insert_fresh flip hinv k v hc
    exact ⟨rfl, visited, hres⟩

/-- C13: the layer invariant (keys strictly increasing along every layer, every real node
above layer 0 pointing down at the node of the same key one layer below) holds for the
freshly constructed structure and, on a reachable structure, before and after every
`insert` and every `erase`, successful or not. -/
theorem C13_layer_invariant_preserved (flip : K → Nat → Bool) (s : SkipList K V)
    (hr : Reachable flip s) (k : K) (v : V) :
    LayerInvariant (SkipList.create : SkipList K V) ∧ LayerInvariant s ∧
      LayerInvariant (insert flip s k v).2 ∧ LayerInvariant (erase s k).2 := by
  obtain ⟨_, h0⟩ := reachable_inv (Reachable.fresh : Reachable flip (SkipList.create : SkipList K V))
  obtain ⟨_, h1⟩ := reachable_inv hr
  obtain ⟨_, h2⟩ := reachable_inv (Reachable.insert s k v hr)
  obtain ⟨_, h3⟩ := reachable_inv (Reachable.erase s k hr)
  exact ⟨h0.layerInvariant, h1.layerInvariant, h2.layerInvariant, h3.layerInvariant⟩

/-- C13 on the scenario structure. -/
theorem C13_layer_invariant_preserved_witness :
    LayerInvariant scenario ∧ LayerInvariant (insert flipCoin scenario 7 70).2 ∧
      LayerInvariant (erase scenario 10).2 :=
  ⟨(C13_layer_invariant_preserved flipCoin scenario scenario_reachable 7 70).2.1,
    (C13_layer_invariant_preserved flipCoin scenario scenario_reachable 7 70).2.2.1,
    (C13_layer_invariant_preserved flipCoin scenario scenario_reachable 10 0).2.2.2⟩

/-- C15: in a reachable structure `layers()` is at least 2 and counts the layers, and the
topmost layer is a sentinel without any real node; a successful `insert` takes the layer
count from `L` to `max(L, t + 1)` for the tower height `t` it settles on, and a failed
`insert` leaves the structure as it was. -/
theorem C15_layer_count (flip : K → Nat → Bool) (s : SkipList K V) (hr : Reachable flip s)
    (k : K) (v : V) :
    2 ≤ layers s ∧
      (∃ ls hd, layerCells s = .ok ls ∧ ls.length = layers s ∧ ls.head? = some [hd] ∧
        hd.keyValid = false) ∧
      (∀ visited, (insert flip s k v).1 = .ok (some visited) →
        layers (insert flip s k v).2 = max (layers s) (towerLevelsFor flip s k + 1)) ∧
      ((insert flip s k v).1 = .ok none → (insert flip s k v).2 = s) := by
  obtain ⟨ls, hinv⟩ := reachable_inv hr
  obtain ⟨hd, rest, hls, _, hhv, _⟩ := hinv.cons
  have htwo := hinv.two
  have hheight := hinv.height
  refine ⟨by rw [layers, hheight]; exact htwo,
    ⟨ls, hd, layerCells_spec hinv, by rw [layers, hheight], by rw [hls]; rfl, hhv⟩, ?_, ?_⟩
  · intro visited hok
    rcases insert_outcome flip hinv k v with ⟨_, hsame⟩ | ⟨hno, _⟩
    · rw [hsame] at hok
      simp at hok
    · obtain ⟨_, _, _, _, _, _, _, _, _, _, _, _, hht⟩ := insert_fresh flip hinv k v hno
      rw [layers, hht, layers]
      omega
  · intro hnone
    rcases insert_outcome flip hinv k v with ⟨_, hsame⟩ | ⟨_, visited, hres⟩
    · rw [hsame]
    · rw [hres] at hnone
      simp at hnone

/-- C15 on the scenario structure: `insert(7, 70)` builds a tower of four nodes and the
layer count stays 6. -/
theorem C15_layer_count_witness :
    layers scenario = 6 ∧ towerLevelsFor flipCoin scenario 7 = 4 ∧
      layers (insert flipCoin scenario 7 70).2 = 6 ∧ 2 ≤ layers scenario :=
  ⟨by decide, by decide, by decide,
    (C15_layer_count flipCoin scenario scenario_reachable 7 70).1⟩

/-- C18: in a reachable structure `size()` is the number of real keys on layer 0, the
length of `allKeysInOrder()`, and `empty()` holds exactly when `allKeysInOrder()` is
empty; the fresh structure has size 0 and 2 layers. -/
theorem C18_size_counts_keys (flip : K → Nat → Bool) (s : SkipList K V)
    (hr : Reachable flip s) :
    (∃ ks, allKeysInOrder s = .ok ks ∧ size s = ks.length ∧
      (SkipList.empty s = true ↔ ks = [])) ∧
      size (SkipList.create : SkipList K V) = 0 ∧
      layers (SkipList.create : SkipList K V) = 2 := by
  obtain ⟨ls, hinv⟩ := reachable_inv hr
  obtain ⟨B, _, hkeys, _, _, hsz, _, _, _⟩ := hinv.view
  refine ⟨⟨keysOf B, hkeys, hsz, ?_⟩, rfl, rfl⟩
  rw [SkipList.empty, beq_iff_eq, hsz, List.length_eq_zero]

/-- C18 on the scenario structure. -/
theorem C18_size_counts_keys_witness :
    size scenario = 4 ∧ SkipList.empty scenario = false ∧
      ∃ ks, allKeysInOrder scenario = .ok ks ∧ size scenario = ks.length ∧
        (SkipList.empty scenario = true ↔ ks = []) :=
  ⟨by decide, by decide, (C18_size_counts_keys flipCoin scenario scenario_reachable).1⟩

theorem orThrow_ne_logicError {α : Type} (e : Exn) (o : Option α) (what : String)
    (he : e ≠ .logicError what) : orThrow e o ≠ .error (.logicError what) := by
  cases o with
  | none =>
    intro h
    exact he (by injection h)
  | some a =>
    intro h
    exact Except.noConfusion h

/-- C19: on a reachable structure `previousKey`, `isSmallestKey` and `isLargestKey` never
throw `std::logic_error`: each returns a result or signals `NotFound` (or
`NoPredecessor`); and a key found in any layer is present on layer 0. -/
theorem C19_no_structure_error (flip : K → Nat → Bool) (s : SkipList K V)
    (hr : Reachable flip s) (k : K) (what : String) :
    previousKey s k ≠ .error (.logicError what) ∧
      isSmallestKey s k ≠ .error (.logicError what) ∧
      isLargestKey s k ≠ .error (.logicError what) ∧
      ((∃ p, previousKey s k = .ok p) ∨ previousKey s k = .error notFound ∨
        previousKey s k = .error noPredecessor) ∧
      ((∃ b, isSmallestKey s k = .ok b) ∨ isSmallestKey s k = .error notFound) ∧
      ((∃ b, isLargestKey s k = .ok b) ∨ isLargestKey s k = .error notFound) ∧
      (∀ ls, layerCells s = .ok ls → ∀ L ∈ ls, hasKey k L = true → contains s k = true) := by
  obtain ⟨ls, hinv⟩ := reachable_inv hr
  obtain ⟨ks, hkeys, _, hno, hyes⟩ := hinv.order_view k
  have hnf : notFound ≠ Exn.logicError what := by
    intro h; exact Exn.noConfusion h
  have hnp : noPredecessor ≠ Exn.logicError what := by
    intro h; exact Exn.noConfusion h
  have hlast : ∀ ls1, layerCells s = .ok ls1 → ∀ L ∈ ls1, hasKey k L = true →
      contains s k = true := by
    intro ls1 hls1 L hL hk
    have : ls1 = ls := (ok_injective (hls1.symm.trans (layerCells_spec hinv)))
    subst this
    obtain ⟨B, hB, hkeysB, _, _, _, hhas, _, _⟩ := hinv.view
    have hany := hinv.shape.tower.any_hasKey k hB
    have : ls1.any (hasKey k) = true := List.any_eq_true.mpr ⟨L, hL, hk⟩
    rw [hany] at this
    exact (contains_iff hkeysB k).mpr ((hhas k).mp this)
  by_cases hk : k ∈ ks
  · obtain ⟨_, hprev, hsm, hlg, _⟩ := hyes hk
    rw [hprev, hsm, hlg]
    refine ⟨orThrow_ne_logicError _ _ _ hnp, fun h => Except.noConfusion h,
      fun h => Except.noConfusion h, ?_, Or.inl ⟨_, rfl⟩, Or.inl ⟨_, rfl⟩, hlast⟩
    rcases orThrow_cases noPredecessor
      ((ks.takeWhile (fun m => decide (m < k))).getLast?) with h | h
    · exact Or.inl h
    · exact Or.inr (Or.inr h)
  · obtain ⟨_, hprev, hsm, hlg, _⟩ := hno hk
    rw [hprev, hsm, hlg]
    refine ⟨fun h => hnf (by injection h), fun h => hnf (by injection h),
      fun h => hnf (by injection h), Or.inr (Or.inl rfl), Or.inr rfl, Or.inr rfl, hlast⟩

/-- C19 on the scenario structure. -/
theorem C19_no_structure_error_witness :
    previousKey scenario 15 = .ok 10 ∧ previousKey scenario 5 = .error noPredecessor ∧
      previousKey scenario 7 = .error notFound ∧
      previousKey scenario 15 ≠ .error (.logicError "Structure error") :=
  ⟨by decide, by decide, by decide,
    (C19_no_structure_error flipCoin scenario scenario_reachable 15 "Structure error").1⟩

end Claims
end SkipList

/-! ## What erase removes -/

namespace SkipList
variable {K V : Type} [LinearOrder K]

theorem delKey_cons (k : K) (c : Cell K V) (L : List (Cell K V)) :
    delKey k (c :: L) = if Cell.is k c = true then delKey k L else c :: delKey k L := by
  cases h : Cell.is k c <;> simp [delKey, List.filter_cons, h]

omit [LinearOrder K] in
theorem entriesOf_cons (c : Cell K V) (L : List (Cell K V)) :
    entriesOf (c :: L) = (if c.keyValid then [(c.key, c.value)] else []) ++ entriesOf L := by
  cases h : c.keyValid <;> simp [entriesOf, List.filter_cons, h]

theorem keysOf_delKey (k : K) (L : List (Cell K V)) :
    keysOf (delKey k L) = (keysOf L).filter (fun m => decide (m ≠ k)) := by
  induction L with
  | nil => rfl
  | cons c L ih =>
    rw [delKey_cons]
    by_cases his : Cell.is k c = true
    · obtain ⟨hv, hk⟩ := is_iff.mp his
      rw [if_pos his, keysOf_cons, hv, ih]
      simp [List.filter_cons, hk]
    · rw [if_neg his, keysOf_cons, keysOf_cons, ih]
      by_cases hv : c.keyValid = true
      · have hk : c.key ≠ k := fun h => his (is_iff.mpr ⟨hv, h⟩)
        simp [hv, List.filter_cons, hk]
      · simp [hv]

theorem entriesOf_delKey (k : K) (L : List (Cell K V)) :
    entriesOf (delKey k L) = (entriesOf L).filter (fun e => decide (e.1 ≠ k)) := by
  induction L with
  | nil => rfl
  | cons c L ih =>
    rw [delKey_cons]
    by_cases his : Cell.is k c = true
    · obtain ⟨hv, hk⟩ := is_iff.mp his
      rw [if_pos his, entriesOf_cons, hv, ih]
      simp [List.filter_cons, hk]
    · rw [if_neg his, entriesOf_cons, entriesOf_cons, ih]
      by_cases hv : c.keyValid = true
      · have hk : c.key ≠ k := fun h => his (is_iff.mpr ⟨hv, h⟩)
        simp [hv, List.filter_cons, hk]
      · simp [hv]

section Claims
variable [Inhabited K] [Inhabited V]

/-- C17: in a reachable structure a successful `erase(k)` of a present key removes the
node of `k` from every layer and nothing else: every layer's chain is the previous chain
with the node of `k` deleted, no layer contains `k` afterwards, `allKeysInOrder()` is the
previous sequence without `k`, `find` returns the same value for every other key, and
`layers()` is unchanged. -/
theorem C17_erase_removes_only_the_key (flip : K → Nat → Bool) (s : SkipList K V)
    (hr : Reachable flip s) (k : K) (hk : contains s k = true) :
    (erase s k).1 = .ok () ∧
      (∃ ls, layerCells s = .ok ls ∧ layerCells (erase s k).2 = .ok (ls.map (delKey k)) ∧
        ∀ L ∈ ls.map (delKey k), hasKey k L = false) ∧
      (∃ ks, allKeysInOrder s = .ok ks ∧
        allKeysInOrder (erase s k).2 = .ok (ks.filter (fun m => decide (m ≠ k)))) ∧
      (∀ k1, k1 ≠ k → contains s k1 = true →
        ∃ w n n1, (find s k1).1 = .ok (w, n) ∧ (find (erase s k).2 k1).1 = .ok (w, n1)) ∧
      layers (erase s k).2 = layers s := by
  obtain ⟨ls, hinv⟩ := reachable_inv hr
  obtain ⟨B, hB, hkeys, _, _, _, hhas, _, hfind⟩ := hinv.view
  obtain ⟨B2, hB2, _, hyes⟩ := erase_spec hinv k
  rw [hB] at hB2
  have : B = B2 := Option.some.inj hB2
  subst this
  obtain ⟨hres, hinv1, _, hht⟩ := hyes ((hhas k).mpr ((contains_iff hkeys k).mp hk))
  obtain ⟨B1, hB1, hkeys1, _, _, _, _, _, hfind1⟩ := hinv1.view
  rw [getLast?_map, hB] at hB1
  have hB1e : delKey k B = B1 := Option.some.inj hB1
  subst hB1e
  refine ⟨hres, ⟨ls, layerCells_spec hinv, layerCells_spec hinv1, ?_⟩,
    ⟨keysOf B, hkeys, by rw [hkeys1, keysOf_delKey]⟩, ?_, hht⟩
  · intro L hL
    obtain ⟨L0, _, rfl⟩ := List.mem_map.mp hL
    exact hasKey_delKey k L0
  · intro k1 hne hc
    have hk1 : k1 ∈ keysOf B := (contains_iff hkeys k1).mp hc
    rw [keysOf_eq_entries] at hk1
    obtain ⟨⟨k2, w⟩, hmem, hk2⟩ := List.mem_map.mp hk1
    simp only at hk2
    subst hk2
    obtain ⟨n, hn⟩ := hfind k2 w hmem
    have hmem1 : (k2, w) ∈ entriesOf (delKey k B) := by
      rw [entriesOf_delKey]
      exact List.mem_filter.mpr ⟨hmem, by simpa using hne⟩
    obtain ⟨n1, hn1⟩ := hfind1 k2 w hmem1
    exact ⟨w, n, n1, by rw [hn], by rw [hn1]⟩

/-- C17 on the scenario structure: erasing key 10. -/
theorem C17_erase_removes_only_the_key_witness :
    contains scenario 10 = true ∧ allKeysInOrder (erase scenario 10).2 = .ok [5, 15, 20] ∧
      towerOf scenario 10 = .ok 1 ∧ towerOf (erase scenario 10).2 10 = .ok 0 ∧
      layers (erase scenario 10).2 = layers scenario :=
  ⟨by decide, by decide, by decide, by decide,
    (C17_erase_removes_only_the_key flipCoin scenario scenario_reachable 10 (by decide)).2.2.2.2⟩

end Claims
end SkipList

/-! ## The layers insert adds -/

namespace SkipList
variable {K V : Type} [LinearOrder K] [Inhabited K] [Inhabited V]


/-- The loop that adds top layers puts `count` layers on top, each made of one sentinel
and nothing else. -/
theorem growLayers_sentinels (key : K) (count : Nat) :
    ∀ (s : SkipList K V) (ls : List (List (Cell K V))), Inv s ls →
      ∃ tops, Inv (growLayers count s (predAddrs key ls)).1 (tops ++ ls) ∧
        (growLayers count s (predAddrs key ls)).2 = predAddrs key (tops ++ ls) ∧
        tops.length = count ∧
        (∀ T ∈ tops, ∃ c : Cell K V, T = [c] ∧ c.keyValid = false) ∧
        (growLayers count s (predAddrs key ls)).1.size_ = s.size_ ∧
        (growLayers count s (predAddrs key ls)).1.height_ = s.height_ + count := by
  induction count with
  | zero =>
    intro s ls hinv
    exact ⟨[], by simpa [growLayers] using hinv, by simp [growLayers], rfl, by simp, rfl, rfl⟩
  | succ g ih =>
    intro s ls hinv
    have hinv2 := addEmptyTopLayer_inv hinv
    have hp : s.next :: predAddrs key ls = predAddrs key ([topCell s] :: ls) := by
      rw [predAddrs_cons (@predOf_single _ _ _ key (topCell s) rfl)]
      rfl
    obtain ⟨tops, h1, h2, h3, h4, h5, h6⟩ := ih (addEmptyTopLayer s) ([topCell s] :: ls) hinv2
    refine ⟨tops ++ [[topCell s]], ?_, ?_, ?_, ?_, ?_, ?_⟩
    · simp only [growLayers, hp]
      simpa using h1
    · simp only [growLayers, hp]
      simpa using h2
    · simp [h3]
    · intro T hT
      rcases List.mem_append.mp hT with hT | hT
      · exact h4 T hT
      · simp at hT; subst hT; exact ⟨topCell s, rfl, rfl⟩
    · simp only [growLayers, hp]
      rw [h5]; rfl
    · simp only [growLayers, hp]
      rw [h6]
      simp [addEmptyTopLayer]
      omega

/-- Source `insert` of an absent key, with the visited count and the added layers made
explicit: the count is the one `collectPredecessors` returns, and every layer of `tops`
is one sentinel. -/
theorem insert_layers (flip : K → Nat → Bool) {s : SkipList K V} {ls : List (List (Cell K V))}
    (hinv : Inv s ls) (key : K) (value : V) {B : List (Cell K V)}
    (hB : ls.getLast? = some B) (hk : hasKey key B = false) :
    ∃ visited tops n1,
      collectPredecessors s key 0 = .ok (predAddrs key ls, visited) ∧
      (insert flip s key value).1 = .ok (some visited) ∧
      tops.length = towerLevelsFor flip s key + 1 - s.height_ ∧
      (∀ T ∈ tops, ∃ c : Cell K V, T = [c] ∧ c.keyValid = false) ∧
      Inv (insert flip s key value).2
        ((raise key (towerLevelsFor flip s key - 1) n1 (n1 + 1)
            (tops ++ ls).dropLast.reverse).reverse ++
          [insCell key (Cell.ofNode n1 (bottomNodeOf key value)) B]) ∧
      (insert flip s key value).2.size_ = s.size_ + 1 ∧
      (insert flip s key value).2.height_ =
        s.height_ + (towerLevelsFor flip s key + 1 - s.height_) := by
  obtain ⟨visited, hcol⟩ := collectPredecessors_spec hinv key 0
  obtain ⟨hlast, hris⟩ := predAddr_last hinv hB key
  have hsz : B.length = s.size_ + 1 := by
    obtain ⟨B0, hB0, hsz0, _⟩ := hinv.bottom_layer
    rw [hB] at hB0
    rw [Option.some.inj hB0]; exact hsz0
  rw [hk] at hris
  have hlsne : ls ≠ [] := by intro h; rw [h] at hB; simp at hB
  obtain ⟨tops, hinv1, hpreds1, hlen, hsent, hsz1, hht1⟩ :=
    growLayers_sentinels key (towerLevelsFor flip s key + 1 - s.height_) s ls hinv
  have hno : ∀ T ∈ tops, hasKey key T = false := by
    intro T hT
    obtain ⟨c, hc, hv⟩ := hsent T hT
    rw [hc]; exact hasKey_single hv
  generalize hg : growLayers (towerLevelsFor flip s key + 1 - s.height_) s (predAddrs key ls)
    = grown at hinv1 hpreds1 hsz1 hht1
  have hB1 : (tops ++ ls).getLast? = some B := by
    rw [List.getLast?_append_of_ne_nil _ hlsne]; exact hB
  have hsplit : (tops ++ ls).dropLast ++ [B] = tops ++ ls :=
    List.dropLast_append_getLast? B hB1
  have hsh1 : Shape grown.1.mem grown.1.next ((tops ++ ls).dropLast ++ [B]) := by
    rw [hsplit]; exact hinv1.shape
  obtain ⟨mem1, hlink, hs1, _⟩ := insert_layer key (bottomNodeOf key value) hsh1 rfl rfl hk
    (fun _ => rfl) (by intro M hM; simp at hM)
  have hnoall : ∀ L ∈ (tops ++ ls).dropLast.reverse, hasKey key L = false := by
    intro L hL
    have hL2 : L ∈ tops ++ ls := by
      rw [← hsplit]; exact List.mem_append_left _ (List.mem_reverse.mp hL)
    rcases List.mem_append.mp hL2 with hL3 | hL3
    · exact hno L hL3
    · have hany := hinv.shape.tower.any_hasKey key hB
      rw [hk, List.any_eq_false] at hany
      simpa using hany L hL3
  obtain ⟨mem2, n2, hbt, hs2⟩ := buildTower_spec key (towerLevelsFor flip s key)
    (tops ++ ls).dropLast.reverse
    [insCell key (Cell.ofNode grown.1.next (bottomNodeOf key value)) B] 1 grown.1.next mem1
    (grown.1.next + 1) (by simpa using hs1) hnoall
    ⟨_, Cell.ofNode grown.1.next (bottomNodeOf key value), rfl,
      mem_insCell.mpr (Or.inl rfl), rfl, rfl, rfl⟩
  have hpd : grown.2.dropLast.reverse = predAddrs key (tops ++ ls).dropLast.reverse := by
    rw [hpreds1]
    conv_lhs => rw [← hsplit]
    simp [predAddrs]
  have hres : insert flip s key value = (.ok (some visited),
      { grown.1 with mem := mem2, next := n2, size_ := grown.1.size_ + 1 }) := by
    simp only [insert, hcol, hlast, hris]
    have ht : towerLoop flip key (layerLimit (s.size_ + 1) - 1) 1 = towerLevelsFor flip s key :=
      rfl
    simp only [ht, hg, hlink, hpd, hbt]
  rw [hres]
  refine ⟨visited, tops, grown.1.next, hcol, rfl, hlen, hsent, ?_, ?_, ?_⟩
  · have hcons1 := hinv1.cons
    obtain ⟨hd1, rest1, hls1, htop1, hhv1, hrest1⟩ := hcons1
    have hup : (tops ++ ls).dropLast = [hd1] :: rest1.dropLast := by
      rw [hls1]
      cases rest1 with
      | nil => exact absurd rfl hrest1
      | cons M r => rfl
    have hlen1 : (tops ++ ls).length = grown.1.height_ := hinv1.height.symm
    have hlen2 : ((tops ++ ls).dropLast).length + 1 = (tops ++ ls).length := by
      rw [← hsplit]; simp
    have hheight : s.height_ = ls.length := hinv.height
    have htwo := hinv.two
    have hcount : towerLevelsFor flip s key - 1 < (tops ++ ls).dropLast.reverse.length := by
      rw [List.length_reverse]
      omega
    refine ⟨hs2, ?_, ?_, ?_, ?_⟩
    · refine ⟨hd1, ?_, htop1⟩
      have hne : (raise key (towerLevelsFor flip s key - 1) grown.1.next (grown.1.next + 1)
          (tops ++ ls).dropLast.reverse).reverse ≠ [] := by
        intro h
        have := congrArg List.length h
        rw [List.length_reverse, raise_length, List.length_reverse] at this
        rw [hup] at this
        simp at this
      rw [List.head?_append_of_ne_nil _ hne, List.head?_reverse,
        raise_getLast? _ _ _ _ _ hcount, List.getLast?_reverse, hup]
      rfl
    · simp only [List.length_append, List.length_reverse, raise_length, List.length_cons,
        List.length_nil]
      omega
    · simp only [List.length_append, List.length_reverse, raise_length, List.length_cons,
        List.length_nil]
      omega
    · refine ⟨insCell key (Cell.ofNode grown.1.next (bottomNodeOf key value)) B, by simp, ?_⟩
      rw [(insCell_perm key _ B).length_eq]
      simp only [List.length_cons]
      omega
  · simp only
    omega
  · exact hht1


end SkipList

/-! ## The tower that insert builds -/

namespace SkipList
variable {K V : Type} [LinearOrder K]

theorem hasKey_insCell (key k : K) (c : Cell K V) (L : List (Cell K V)) :
    hasKey k (insCell key c L) = (c.is k || hasKey k L) := by
  have h : hasKey k L = ((L.takeWhile (Cell.below key)).any (Cell.is k) ||
      (L.dropWhile (Cell.below key)).any (Cell.is k)) := by
    rw [hasKey, ← List.any_append, List.takeWhile_append_dropWhile]
  rw [h, hasKey, insCell, List.any_append, List.any_cons]
  cases (L.takeWhile (Cell.below key)).any (Cell.is k) <;> cases c.is k <;> simp

omit [LinearOrder K] in
/-- The height loop of `insert` stops at the first false flip or when the gap to the limit
is used up, and every flip before that was true. -/
theorem towerLoop_spec (flip : K → Nat → Bool) (key : K) :
    ∀ gap start, start ≤ towerLoop flip key gap start ∧
      towerLoop flip key gap start ≤ start + gap ∧
      (towerLoop flip key gap start = start + gap ∨
        flip key (towerLoop flip key gap start - 1) = false) ∧
      ∀ h, start ≤ h → h < towerLoop flip key gap start → flip key (h - 1) = true := by
  intro gap
  induction gap with
  | zero =>
    intro start
    refine ⟨Nat.le_refl _, Nat.le_refl _, Or.inl rfl, ?_⟩
    intro h h1 h2
    simp only [towerLoop] at h2
    omega
  | succ g ih =>
    intro start
    cases hf : flip key (start - 1) with
    | false =>
      have he : towerLoop flip key (g + 1) start = start := by simp [towerLoop, hf]
      rw [he]
      refine ⟨Nat.le_refl _, by omega, Or.inr hf, ?_⟩
      intro h h1 h2
      omega
    | true =>
      obtain ⟨h1, h2, h3, h4⟩ := ih (start + 1)
      have he : towerLoop flip key (g + 1) start = towerLoop flip key g (start + 1) := by
        simp [towerLoop, hf]
      rw [he]
      refine ⟨by omega, by omega, ?_, ?_⟩
      · rcases h3 with h3 | h3
        · left; omega
        · right; exact h3
      · intro h hs hlt
        rcases Nat.eq_or_lt_of_le hs with he | hgt
        · rw [← he]; exact hf
        · exact h4 h hgt hlt

omit [LinearOrder K] in
/-- The tower height `insert` settles on is the least `h ≥ 1` that reaches the limit for
the size after the insert or whose flip (with `h - 1` flips before it) is false. -/
theorem towerLevelsFor_least (flip : K → Nat → Bool) (s : SkipList K V) (key : K) :
    1 ≤ towerLevelsFor flip s key ∧ towerLevelsFor flip s key ≤ layerLimit (s.size_ + 1) ∧
      (towerLevelsFor flip s key = layerLimit (s.size_ + 1) ∨
        flip key (towerLevelsFor flip s key - 1) = false) ∧
      ∀ h, 1 ≤ h → h < towerLevelsFor flip s key →
        h ≠ layerLimit (s.size_ + 1) ∧ flip key (h - 1) = true := by
  obtain ⟨h1, h2, h3, h4⟩ := towerLoop_spec flip key (layerLimit (s.size_ + 1) - 1) 1
  have hpos := layerLimit_pos (s.size_ + 1)
  rw [towerLevelsFor]
  refine ⟨h1, by omega, ?_, ?_⟩
  · rcases h3 with h3 | h3
    · left; omega
    · right; exact h3
  · intro h hh hlt
    exact ⟨by omega, h4 h hh hlt⟩

section Raise
variable [Inhabited V]

/-- Layer `j` of `raise`: the old layer, with an upper node of `key` in it if `j < count`. -/
theorem raise_layer (key : K) :
    ∀ (rem : List (List (Cell K V))) (count below next j : Nat) (M : List (Cell K V)),
      (raise key count below next rem)[j]? = some M →
      ∃ L c, rem[j]? = some L ∧ Cell.is key c = true ∧ c.hasValue = false ∧
        M = if j < count then insCell key c L else L := by
  intro rem
  induction rem with
  | nil =>
    intro count below next j M h
    rw [raise_nil] at h
    simp at h
  | cons L0 rem ih =>
    intro count below next j M h
    cases count with
    | zero =>
      refine ⟨M, Cell.ofNode 0 (upperNodeOf key 0), h, ?_, rfl, ?_⟩
      · simp [Cell.is, Cell.ofNode, upperNodeOf]
      · simp
    | succ c =>
      simp only [raise] at h
      cases j with
      | zero =>
        simp only [List.getElem?_cons_zero, Option.some.injEq] at h
        refine ⟨L0, Cell.ofNode next (upperNodeOf key below), by simp, ?_, rfl, ?_⟩
        · simp [Cell.is, Cell.ofNode, upperNodeOf]
        · simp [h]
      | succ j =>
        simp only [List.getElem?_cons_succ] at h
        obtain ⟨L, c1, h1, h2, h3, h4⟩ := ih c next (next + 1) j M h
        refine ⟨L, c1, by simpa using h1, h2, h3, ?_⟩
        rw [h4]
        by_cases hj : j < c
        · rw [if_pos hj, if_pos (by omega)]
        · rw [if_neg hj, if_neg (by omega)]

/-- Raising the tower of `key` leaves the layers of every other key as they were. -/
theorem countP_raise_other (key k : K) (hne : k ≠ key) :
    ∀ (rem : List (List (Cell K V))) (count below next : Nat),
      (raise key count below next rem).countP (hasKey k) = rem.countP (hasKey k) := by
  intro rem
  induction rem with
  | nil => intro count below next; rw [raise_nil]
  | cons L rem ih =>
    intro count below next
    cases count with
    | zero => rfl
    | succ c =>
      have hc : Cell.is k (Cell.ofNode next (upperNodeOf key below) : Cell K V) = false := by
        simp [Cell.is, Cell.ofNode, upperNodeOf, Ne.symm hne]
      simp only [raise, List.countP_cons, ih, hasKey_insCell, hc, Bool.false_or]

/-- Raising the tower of `key` through layers without it puts it into `count` of them. -/
theorem countP_raise_key (key : K) :
    ∀ (rem : List (List (Cell K V))) (count below next : Nat),
      (∀ L ∈ rem, hasKey key L = false) → count ≤ rem.length →
      (raise key count below next rem).countP (hasKey key) = count := by
  intro rem
  induction rem with
  | nil =>
    intro count below next _ hc
    rw [raise_nil]
    simp at hc
    simp [hc]
  | cons L rem ih =>
    intro count below next hno hc
    cases count with
    | zero =>
      simp only [raise]
      rw [List.countP_eq_zero]
      intro M hM
      simp [hno M hM]
    | succ c =>
      have hcell : Cell.is key (Cell.ofNode next (upperNodeOf key below) : Cell K V) = true := by
        simp [Cell.is, Cell.ofNode, upperNodeOf]
      simp only [raise, List.countP_cons, hasKey_insCell, hcell, Bool.true_or, if_true]
      rw [ih c next (next + 1) (fun M hM => hno M (List.mem_cons_of_mem _ hM))
        (by simp at hc; omega)]

end Raise

end SkipList

/-! ## The layers of a new key -/

namespace SkipList
variable {K V : Type} [LinearOrder K] [Inhabited K] [Inhabited V]

/-- Source `insert` of a key that `contains` reports absent: the facts of `insert_layers`
together with the bottom layer and the absence of the key from every old and added layer. -/
theorem insert_absent (flip : K → Nat → Bool) {s : SkipList K V}
    {ls : List (List (Cell K V))} (hinv : Inv s ls) (key : K) (value : V)
    (hno : contains s key = false) :
    ∃ visited tops n1 B,
      ls.getLast? = some B ∧ hasKey key B = false ∧
      allKeysInOrder s = .ok (keysOf B) ∧
      (tops ++ ls).dropLast ++ [B] = tops ++ ls ∧
      (∀ L ∈ tops ++ ls, hasKey key L = false) ∧
      collectPredecessors s key 0 = .ok (predAddrs key ls, visited) ∧
      (insert flip s key value).1 = .ok (some visited) ∧
      tops.length = towerLevelsFor flip s key + 1 - s.height_ ∧
      (∀ T ∈ tops, ∃ c : Cell K V, T = [c] ∧ c.keyValid = false) ∧
      Inv (insert flip s key value).2
        ((raise key (towerLevelsFor flip s key - 1) n1 (n1 + 1)
            (tops ++ ls).dropLast.reverse).reverse ++
          [insCell key (Cell.ofNode n1 (bottomNodeOf key value)) B]) ∧
      (insert flip s key value).2.size_ = s.size_ + 1 ∧
      (insert flip s key value).2.height_ =
        s.height_ + (towerLevelsFor flip s key + 1 - s.height_) := by
  obtain ⟨B, hB, hkeys, _, _, _, hhas, _, _⟩ := hinv.view
  have hk : hasKey key B = false := by
    have h1 := (contains_false_iff hkeys key).mp hno
    cases h : hasKey key B with
    | false => rfl
    | true => exact absurd ((hhas key).mp h) h1
  obtain ⟨visited, tops, n1, h1, h2, h3, h4, h5, h6, h7⟩ :=
    insert_layers flip hinv key value hB hk
  have hlsne : ls ≠ [] := by intro h; rw [h] at hB; simp at hB
  have hB1 : (tops ++ ls).getLast? = some B := by
    rw [List.getLast?_append_of_ne_nil _ hlsne]; exact hB
  refine ⟨visited, tops, n1, B, hB, hk, hkeys, List.dropLast_append_getLast? B hB1, ?_,
    h1, h2, h3, h4, h5, h6, h7⟩
  intro L hL
  rcases List.mem_append.mp hL with hL3 | hL3
  · obtain ⟨c, hc, hv⟩ := h4 L hL3
    rw [hc]; exact hasKey_single hv
  · have hany := hinv.shape.tower.any_hasKey key hB
    rw [hk, List.any_eq_false] at hany
    simpa using hany L hL3

omit [Inhabited K] in
/-- The number of layers that hold `k` after the tower of another key was put in. -/
theorem countP_layers_other (key k : K) (hne : k ≠ key) (count below next : Nat)
    (c0 : Cell K V) (hc0 : c0.is k = false) (X : List (List (Cell K V)))
    (B : List (Cell K V)) (hX : X.dropLast ++ [B] = X) :
    ((raise key count below next X.dropLast.reverse).reverse ++ [insCell key c0 B]).countP
      (hasKey k) = X.countP (hasKey k) := by
  rw [List.countP_append, List.countP_reverse, countP_raise_other key k hne,
    List.countP_reverse]
  conv_rhs => rw [← hX, List.countP_append]
  simp only [List.countP_cons, List.countP_nil, hasKey_insCell, hc0, Bool.false_or]

omit [Inhabited K] in
/-- The number of layers that hold `key` after its tower was put in. -/
theorem countP_layers_key (key : K) (count below next : Nat)
    (c0 : Cell K V) (hc0 : c0.is key = true) (X : List (List (Cell K V)))
    (B : List (Cell K V)) (hno : ∀ L ∈ X.dropLast, hasKey key L = false)
    (hc : count ≤ X.dropLast.length) :
    ((raise key count below next X.dropLast.reverse).reverse ++ [insCell key c0 B]).countP
      (hasKey key) = count + 1 := by
  rw [List.countP_append, List.countP_reverse, countP_raise_key key _ _ _ _
    (fun L hL => hno L (List.mem_reverse.mp hL)) (by simpa using hc)]
  simp [hasKey_insCell, hc0]

/-- C14: on a reachable structure, a successful `insert(k, v)` of an absent key puts `k`
into exactly the layers `0 .. t-1` (layer 0 the bottom one), where `t` is the least
`h ≥ 1` with `h = layerLimit(size + 1)` or `flip(k, h - 1)` false; the node of `k` in
layer 0 carries the value `v`, the nodes above carry none. -/
theorem C14_insert_tower_layers (flip : K → Nat → Bool) (s : SkipList K V)
    (hr : Reachable flip s) (k : K) (v : V) (hk : contains s k = false) :
    ∃ visited t ls,
      (insert flip s k v).1 = .ok (some visited) ∧
      1 ≤ t ∧ (t = layerLimit (size s + 1) ∨ flip k (t - 1) = false) ∧
      (∀ h, 1 ≤ h → h < t → h ≠ layerLimit (size s + 1) ∧ flip k (h - 1) = true) ∧
      layerCells (insert flip s k v).2 = .ok ls ∧ t < ls.length ∧
      towerOf (insert flip s k v).2 k = .ok t ∧
      (∀ i L, ls.reverse[i]? = some L → (hasKey k L = true ↔ i < t)) ∧
      (∀ i L c, ls.reverse[i]? = some L → c ∈ L → Cell.is k c = true →
        (c.hasValue = true ↔ i = 0) ∧ (i = 0 → c.value = v)) := by
  obtain ⟨ls, hinv⟩ := reachable_inv hr
  obtain ⟨visited, tops, n1, B, hB, hkB, _, hsplit, hnoall, _, hres, hlen, _, hinv2, _, _⟩ :=
    insert_absent flip hinv k v hk
  obtain ⟨ht1, _, ht2, ht3⟩ := towerLevelsFor_least flip s k
  have hheight : s.height_ = ls.length := hinv.height
  have htwo := hinv.two
  have hlen2 : (tops ++ ls).dropLast.length + 1 = tops.length + ls.length := by
    have := congrArg List.length hsplit
    simpa using this
  have hnodrop : ∀ L ∈ (tops ++ ls).dropLast, hasKey k L = false := by
    intro L hL
    exact hnoall L (by rw [← hsplit]; exact List.mem_append_left _ hL)
  have hc0 : Cell.is k (Cell.ofNode n1 (bottomNodeOf k v) : Cell K V) = true := by
    simp [Cell.is, Cell.ofNode, bottomNodeOf]
  have hrev : ((raise k (towerLevelsFor flip s k - 1) n1 (n1 + 1)
      (tops ++ ls).dropLast.reverse).reverse ++
        [insCell k (Cell.ofNode n1 (bottomNodeOf k v)) B]).reverse =
      insCell k (Cell.ofNode n1 (bottomNodeOf k v)) B ::
        raise k (towerLevelsFor flip s k - 1) n1 (n1 + 1) (tops ++ ls).dropLast.reverse := by
    simp
  refine ⟨visited, towerLevelsFor flip s k, _, hres, ht1, ht2, ht3, layerCells_spec hinv2,
    ?_, ?_, ?_, ?_⟩
  · simp only [List.length_append, List.length_reverse, raise_length, List.length_cons,
      List.length_nil]
    omega
  · rw [towerOf_spec hinv2 k, countP_layers_key k _ _ _ _ hc0 _ _ hnodrop (by omega)]
    congr 1
    omega
  · intro i L hL
    rw [hrev] at hL
    cases i with
    | zero =>
      simp only [List.getElem?_cons_zero, Option.some.injEq] at hL
      rw [← hL, hasKey_insCell, hc0]
      simp
      omega
    | succ j =>
      simp only [List.getElem?_cons_succ] at hL
      obtain ⟨L0, c1, h1, h2, _, h4⟩ := raise_layer k _ _ _ _ j L hL
      have hL0 : hasKey k L0 = false :=
        hnodrop L0 (List.mem_reverse.mp (List.getElem?_mem h1))
      rw [h4]
      by_cases hj : j < towerLevelsFor flip s k - 1
      · rw [if_pos hj, hasKey_insCell, h2]
        simp
        omega
      · rw [if_neg hj, hL0]
        simp
        omega
  · intro i L c hL hc hcis
    rw [hrev] at hL
    cases i with
    | zero =>
      simp only [List.getElem?_cons_zero, Option.some.injEq] at hL
      rw [← hL] at hc
      rcases mem_insCell.mp hc with h | h
      · rw [h]
        exact ⟨by simp [Cell.ofNode, bottomNodeOf], fun _ => rfl⟩
      · have := hasKey_of_mem h hcis
        rw [hkB] at this
        exact absurd this (by simp)
    | succ j =>
      simp only [List.getElem?_cons_succ] at hL
      obtain ⟨L0, c1, h1, _, h3, h4⟩ := raise_layer k _ _ _ _ j L hL
      have hL0 : hasKey k L0 = false :=
        hnodrop L0 (List.mem_reverse.mp (List.getElem?_mem h1))
      have hcases : c = c1 ∨ c ∈ L0 := by
        rw [h4] at hc
        by_cases hj : j < towerLevelsFor flip s k - 1
        · rw [if_pos hj] at hc; exact mem_insCell.mp hc
        · rw [if_neg hj] at hc; exact Or.inr hc
      rcases hcases with h | h
      · rw [h, h3]
        simp
      · have := hasKey_of_mem h hcis
        rw [hL0] at this
        exact absurd this (by simp)

/-- C14 on the scenario structure: the absent key 7, whose first three flips are true and
whose fourth is false, is put into layers 0 to 3. -/
theorem C14_insert_tower_layers_witness :
    contains scenario 7 = false ∧ towerOf (insert flipCoin scenario 7 70).2 7 = .ok 4 ∧
      ∃ visited t ls,
        (insert flipCoin scenario 7 70).1 = .ok (some visited) ∧
        1 ≤ t ∧ (t = layerLimit (size scenario + 1) ∨ flipCoin 7 (t - 1) = false) ∧
        (∀ h, 1 ≤ h → h < t →
          h ≠ layerLimit (size scenario + 1) ∧ flipCoin 7 (h - 1) = true) ∧
        layerCells (insert flipCoin scenario 7 70).2 = .ok ls ∧ t < ls.length ∧
        towerOf (insert flipCoin scenario 7 70).2 7 = .ok t ∧
        (∀ i L, ls.reverse[i]? = some L → (hasKey 7 L = true ↔ i < t)) ∧
        (∀ i L c, ls.reverse[i]? = some L → c ∈ L → Cell.is 7 c = true →
          (c.hasValue = true ↔ i = 0) ∧ (i = 0 → c.value = 70)) :=
  ⟨by decide, by decide,
    C14_insert_tower_layers flipCoin scenario scenario_reachable 7 70 (by decide)⟩

end SkipList

/-! ## Tower heights against the layer limit -/

namespace SkipList
variable {K V : Type} [LinearOrder K] [Inhabited K] [Inhabited V]

omit [Inhabited K] [Inhabited V] in
theorem hasKey_of_delKey {key k : K} {L : List (Cell K V)}
    (h : hasKey k (delKey key L) = true) : hasKey k L = true := by
  obtain ⟨c, hc, hcis⟩ := hasKey_iff.mp h
  exact hasKey_of_mem (List.mem_of_mem_filter hc) hcis

theorem ReachedWithPeak.reachable {flip : K → Nat → Bool} {s : SkipList K V} {peak : Nat}
    (h : ReachedWithPeak flip s peak) : Reachable flip s := by
  induction h with
  | fresh => exact Reachable.fresh
  | insert s peak key value _ ih => exact Reachable.insert s key value ih
  | erase s peak key _ ih => exact Reachable.erase s key ih

/-- Every reachable structure has a largest size on the way to it. -/
theorem reachable_peak {flip : K → Nat → Bool} {s : SkipList K V} (h : Reachable flip s) :
    ∃ peak, ReachedWithPeak flip s peak := by
  induction h with
  | fresh => exact ⟨0, ReachedWithPeak.fresh⟩
  | insert s key value _ ih =>
    obtain ⟨p, hp⟩ := ih
    exact ⟨_, ReachedWithPeak.insert s p key value hp⟩
  | erase s key _ ih =>
    obtain ⟨p, hp⟩ := ih
    exact ⟨_, ReachedWithPeak.erase s p key hp⟩

/-- An `insert` never makes a well-formed structure smaller. -/
theorem insert_size_le (flip : K → Nat → Bool) {s : SkipList K V}
    {ls : List (List (Cell K V))} (hinv : Inv s ls) (key : K) (value : V) :
    s.size_ ≤ (insert flip s key value).2.size_ := by
  obtain ⟨B, _, hyes, hno⟩ := insert_spec flip hinv key value
  cases hk : hasKey key B with
  | true => rw [hyes hk]
  | false =>
    obtain ⟨_, _, _, _, _, _, _, hsz, _⟩ := hno hk
    omega

/-- While only inserts are made, the largest size so far is the current size. -/
theorem insertAll_peak (flip : K → Nat → Bool) (kvs : List (K × V)) :
    ∀ s : SkipList K V, ReachedWithPeak flip s s.size_ →
      ReachedWithPeak flip (insertAll flip s kvs).2 (insertAll flip s kvs).2.size_ := by
  induction kvs with
  | nil => intro s h; exact h
  | cons kv rest ih =>
    intro s h
    obtain ⟨k, v⟩ := kv
    obtain ⟨ls, hinv⟩ := reachable_inv h.reachable
    have hstep := ReachedWithPeak.insert s s.size_ k v h
    rw [Nat.max_eq_right (insert_size_le flip hinv k v)] at hstep
    exact ih _ hstep

/-- One `insert` keeps every tower within the limit for the largest size so far. -/
theorem insert_towers (flip : K → Nat → Bool) {s : SkipList K V}
    {ls : List (List (Cell K V))} (hinv : Inv s ls) (key : K) (value : V) (peak : Nat)
    (hall : ∀ k, ls.countP (hasKey k) ≤ layerLimit peak) :
    ∃ ls1, Inv (insert flip s key value).2 ls1 ∧
      (insert flip s key value).2.size_ ≤ max peak (insert flip s key value).2.size_ ∧
      ∀ k, ls1.countP (hasKey k) ≤
        layerLimit (max peak (insert flip s key value).2.size_) := by
  rcases insert_outcome flip hinv key value with ⟨_, hsame⟩ | ⟨hno, _⟩
  · rw [hsame]
    refine ⟨ls, hinv, Nat.le_max_right _ _, fun k => ?_⟩
    exact Nat.le_trans (hall k) (layerLimit_mono (Nat.le_max_left _ _))
  · obtain ⟨_, tops, n1, B, _, _, _, hsplit, hnoall, _, _, hlen, hsent, hinv2, hsize, _⟩ :=
      insert_absent flip hinv key value hno
    obtain ⟨ht1, ht2, _, _⟩ := towerLevelsFor_least flip s key
    refine ⟨_, hinv2, Nat.le_max_right _ _, fun k => ?_⟩
    by_cases hk : k = key
    · subst hk
      have hheight : s.height_ = ls.length := hinv.height
      have htwo := hinv.two
      have hlen2 : (tops ++ ls).dropLast.length + 1 = tops.length + ls.length := by
        have := congrArg List.length hsplit
        simpa using this
      rw [countP_layers_key k _ _ _ _ (by simp [Cell.is, Cell.ofNode, bottomNodeOf]) _ _
        (fun L hL => hnoall L (by rw [← hsplit]; exact List.mem_append_left _ hL))
        (by omega)]
      have h1 : towerLevelsFor flip s k - 1 + 1 = towerLevelsFor flip s k := by omega
      rw [h1]
      refine Nat.le_trans ht2 (layerLimit_mono ?_)
      rw [hsize]
      exact Nat.le_max_right _ _
    · have hc0 : Cell.is k (Cell.ofNode n1 (bottomNodeOf key value) : Cell K V) = false := by
        simp [Cell.is, Cell.ofNode, bottomNodeOf, Ne.symm hk]
      rw [countP_layers_other key k hk _ _ _ _ hc0 _ _ hsplit, List.countP_append]
      have htops : tops.countP (hasKey k) = 0 := by
        rw [List.countP_eq_zero]
        intro T hT
        obtain ⟨c, hc, hv⟩ := hsent T hT
        rw [hc, hasKey_single hv]
        simp
      rw [htops, Nat.zero_add]
      exact Nat.le_trans (hall k) (layerLimit_mono (Nat.le_max_left _ _))

omit [Inhabited K] [Inhabited V] in
/-- One `erase` makes no tower higher. -/
theorem erase_towers {s : SkipList K V} {ls : List (List (Cell K V))} (hinv : Inv s ls)
    (key : K) (peak : Nat) (hsz : s.size_ ≤ peak)
    (hall : ∀ k, ls.countP (hasKey k) ≤ layerLimit peak) :
    ∃ ls1, Inv (erase s key).2 ls1 ∧ (erase s key).2.size_ ≤ peak ∧
      ∀ k, ls1.countP (hasKey k) ≤ layerLimit peak := by
  obtain ⟨B, _, hno, hyes⟩ := erase_spec hinv key
  cases hk : hasKey key B with
  | false =>
    rw [hno hk]
    exact ⟨ls, hinv, hsz, hall⟩
  | true =>
    obtain ⟨_, hinv2, hsize, _⟩ := hyes hk
    refine ⟨_, hinv2, by omega, fun k => ?_⟩
    rw [List.countP_map]
    refine Nat.le_trans (List.countP_mono_left ?_) (hall k)
    intro L _ h
    exact hasKey_of_delKey h

/-- In every reachable structure the size is at most the largest size so far, and every
tower is within the layer limit for that largest size. -/
theorem reachedWithPeak_towers {flip : K → Nat → Bool} {s : SkipList K V} {peak : Nat}
    (h : ReachedWithPeak flip s peak) :
    ∃ ls, Inv s ls ∧ s.size_ ≤ peak ∧ ∀ k, ls.countP (hasKey k) ≤ layerLimit peak := by
  induction h with
  | fresh =>
    refine ⟨_, create_inv, Nat.le_refl _, fun k => ?_⟩
    have h0 : List.countP (hasKey k)
        [[Cell.ofNode 0 { (sentinel : Node K V) with down := some 1 }],
          [Cell.ofNode 1 (sentinel : Node K V)]] = 0 := by
      rw [List.countP_eq_zero]
      intro T hT
      simp only [List.mem_cons, List.mem_singleton, List.not_mem_nil, or_false] at hT
      rcases hT with rfl | rfl <;> simp [hasKey, Cell.is, Cell.ofNode, sentinel]
    rw [h0]
    exact Nat.zero_le _
  | insert s peak key value _ ih =>
    obtain ⟨ls, hinv, _, hall⟩ := ih
    exact insert_towers flip hinv key value peak hall
  | erase s peak key _ ih =>
    obtain ⟨ls, hinv, hsz, hall⟩ := ih
    exact erase_towers hinv key peak hsz hall

theorem atPeak_reached : ReachedWithPeak flipCoin atPeak 17 :=
  insertAll_peak flipCoin peakPairs SkipList.create ReachedWithPeak.fresh

/-- C16, counterexample: `afterPeak`, reached by the seventeen inserts of `peakPairs` and
`erase(1)`, has 16 keys, so `layerLimit(size())` is 13, but key 255 is present with a
tower of 16 layers. -/
theorem C16_tower_above_limit_after_erase :
    Reachable flipCoin afterPeak ∧ contains afterPeak 255 = true ∧ size afterPeak = 16 ∧
      layerLimit (size afterPeak) = 13 ∧ towerOf afterPeak 255 = .ok 16 ∧
      ¬ (∃ t, towerOf afterPeak 255 = .ok t ∧ t ≤ layerLimit (size afterPeak)) := by
  have ht : towerOf afterPeak 255 = .ok 16 := by decide
  have hl : layerLimit (size afterPeak) = 13 := by decide
  refine ⟨Reachable.erase _ 1 (reachable_insertAll flipCoin peakPairs _ Reachable.fresh),
    by decide, by decide, hl, ht, ?_⟩
  rintro ⟨t, h1, h2⟩
  rw [ht] at h1
  have h3 : 16 = t := ok_injective h1
  rw [hl] at h2
  omega

/-- C16, amended: in every state reachable by inserts and erases, with `peak` the largest
value `size()` has had on the way, `size()` is at most `peak` and the tower of every
present key has at least one and at most `layerLimit(peak)` levels. -/
theorem C16_tower_at_most_peak_limit (flip : K → Nat → Bool) (s : SkipList K V) (peak : Nat)
    (hr : ReachedWithPeak flip s peak) (k : K) (hk : contains s k = true) :
    size s ≤ peak ∧ ∃ t, towerOf s k = .ok t ∧ 1 ≤ t ∧ t ≤ layerLimit peak := by
  obtain ⟨ls, hinv, hsz, hall⟩ := reachedWithPeak_towers hr
  obtain ⟨B, hB, hkeys, _, _, _, hhas, _, _⟩ := hinv.view
  have hkB : hasKey k B = true := (hhas k).mpr ((contains_iff hkeys k).mp hk)
  refine ⟨hsz, _, towerOf_spec hinv k, ?_, hall k⟩
  exact List.countP_pos_iff.mpr ⟨B, List.mem_of_mem_getLast? hB, hkB⟩

/-- C16 amended, on the structure of the counterexample: the largest size was 17, and the
tower of key 255 is within `layerLimit(17) = 16`. -/
theorem C16_tower_at_most_peak_limit_witness :
    contains afterPeak 255 = true ∧ layerLimit 17 = 16 ∧
      (size afterPeak ≤ 17 ∧
        ∃ t, towerOf afterPeak 255 = .ok t ∧ 1 ≤ t ∧ t ≤ layerLimit 17) :=
  ⟨by decide, by decide,
    C16_tower_at_most_peak_limit flipCoin afterPeak 17
      (ReachedWithPeak.erase atPeak 17 1 atPeak_reached) 255 (by decide)⟩

end SkipList

/-! ## The visited count of collectPredecessors -/

namespace SkipList
variable {K V : Type} [LinearOrder K]

/-- The rightward steps of one layer of the search path: the cells stepped on are real,
their keys increase strictly, lie below `key` and above the key of the entry cell `x`, and
none is beyond the cell the walk stops at. -/
theorem steps_layer {pre rest : List (Cell K V)} {x : Cell K V} (key : K)
    (hpw : (pre ++ x :: rest).Pairwise Cell.before) :
    ((rest.takeWhile (Cell.below key)).map Cell.key).Pairwise (· < ·) ∧
      (∀ t ∈ rest.takeWhile (Cell.below key), t.keyValid = true ∧ t.key < key ∧
        (x.keyValid = true → x.key < t.key) ∧ (stopCell key x rest).keyValid = true ∧
        t.key ≤ (stopCell key x rest).key ∧ hasKey t.key (pre ++ x :: rest) = true) ∧
      (x.keyValid = true →
        (stopCell key x rest).keyValid = true ∧ x.key ≤ (stopCell key x rest).key) := by
  have hxr : (x :: rest).Pairwise Cell.before :=
    hpw.sublist (List.sublist_append_right _ _)
  obtain ⟨hx, hrest⟩ := List.pairwise_cons.mp hxr
  have hsub : (rest.takeWhile (Cell.below key)).Sublist rest := List.takeWhile_sublist _
  have hT : (rest.takeWhile (Cell.below key)).Pairwise Cell.before := hrest.sublist hsub
  have hbasic : ∀ t ∈ rest.takeWhile (Cell.below key), t.keyValid = true ∧ t.key < key ∧
      (x.keyValid = true → x.key < t.key) := by
    intro t ht
    have hb := hx t (hsub.subset ht)
    have hbel := List.mem_takeWhile_imp ht
    simp only [Cell.below, Bool.or_eq_true, Bool.not_eq_true', decide_eq_true_eq] at hbel
    refine ⟨hb.1, ?_, hb.2⟩
    rcases hbel with h | h
    · rw [hb.1] at h; exact absurd h (by simp)
    · exact h
  have hlast : ∀ t ∈ rest.takeWhile (Cell.below key),
      (stopCell key x rest).keyValid = true ∧ t.key ≤ (stopCell key x rest).key := by
    intro t ht
    have hne : rest.takeWhile (Cell.below key) ≠ [] := List.ne_nil_of_mem ht
    have hsp := List.dropLast_append_getLast hne
    have hstop : stopCell key x rest = (rest.takeWhile (Cell.below key)).getLast hne := by
      rw [stopCell, List.getLastD_eq_getLast?, List.getLast?_eq_getLast _ hne]
      rfl
    have hpm : (rest.takeWhile (Cell.below key)).getLast hne ∈
        rest.takeWhile (Cell.below key) := List.getLast_mem hne
    rw [hstop]
    refine ⟨(hbasic _ hpm).1, ?_⟩
    rw [← hsp] at ht hT
    rcases List.mem_append.mp ht with h | h
    · have hb := (List.pairwise_append.mp hT).2.2 t h _ (List.mem_singleton_self _)
      exact le_of_lt (hb.2 (hbasic t (by rw [← hsp]; exact List.mem_append_left _ h)).1)
    · rw [List.mem_singleton.mp h]
  refine ⟨?_, ?_, ?_⟩
  · rw [List.pairwise_map]
    refine List.Pairwise.imp_of_mem ?_ hT
    intro a b ha _ hab
    exact hab.2 (hbasic a ha).1
  · intro t ht
    obtain ⟨h1, h2, h3⟩ := hbasic t ht
    obtain ⟨h4, h5⟩ := hlast t ht
    refine ⟨h1, h2, h3, h4, h5, ?_⟩
    exact hasKey_of_mem
      (List.mem_append_right _ (List.mem_cons_of_mem _ (hsub.subset ht)))
      (is_iff.mpr ⟨h1, rfl⟩)
  · intro hxv
    cases hT0 : rest.takeWhile (Cell.below key) with
    | nil =>
      have : stopCell key x rest = x := by rw [stopCell, hT0]; rfl
      rw [this]
      exact ⟨hxv, le_refl _⟩
    | cons t T =>
      have ht : t ∈ rest.takeWhile (Cell.below key) := by rw [hT0]; exact List.mem_cons_self _ _
      obtain ⟨h4, h5⟩ := hlast t ht
      exact ⟨h4, le_trans (le_of_lt ((hbasic t ht).2.2 hxv)) h5⟩

/-- Source `collectPredecessors` with its count: one visit per layer and one per rightward
step, and the keys stepped on, listed along the search path, increase strictly, are below
`key` and belong to the layers. -/
theorem collectLoop_visited {mem : Mem K V} (key : K) (inner : Nat)
    (ls : List (List (Cell K V))) :
    ∀ (L pre rest : List (Cell K V)) (x : Cell K V) (preds : List Nat) (visited fuel : Nat),
      Tower mem (L :: ls) → L = pre ++ x :: rest → x.below key = true →
      (∀ M ∈ L :: ls, M.length < inner) → ls.length + 1 < fuel →
      ∃ S : List K, collectLoop mem key inner fuel (some x.addr) preds visited =
          .ok (preds ++ predAddrs key (L :: ls), visited + (ls.length + 1) + S.length) ∧
        S.Pairwise (· < ·) ∧
        ∀ m ∈ S, m < key ∧ (x.keyValid = true → x.key < m) ∧
          ∃ M ∈ L :: ls, hasKey m M = true := by
  induction ls with
  | nil =>
    intro L pre rest x preds visited fuel ht hL hx hin hf
    subst hL
    obtain ⟨hLok, hB⟩ := ht.single
    obtain ⟨preP, p, post, r, hsplit, _, hpred, _, _, _, _, _, hwalk, hm, _, _, _⟩ :=
      visit_layer key inner hLok hx (length_rest_lt (hin _ (List.mem_cons_self _ _)))
    have hpm : p ∈ pre ++ x :: rest := by rw [hsplit]; simp
    have hdown : p.down = none := hB p hpm
    obtain ⟨hd, cells, hLe, _, hpw, _⟩ := hLok
    obtain ⟨hs1, hs2, _⟩ := steps_layer key hpw
    match fuel, hf with
    | f + 2, _ =>
      refine ⟨(rest.takeWhile (Cell.below key)).map Cell.key, ?_, hs1, ?_⟩
      · simp only [collectLoop, hwalk, hm, Cell.node, hdown, predAddrs_cons hpred]
        simp [predAddrs]
      · intro m hm
        obtain ⟨t, ht, rfl⟩ := List.mem_map.mp hm
        obtain ⟨_, h2, h3, _, _, h6⟩ := hs2 t ht
        exact ⟨h2, h3, _, List.mem_cons_self _ _, h6⟩
  | cons L1 ls ih =>
    intro L pre rest x preds visited fuel ht hL hx hin hf
    subst hL
    obtain ⟨ht1, hLok, hlink⟩ := ht.tail
    obtain ⟨preP, p, post, r, hsplit, hpstop, hpred, _, _, _, hpb, _, hwalk, hm, _, _, _⟩ :=
      visit_layer key inner hLok hx (length_rest_lt (hin _ (List.mem_cons_self _ _)))
    have hpm : p ∈ pre ++ x :: rest := by rw [hsplit]; simp
    obtain ⟨pre1, d, rest1, hL1, hdown, hdb, hdv, hdk⟩ := down_step hlink hpm hpb
    obtain ⟨hd, cells, hLe, _, hpw, _⟩ := hLok
    obtain ⟨hs1, hs2, hs3⟩ := steps_layer key hpw
    rw [← hpstop] at hs2 hs3
    match fuel, hf with
    | f + 1, hf =>
      obtain ⟨S1, h1, hS1, hS1m⟩ := ih L1 pre1 rest1 d (preds ++ [p.addr])
        (visited + 1 + (rest.takeWhile (Cell.below key)).length) f ht1 hL1 hdb
        (fun M hM => hin M (List.mem_cons_of_mem _ hM)) (by simpa using hf)
      refine ⟨(rest.takeWhile (Cell.below key)).map Cell.key ++ S1, ?_, ?_, ?_⟩
      · simp only [collectLoop, hwalk, hm, Cell.node, hdown, h1, predAddrs_cons hpred]
        simp
        omega
      · refine List.pairwise_append.mpr ⟨hs1, hS1, ?_⟩
        intro a ha b hb
        obtain ⟨t, ht, rfl⟩ := List.mem_map.mp ha
        obtain ⟨_, _, _, h4, h5, _⟩ := hs2 t ht
        have hb2 := (hS1m b hb).2.1 (by rw [hdv]; exact h4)
        rw [hdk h4] at hb2
        exact lt_of_le_of_lt h5 hb2
      · intro m hm
        rcases List.mem_append.mp hm with hm | hm
        · obtain ⟨t, ht, rfl⟩ := List.mem_map.mp hm
          obtain ⟨_, h2, h3, _, _, h6⟩ := hs2 t ht
          exact ⟨h2, h3, _, List.mem_cons_self _ _, h6⟩
        · obtain ⟨g1, g2, M, hM, g3⟩ := hS1m m hm
          refine ⟨g1, ?_, M, List.mem_cons_of_mem _ hM, g3⟩
          intro hxv
          obtain ⟨hpv, hxp⟩ := hs3 hxv
          have hb2 := g2 (by rw [hdv]; exact hpv)
          rw [hdk hpv] at hb2
          exact lt_of_le_of_lt hxp hb2

/-- Source `collectPredecessors` on a well-formed structure, from a count of zero: the
count is the number of layers plus the number of keys stepped on, which are pairwise
distinct keys of the structure below `key`. -/
theorem collectPredecessors_visited {s : SkipList K V} {ls : List (List (Cell K V))}
    (hinv : Inv s ls) (key : K) :
    ∃ (S : List K) (B : List (Cell K V)), ls.getLast? = some B ∧
      collectPredecessors s key 0 = .ok (predAddrs key ls, ls.length + S.length) ∧
      S.Nodup ∧ ∀ m ∈ S, m < key ∧ m ∈ keysOf B := by
  obtain ⟨hd, rest, hls, htop, hhv, hrest⟩ := hinv.cons
  obtain ⟨B, hB, _⟩ := hinv.bottom_layer
  have hsh := hinv.shape
  have hlen := hsh.length_le
  subst hls
  have hx : hd.below key = true := by simp [Cell.below, hhv]
  obtain ⟨S, h1, h2, h3⟩ := collectLoop_visited key (s.next + 1) rest [hd] [] [] hd [] 0
    (s.next + 1) hsh.tower rfl hx (fun M hM => Nat.lt_succ_of_le (hsh.layer_le hM))
    (by simp at hlen; omega)
  refine ⟨S, B, hB, ?_, ?_, ?_⟩
  · rw [collectPredecessors, htop, h1]
    simp
  · exact h2.imp (fun h => ne_of_lt h)
  · intro m hm
    obtain ⟨g1, _, M, hM, g3⟩ := h3 m hm
    refine ⟨g1, hasKey_iff_keysOf.mp ?_⟩
    rw [← hsh.tower.any_hasKey m hB, List.any_eq_true]
    exact ⟨M, hM, g3⟩

section Claims
variable [Inhabited K] [Inhabited V]

/-- The count a successful `insert` returns lies between the number of layers and that
number plus the number of present keys below the new key. -/
theorem insert_visited_bounds (flip : K → Nat → Bool) {s : SkipList K V}
    {ls : List (List (Cell K V))} (hinv : Inv s ls) (k : K) (v : V)
    (hk : contains s k = false) :
    ∃ (c : Nat) (ks S : List K), (insert flip s k v).1 = .ok (some c) ∧ allKeysInOrder s = .ok ks ∧
      c = layers s + S.length ∧ S.Nodup ∧ (∀ m ∈ S, m ∈ ks ∧ m < k) ∧
      layers s ≤ c ∧ c ≤ layers s + (ks.filter (fun m => decide (m < k))).length := by
  obtain ⟨visited, _, _, B, hB, _, hkeys, _, _, hcol, hres, _⟩ :=
    insert_absent flip hinv k v hk
  obtain ⟨S, B2, hB2, hcol2, hnd, hS⟩ := collectPredecessors_visited hinv k
  rw [hB] at hB2
  have hBB : B = B2 := Option.some.inj hB2
  subst hBB
  rw [hcol] at hcol2
  have hv : visited = ls.length + S.length := by
    have := ok_injective hcol2
    exact congrArg Prod.snd this
  have hL : layers s = ls.length := hinv.height
  have hsub : S ⊆ (keysOf B).filter (fun m => decide (m < k)) := by
    intro m hm
    obtain ⟨g1, g2⟩ := hS m hm
    exact List.mem_filter.mpr ⟨g2, by simpa using g1⟩
  have hle := (List.subperm_of_subset hnd hsub).length_le
  refine ⟨visited, keysOf B, S, hres, hkeys, by rw [hv, hL], hnd,
    fun m hm => ⟨(hS m hm).2, (hS m hm).1⟩, by omega, by omega⟩

/-- C20: on a reachable structure with `L` layers before the call, the visited count `c`
that a successful `insert(k, v)` of an absent key returns is `L` plus the number of
rightward steps, which land on pairwise distinct present keys below `k`; so
`L ≤ c ≤ L + #{present keys < k}`. The first insert into a fresh structure returns 2. -/
theorem C20_insert_visited_count (flip : K → Nat → Bool) (s : SkipList K V)
    (hr : Reachable flip s) (k : K) (v : V) (hk : contains s k = false) :
    (∃ (c : Nat) (ks S : List K), (insert flip s k v).1 = .ok (some c) ∧ allKeysInOrder s = .ok ks ∧
      c = layers s + S.length ∧ S.Nodup ∧ (∀ m ∈ S, m ∈ ks ∧ m < k) ∧
      layers s ≤ c ∧ c ≤ layers s + (ks.filter (fun m => decide (m < k))).length) ∧
    (insert flip (SkipList.create : SkipList K V) k v).1 = .ok (some 2) := by
  obtain ⟨ls, hinv⟩ := reachable_inv hr
  refine ⟨insert_visited_bounds flip hinv k v hk, ?_⟩
  have hkeys0 : allKeysInOrder (SkipList.create : SkipList K V) = .ok [] := by
    obtain ⟨B, hB, hkeys, _⟩ := (create_inv : Inv (SkipList.create : SkipList K V) _).view
    simp at hB
    rw [← hB] at hkeys
    exact hkeys
  have h0 : contains (SkipList.create : SkipList K V) k = false :=
    (contains_false_iff hkeys0 k).mpr (by simp)
  obtain ⟨c, ks, S, hres, hkeys, _, _, _, h1, h2⟩ :=
    insert_visited_bounds flip (create_inv : Inv (SkipList.create : SkipList K V) _) k v h0
  rw [hkeys0] at hkeys
  have hks : ks = [] := (ok_injective hkeys).symm
  subst hks
  have hl : layers (SkipList.create : SkipList K V) = 2 := rfl
  rw [hl] at h1 h2
  simp at h2
  have hc : c = 2 := by omega
  rw [hres, hc]

/-- C20 on the scenario structure, which has six layers: inserting the absent key 7, with
the one present key 5 below it, returns 7. -/
theorem C20_insert_visited_count_witness :
    contains scenario 7 = false ∧ layers scenario = 6 ∧
      (insert flipCoin scenario 7 70).1 = .ok (some 7) ∧
      ((∃ (c : Nat) (ks S : List Nat), (insert flipCoin scenario 7 70).1 = .ok (some c) ∧
          allKeysInOrder scenario = .ok ks ∧
          c = layers scenario + S.length ∧ S.Nodup ∧ (∀ m ∈ S, m ∈ ks ∧ m < 7) ∧
          layers scenario ≤ c ∧
          c ≤ layers scenario + (ks.filter (fun m => decide (m < 7))).length) ∧
        (insert flipCoin (SkipList.create : SkipList Nat Nat) 7 70).1 = .ok (some 2)) :=
  ⟨by decide, by decide, by decide,
    C20_insert_visited_count flipCoin scenario scenario_reachable 7 70 (by decide)⟩

end Claims

end SkipList
